import Mathlib

/-!
# ASCII property-list parse driver (plist/ASCIIParser.cpp)

A shallow embedding of the parse driver `ASCIIParserParse`, of the hex
decoding helpers `hex_to_bin_digit` / `hex_to_bin`, and of the parts of the
object model, the lexer interface and the parser context the driver uses.

The entry points `ASCIIParser::parse`, the equality of `plist::Data`
(plist/Data.h) and the expansion of recursive search paths
(pbxbuild/Tool/SearchPaths.cpp, in the namespace `pbxbuild`) follow.

A `double` is an IEEE-754 binary64 value given by sign, mantissa and
exponent, and `atof` is the correctly rounding `strtod` of the C library.

The lexer (`plist/ASCIIPListLexer.h`) and the parser context
(`plist/ASCIIPListParser.h`) are not part of the sources at hand.  The lexer is
represented by the stream of tokens it hands out, each token carrying the
text its copy helper returns.  The context operations are modelled from the
specification; each such definition says so in its doc comment.
-/

namespace plist

/-! ## Object model -/

/-- An IEEE-754 binary64 value.  A finite value is `mantissa * 2 ^ exponent`
with its sign, in the one form the format has for it: `mantissa < 2 ^ 53`,
`-1074 ≤ exponent ≤ 971`, and `mantissa < 2 ^ 52` only with the exponent
-1074 (subnormal numbers and zero).  Equality of two such values is identity
of the value held, not the comparison `==` of C: the two zeros differ. -/
inductive Double where
  | finite (negative : Bool) (mantissa : Nat) (exponent : Int)
  | infinite (negative : Bool)
  | nan
  deriving DecidableEq, Repr

/-- The rational number a finite double stands for; 0 for the others. -/
def Double.toRat : Double → ℚ
  | Double.finite negative mantissa exponent =>
    (if negative then -1 else 1) * (mantissa : ℚ) * (2 : ℚ) ^ exponent
  | _ => 0

/-- The closed sum of plist values (plist/Objects.h).  `data` holds the
`std::vector<uint8_t>` as a list of naturals below 256; `dictionary` holds the
entries in insertion order. -/
inductive Object where
  | string (value : String)
  | integer (value : Int)
  | real (value : Double)
  | boolean (value : Bool)
  | data (value : List Nat)
  | array (items : List Object)
  | dictionary (entries : List (String × Object))

/-- Modelled from the spec: `Dictionary.set(key, value)` of the object model
(plist/Dictionary.h is not among the sources): inserts, or replaces the value
of an existing key while keeping the position of its first insertion. -/
def Dictionary.set : List (String × Object) → String → Object → List (String × Object)
  | [], k, v => [(k, v)]
  | (k0, v0) :: rest, k, v =>
    if k0 = k then (k, v) :: rest else (k0, v0) :: Dictionary.set rest k v

/-- The keys of a dictionary in iteration order. -/
def Dictionary.keys (entries : List (String × Object)) : List String :=
  entries.map Prod.fst

/-- Modelled from the spec: `Dictionary.get(key)` of the object model. -/
def Dictionary.get : List (String × Object) → String → Option Object
  | [], _ => none
  | (k0, v0) :: rest, k => if k0 = k then some v0 else Dictionary.get rest k

/-! ## libc functions used by the driver -/

/-- The largest `long` (LP64). -/
def LONG_MAX : Int := 2 ^ 63 - 1

/-- The smallest `long` (LP64). -/
def LONG_MIN : Int := -(2 ^ 63)

/-- The libc `isspace` in the C locale. -/
def isspace (c : Char) : Bool :=
  c.toNat = 32 || (9 ≤ c.toNat && c.toNat ≤ 13)

/-- The libc `isdigit`. -/
def isdigit (c : Char) : Bool :=
  48 ≤ c.toNat && c.toNat ≤ 57

/-- The value of the longest run of decimal digits at the head of the text,
accumulated on `acc`. -/
def digitsValue : List Char → Nat → Nat
  | [], acc => acc
  | c :: cs, acc => if isdigit c then digitsValue cs (acc * 10 + (c.toNat - 48)) else acc

/-- The optional sign of a number text: whether it is negative, and the rest. -/
def takeSign : List Char → Bool × List Char
  | [] => (false, [])
  | c :: cs => if c = '-' then (true, cs) else if c = '+' then (false, cs) else (false, c :: cs)

/-- The mathematical value that `strtol(s, NULL, 10)` reads: leading white
space is skipped, then an optional sign, then the longest run of decimal
digits; anything after it is ignored. -/
def decimalValue (s : List Char) : Int :=
  let p := takeSign (s.dropWhile isspace)
  if p.1 then -(digitsValue p.2 0 : Int) else (digitsValue p.2 0 : Int)

/-- The libc `atol`, that is `strtol(s, NULL, 10)`: the decimal value read,
clamped to the range of `long` when it does not fit (the C standard leaves
that case undefined; the clamp is what strtol-based C libraries return). -/
def atol (s : String) : Int :=
  let v := decimalValue s.toList
  if v > LONG_MAX then LONG_MAX else if v < LONG_MIN then LONG_MIN else v

/-- The number of binary digits of `n`, for `n < 2 ^ fuel`. -/
def bitLength : Nat → Nat → Nat
  | 0, _ => 0
  | fuel + 1, n => if n = 0 then 0 else bitLength fuel (n / 2) + 1

/-- The exponent `k` with `2 ^ k ≤ num / den < 2 ^ (k + 1)`, for positive
`num` and `den`. -/
def floorLog2 (num den : Nat) : Int :=
  let k : Int := (bitLength num num : Int) - (bitLength den den : Int)
  if 0 ≤ k then
    if den * 2 ^ k.toNat ≤ num then k else k - 1
  else
    if den ≤ num * 2 ^ (-k).toNat then k else k - 1

/-- The integer nearest to `a / b`, the even one of two that are equally
near. -/
def roundHalfEven (a b : Nat) : Nat :=
  let q := a / b
  let r := a % b
  if 2 * r < b then q
  else if b < 2 * r then q + 1
  else if q % 2 = 0 then q else q + 1

/-- The double nearest to `num / den` (`den` positive) with the given sign,
rounding to nearest, ties to even, as IEEE-754 has it; a value that rounds to
`2 ^ 1024` or above is infinite. -/
def Double.ofRatio (negative : Bool) (num den : Nat) : Double :=
  if num = 0 then
    Double.finite negative 0 (-1074)
  else
    let e : Int := max (floorLog2 num den - 52) (-1074)
    let m : Nat :=
      if 0 ≤ e then roundHalfEven num (den * 2 ^ e.toNat)
      else roundHalfEven (num * 2 ^ (-e).toNat) den
    if m = 2 ^ 53 then
      if 971 < e + 1 then Double.infinite negative else Double.finite negative (2 ^ 52) (e + 1)
    else
      if 971 < e then Double.infinite negative else Double.finite negative m e

/-- The double nearest to `mantissa * 10 ^ exponent`. -/
def Double.ofDecimal (negative : Bool) (mantissa : Nat) (exponent : Int) : Double :=
  if 0 ≤ exponent then Double.ofRatio negative (mantissa * 10 ^ exponent.toNat) 1
  else Double.ofRatio negative mantissa (10 ^ (-exponent).toNat)

/-- The double nearest to `mantissa * 2 ^ exponent`. -/
def Double.ofBinary (negative : Bool) (mantissa : Nat) (exponent : Int) : Double :=
  if 0 ≤ exponent then Double.ofRatio negative (mantissa * 2 ^ exponent.toNat) 1
  else Double.ofRatio negative mantissa (2 ^ (-exponent).toNat)

/-- The libc `tolower` on the letters of the ASCII alphabet. -/
def tolower (c : Char) : Char :=
  if 65 ≤ c.toNat ∧ c.toNat ≤ 90 then Char.ofNat (c.toNat + 32) else c

/-- Whether the text starts with the given lower-case word, letter case
ignored. -/
def startsWithWord : List Char → List Char → Bool
  | [], _ => true
  | _ :: _, [] => false
  | w :: ws, c :: cs => tolower c = w && startsWithWord ws cs

/-- The libc `isxdigit`. -/
def isxdigit (c : Char) : Bool :=
  (48 ≤ c.toNat && c.toNat ≤ 57) || (65 ≤ c.toNat && c.toNat ≤ 70) ||
    (97 ≤ c.toNat && c.toNat ≤ 102)

/-- The value of one hexadecimal digit character. -/
def xdigitValue (c : Char) : Nat :=
  if 48 ≤ c.toNat ∧ c.toNat ≤ 57 then c.toNat - 48
  else if 65 ≤ c.toNat ∧ c.toNat ≤ 70 then c.toNat - 55
  else c.toNat - 87

/-- The value of a run of hexadecimal digits, accumulated on `acc`. -/
def xdigitsValue : List Char → Nat → Nat
  | [], acc => acc
  | c :: cs, acc => xdigitsValue cs (acc * 16 + xdigitValue c)

/-- The optional exponent part of a floating constant: a letter, `lower` or `upper`,
then an optional sign and at least one decimal digit; 0 when there
is no such part. -/
def exponentPart (lower upper : Char) : List Char → Int
  | [] => 0
  | c :: cs =>
    if c = lower ∨ c = upper then
      let p := takeSign cs
      let ds := p.2.takeWhile isdigit
      if ds = [] then 0
      else if p.1 then -(digitsValue ds 0 : Int) else (digitsValue ds 0 : Int)
    else 0

/-- The digits after a radix character `.` at the head of the text, and what
follows them; no digits when the text does not start with `.`. -/
def fractionPart (digit : Char → Bool) : List Char → List Char × List Char
  | [] => ([], [])
  | c :: cs => if c = '.' then (cs.takeWhile digit, cs.dropWhile digit) else ([], c :: cs)

/-- The decimal floating constant at the head of the text, as `strtod` reads
it: digits with an optional radix character and an optional exponent; zero
when there is no digit at all. -/
def decimalConstant (negative : Bool) (s : List Char) : Double :=
  let whole := s.takeWhile isdigit
  let p := fractionPart isdigit (s.dropWhile isdigit)
  if whole = [] ∧ p.1 = [] then
    Double.finite false 0 (-1074)
  else
    Double.ofDecimal negative (digitsValue (whole ++ p.1) 0)
      (exponentPart 'e' 'E' p.2 - (p.1.length : Int))

/-- The hexadecimal floating constant after the characters `0x`, as `strtod`
reads it; `none` when no hexadecimal digit follows. -/
def hexConstant (negative : Bool) (s : List Char) : Option Double :=
  let whole := s.takeWhile isxdigit
  let p := fractionPart isxdigit (s.dropWhile isxdigit)
  if whole = [] ∧ p.1 = [] then
    none
  else
    some (Double.ofBinary negative (xdigitsValue (whole ++ p.1) 0)
      (exponentPart 'p' 'P' p.2 - 4 * (p.1.length : Int)))

/-- The libc `strtod(s, NULL)`, correctly rounded: white space, an optional
sign, then `inf` or `infinity`, `nan`, a hexadecimal or a decimal floating
constant; zero when nothing can be read. -/
def strtod (s : List Char) : Double :=
  let p := takeSign (s.dropWhile isspace)
  if startsWithWord ['i', 'n', 'f'] p.2 then Double.infinite p.1
  else if startsWithWord ['n', 'a', 'n'] p.2 then Double.nan
  else
    match p.2 with
    | c0 :: c1 :: rest =>
      if c0 = '0' ∧ (c1 = 'x' ∨ c1 = 'X') then
        match hexConstant p.1 rest with
        | some d => d
        | none => decimalConstant p.1 p.2
      else decimalConstant p.1 p.2
    | _ => decimalConstant p.1 p.2

/-- The libc `atof`, that is `strtod(s, NULL)`. -/
def atof (s : String) : Double :=
  strtod s.toList

/-- The test `strchr(contents, ch) != NULL`. -/
def strchr (contents : String) (ch : Char) : Bool :=
  contents.toList.contains ch

/-! ## Hex decoding (ASCIIParser.cpp, lines 44-61) -/

/-- The function `hex_to_bin_digit`: the value of one hex digit, 0 for any other
character. -/
def hex_to_bin_digit (ch : Char) : Nat :=
  if 'a'.toNat ≤ ch.toNat ∧ ch.toNat ≤ 'f'.toNat then
    ((ch.toNat - 'a'.toNat) + 10) % 256
  else if 'A'.toNat ≤ ch.toNat ∧ ch.toNat ≤ 'F'.toNat then
    ((ch.toNat - 'A'.toNat) + 10) % 256
  else if '0'.toNat ≤ ch.toNat ∧ ch.toNat ≤ '9'.toNat then
    (ch.toNat - '0'.toNat) % 256
  else
    0

/-- The character `ascii[i]` of a NUL-terminated C string whose characters
before the terminator are `ascii`: index `ascii.length` reads the terminator. -/
def cstrAt (ascii : List Char) (i : Nat) : Char :=
  ascii.getD i (Char.ofNat 0)

/-- The function `hex_to_bin` applied to the pointer `ascii + n`: two digits
packed into one `uint8_t`. -/
def hex_to_bin (ascii : List Char) (n : Nat) : Nat :=
  ((hex_to_bin_digit (cstrAt ascii n) <<< 4) ||| hex_to_bin_digit (cstrAt ascii (n + 1))) % 256

/-- The values `n` takes in `for (n = 0; n < alength; n += 2)`: the even
numbers below `alength`, in increasing order. -/
def dataLoopIndices (alength : Nat) : List Nat :=
  (List.range alength).filter (fun n => n % 2 = 0)

/-- One iteration `bytes[n >> 1] = hex_to_bin(contents + n)`.  A write at an
index outside the vector is undefined behaviour: `none`. -/
def dataLoopBody (contents : List Char) (bytes : Option (List Nat)) (n : Nat) :
    Option (List Nat) :=
  match bytes with
  | none => none
  | some bs => if n >>> 1 < bs.length then some (bs.set (n >>> 1) (hex_to_bin contents n)) else none

/-- The decoding of a Data literal (ASCIIParser.cpp, lines 216-223):
`alength = strlen(contents)`, `length = alength / 2`, a vector of `length`
zero bytes, and the loop over `hex_to_bin`.  The result is `none` when the
loop writes outside the vector. -/
def decodeData (contents : String) : Option (List Nat) :=
  let alength := contents.toList.length
  let length := alength / 2
  (dataLoopIndices alength).foldl (dataLoopBody contents.toList) (some (List.replicate length 0))

/-! ## Lexer interface -/

/-- The token codes of plist/ASCIIPListLexer.h that the driver names.  The
first seven are the negative codes (`token < 0`); `semicolon` and `comma` are
the raw character codes of the two entry separators; `unknownError` stands
for any other negative code and `other` for any other non-negative code. -/
inductive ASCIIPListLexerToken where
  | kASCIIPListLexerEndOfFile
  | kASCIIPListLexerInvalidToken
  | kASCIIPListLexerUnterminatedLongComment
  | kASCIIPListLexerUnterminatedUnquotedString
  | kASCIIPListLexerUnterminatedQuotedString
  | kASCIIPListLexerUnterminatedData
  | unknownError
  | kASCIIPListLexerTokenInlineComment
  | kASCIIPListLexerTokenLongComment
  | kASCIIPListLexerTokenUnquotedString
  | kASCIIPListLexerTokenQuotedString
  | kASCIIPListLexerTokenData
  | kASCIIPListLexerTokenNumber
  | kASCIIPListLexerTokenHexNumber
  | kASCIIPListLexerTokenBoolFalse
  | kASCIIPListLexerTokenBoolTrue
  | kASCIIPListLexerTokenDictionaryStart
  | kASCIIPListLexerTokenDictionaryEnd
  | kASCIIPListLexerTokenArrayStart
  | kASCIIPListLexerTokenArrayEnd
  | kASCIIPListLexerTokenDictionaryKeyValSeparator
  | semicolon
  | comma
  | other
  deriving DecidableEq, Repr

open ASCIIPListLexerToken

/-- The test `token < 0`. -/
def ASCIIPListLexerToken.isNegative : ASCIIPListLexerToken → Bool
  | kASCIIPListLexerEndOfFile => true
  | kASCIIPListLexerInvalidToken => true
  | kASCIIPListLexerUnterminatedLongComment => true
  | kASCIIPListLexerUnterminatedUnquotedString => true
  | kASCIIPListLexerUnterminatedQuotedString => true
  | kASCIIPListLexerUnterminatedData => true
  | unknownError => true
  | _ => false

/-- One token as the driver sees it: the code `ASCIIPListLexerReadToken`
returns, and the text the copy helper returns for it
(`ASCIIPListCopyUnquotedString` for string and number tokens, the packed hex
digits of `ASCIIPListCopyData` for a Data token).  The text is a C string: its
characters before the terminator. -/
structure Token where
  kind : ASCIIPListLexerToken
  contents : String
  deriving DecidableEq, Repr

/-- The lexer, represented by the tokens it has yet to hand out; once they
are exhausted it returns EndOfFile. -/
abbrev ASCIIPListLexer := List Token

/-! ## Parser context -/

/-- A frame of the container stack: an in-progress Array, or an in-progress
Dictionary with its pending-key slot. -/
inductive Frame where
  | array (items : List Object)
  | dictionary (entries : List (String × Object)) (key : Option String)

/-- The parser context of plist/ASCIIPListParser.h, with the fields the
specification lists: container stack (top first), root, level counter, done
flag and error slot. -/
structure ASCIIPListParserContext where
  stack : List Frame
  root : Option Object
  level : Int
  done : Bool
  error : Option String

/-- Modelled from the spec: `ASCIIPListParserContextInit` (absent from the
sources): empty stack, level 0, done flag clear, no error. -/
def ASCIIPListParserContextInit : ASCIIPListParserContext :=
  { stack := [], root := none, level := 0, done := false, error := none }

/-- Modelled from the spec: `ASCIIPListParserAbort` (absent from the sources):
the error slot is set, the first error being preserved, and the partially built
tree is discarded.  A null message is `none`. -/
def ASCIIPListParserAbort (context : ASCIIPListParserContext) (message : Option String) :
    ASCIIPListParserContext :=
  { context with
    stack := []
    root := none
    error := match context.error with
      | some e => some e
      | none => message }

/-- Modelled from the spec: `ASCIIPListParserIsDone` (absent from the sources):
the done flag. -/
def ASCIIPListParserIsDone (context : ASCIIPListParserContext) : Bool :=
  context.done

/-- Modelled from the spec: `ASCIIPListParserGetLevel` (absent from the
sources): the level counter. -/
def ASCIIPListParserGetLevel (context : ASCIIPListParserContext) : Int :=
  context.level

/-- Modelled from the spec: `ASCIIPListParserIncrementLevel` (absent from the
sources). -/
def ASCIIPListParserIncrementLevel (context : ASCIIPListParserContext) :
    ASCIIPListParserContext :=
  { context with level := context.level + 1 }

/-- Modelled from the spec: `ASCIIPListParserDecrementLevel` (absent from the
sources). -/
def ASCIIPListParserDecrementLevel (context : ASCIIPListParserContext) :
    ASCIIPListParserContext :=
  { context with level := context.level - 1 }

/-- Modelled from the spec: `ASCIIPListParserIsDictionary` (absent from the
sources): the top frame is a Dictionary with no pending key, the condition
under which a literal is stored as a key. -/
def ASCIIPListParserIsDictionary (context : ASCIIPListParserContext) : Bool :=
  match context.stack with
  | Frame.dictionary _ none :: _ => true
  | _ => false

/-- Modelled from the spec: `ASCIIPListParserIsArray` (absent from the
sources): the top frame is an Array. -/
def ASCIIPListParserIsArray (context : ASCIIPListParserContext) : Bool :=
  match context.stack with
  | Frame.array _ :: _ => true
  | _ => false

/-- Modelled from the spec: `ASCIIPListParserStoreKey` (absent from the
sources): in a Dictionary frame with an empty slot the string becomes the
pending key; a no-op returning failure once the error slot is set.  The text
of the message is not given by the specification. -/
def ASCIIPListParserStoreKey (context : ASCIIPListParserContext) (key : String) :
    Bool × ASCIIPListParserContext :=
  match context.error with
  | some _ => (false, context)
  | none =>
    match context.stack with
    | Frame.dictionary entries none :: rest =>
      (true, { context with stack := Frame.dictionary entries (some key) :: rest })
    | _ => (false, ASCIIPListParserAbort context (some "Unexpected dictionary key"))

/-- Modelled from the spec: `ASCIIPListParserStoreValue` (absent from the
sources): in an Array frame the value is appended; in a Dictionary frame it
fills the pending key (a later store with an existing key overwrites) and
clears the slot; at top level with the done flag clear it becomes the root.
A no-op returning failure once the error slot is set.  The texts of the
messages are not given by the specification. -/
def ASCIIPListParserStoreValue (context : ASCIIPListParserContext) (value : Object) :
    Bool × ASCIIPListParserContext :=
  match context.error with
  | some _ => (false, context)
  | none =>
    match context.stack with
    | [] =>
      if context.done then
        (false, ASCIIPListParserAbort context (some "Unexpected value after the root"))
      else
        (true, { context with root := some value })
    | Frame.array items :: rest =>
      (true, { context with stack := Frame.array (items ++ [value]) :: rest })
    | Frame.dictionary entries (some key) :: rest =>
      (true, { context with
        stack := Frame.dictionary (Dictionary.set entries key value) none :: rest })
    | Frame.dictionary _ none :: _ =>
      (false, ASCIIPListParserAbort context (some "Unexpected value without a key"))

/-- Modelled from the spec: `ASCIIPListParserDictionaryBegin` (absent from the
sources): pushes a Dictionary frame. -/
def ASCIIPListParserDictionaryBegin (context : ASCIIPListParserContext) :
    Bool × ASCIIPListParserContext :=
  match context.error with
  | some _ => (false, context)
  | none => (true, { context with stack := Frame.dictionary [] none :: context.stack })

/-- Modelled from the spec: `ASCIIPListParserArrayBegin` (absent from the
sources): pushes an Array frame. -/
def ASCIIPListParserArrayBegin (context : ASCIIPListParserContext) :
    Bool × ASCIIPListParserContext :=
  match context.error with
  | some _ => (false, context)
  | none => (true, { context with stack := Frame.array [] :: context.stack })

/-- Modelled from the spec: `ASCIIPListParserDictionaryEnd` (absent from the
sources): if the top frame is a Dictionary with no pending key it is popped, and
the finished Dictionary is stored as a value in what is below it. -/
def ASCIIPListParserDictionaryEnd (context : ASCIIPListParserContext) :
    Bool × ASCIIPListParserContext :=
  match context.error with
  | some _ => (false, context)
  | none =>
    match context.stack with
    | Frame.dictionary entries none :: rest =>
      ASCIIPListParserStoreValue { context with stack := rest } (Object.dictionary entries)
    | _ => (false, ASCIIPListParserAbort context (some "Unexpected dictionary end"))

/-- Modelled from the spec: `ASCIIPListParserArrayEnd` (absent from the
sources): if the top frame is an Array it is popped, and the finished Array is
stored as a value in what is below it. -/
def ASCIIPListParserArrayEnd (context : ASCIIPListParserContext) :
    Bool × ASCIIPListParserContext :=
  match context.error with
  | some _ => (false, context)
  | none =>
    match context.stack with
    | Frame.array items :: rest =>
      ASCIIPListParserStoreValue { context with stack := rest } (Object.array items)
    | _ => (false, ASCIIPListParserAbort context (some "Unexpected array end"))

/-- Modelled from the spec: `ASCIIPListParserFinish` (absent from the sources):
marks the parse done once the top-level value has been fully constructed, that
is with an empty stack and a root. -/
def ASCIIPListParserFinish (context : ASCIIPListParserContext) :
    Bool × ASCIIPListParserContext :=
  match context.error with
  | some _ => (false, context)
  | none =>
    if context.stack.isEmpty && context.root.isSome then
      (true, { context with done := true })
    else
      (false, ASCIIPListParserAbort context (some "Unfinished top-level value"))

/-- Modelled from the spec: `ASCIIPListParserCopyRoot` (absent from the
sources): the root object. -/
def ASCIIPListParserCopyRoot (context : ASCIIPListParserContext) : Option Object :=
  context.root

/-! ## The parse driver (ASCIIParser.cpp, lines 30-36 and 63-359) -/

/-- The driver states (`ASCIIParseState`). -/
inductive ASCIIParseState where
  | kASCIIParsePList
  | kASCIIParseKeyValSeparator
  | kASCIIParseEntrySeparator
  | kASCIIInvalid
  deriving DecidableEq, Repr

open ASCIIParseState

/-- What one pass through the body of the driver loop does: the loop goes on
with a state and a context, or the driver returns, or the pass has undefined
behaviour (a write outside the byte vector of a Data literal). -/
inductive Step where
  | next (state : ASCIIParseState) (context : ASCIIPListParserContext)
  | ret (success : Bool) (context : ASCIIPListParserContext)
  | undefined

/-- Lines 71-97: a negative token code always makes the driver return. -/
def lexerStop (context : ASCIIPListParserContext) (token : ASCIIPListLexerToken) :
    Bool × ASCIIPListParserContext :=
  if token = kASCIIPListLexerEndOfFile ∧ ASCIIPListParserIsDone context = true then
    (true, context)
  else if token = kASCIIPListLexerEndOfFile then
    (false, ASCIIPListParserAbort context (some "Encountered premature EOF"))
  else if token = kASCIIPListLexerInvalidToken then
    (false, ASCIIPListParserAbort context (some "Encountered invalid token"))
  else if token = kASCIIPListLexerUnterminatedLongComment then
    (false, ASCIIPListParserAbort context (some "Encountered unterminated long comment"))
  else if token = kASCIIPListLexerUnterminatedUnquotedString then
    (false, ASCIIPListParserAbort context (some "Encountered unterminated unquoted string"))
  else if token = kASCIIPListLexerUnterminatedQuotedString then
    (false, ASCIIPListParserAbort context (some "Encountered unterminated quoted string"))
  else if token = kASCIIPListLexerUnterminatedData then
    (false, ASCIIPListParserAbort context (some "Encountered unterminated data"))
  else
    (false, ASCIIPListParserAbort context (some "Encountered unrecognized token error code"))

/-- Lines 242-253: the state after a literal has been stored. -/
def literalStored (topLevel isDictionary : Bool) (context : ASCIIPListParserContext) : Step :=
  if topLevel then
    match ASCIIPListParserFinish context with
    | (false, c) => Step.ret false c
    | (true, c) => Step.next kASCIIParsePList c
  else if isDictionary then
    Step.next kASCIIParseKeyValSeparator context
  else
    Step.next kASCIIParseEntrySeparator context

/-- The pattern `if (!Store(...)) return false;` followed by lines 242-253. -/
def afterStore (topLevel isDictionary : Bool) (r : Bool × ASCIIPListParserContext) : Step :=
  match r with
  | (false, c) => Step.ret false c
  | (true, c) => literalStored topLevel isDictionary c

/-- Lines 130-253: a non-container token in state PList. -/
def parseLiteral (context : ASCIIPListParserContext) (tok : Token) : Step :=
  let token := tok.kind
  let topLevel : Bool := ASCIIPListParserGetLevel context == 0
  let isDictionary : Bool := ASCIIPListParserIsDictionary context
  if isDictionary = true ∨ token = kASCIIPListLexerTokenUnquotedString ∨
      token = kASCIIPListLexerTokenQuotedString then
    if isDictionary = true ∧ token = kASCIIPListLexerTokenData then
      Step.ret false (ASCIIPListParserAbort context (some "Data cannot be dictionary key"))
    else
      let contents := tok.contents
      if isDictionary then
        afterStore topLevel isDictionary (ASCIIPListParserStoreKey context contents)
      else
        afterStore topLevel isDictionary
          (ASCIIPListParserStoreValue context (Object.string contents))
  else if token = kASCIIPListLexerTokenNumber ∨ token = kASCIIPListLexerTokenHexNumber then
    let contents := tok.contents
    let isReal := strchr contents '.'
    if isReal then
      afterStore topLevel isDictionary
        (ASCIIPListParserStoreValue context (Object.real (atof contents)))
    else
      afterStore topLevel isDictionary
        (ASCIIPListParserStoreValue context (Object.integer (atol contents)))
  else if token = kASCIIPListLexerTokenBoolTrue ∨ token = kASCIIPListLexerTokenBoolFalse then
    let value : Bool := token == kASCIIPListLexerTokenBoolTrue
    afterStore topLevel isDictionary
      (ASCIIPListParserStoreValue context (Object.boolean value))
  else if token = kASCIIPListLexerTokenData then
    match decodeData tok.contents with
    | none => Step.undefined
    | some bytes =>
      afterStore topLevel isDictionary
        (ASCIIPListParserStoreValue context (Object.data bytes))
  else
    literalStored topLevel isDictionary context

/-- Lines 273-281, 287-295 and 340-348: after a container has been ended, the
level is decremented; above level 0 the state is EntrySeparator, at level 0
the parse is finished. -/
def containerEnded (r : Bool × ASCIIPListParserContext) : Step :=
  match r with
  | (false, c) => Step.ret false c
  | (true, c) =>
    let c1 := ASCIIPListParserDecrementLevel c
    if ASCIIPListParserGetLevel c1 ≠ 0 then
      Step.next kASCIIParseEntrySeparator c1
    else
      match ASCIIPListParserFinish c1 with
      | (false, c2) => Step.ret false c2
      | (true, c2) => Step.next kASCIIParsePList c2

/-- Lines 256-260 and 263-267: after a container has been begun. -/
def containerBegun (r : Bool × ASCIIPListParserContext) : Step :=
  match r with
  | (false, c) => Step.ret false c
  | (true, c) => Step.next kASCIIParsePList (ASCIIPListParserIncrementLevel c)

/-- Lines 105-297: the case `kASCIIParsePList`. -/
def parsePList (context : ASCIIPListParserContext) (tok : Token) : Step :=
  let token := tok.kind
  if token ≠ kASCIIPListLexerTokenUnquotedString ∧
      token ≠ kASCIIPListLexerTokenQuotedString ∧
      token ≠ kASCIIPListLexerTokenData ∧
      token ≠ kASCIIPListLexerTokenNumber ∧
      token ≠ kASCIIPListLexerTokenHexNumber ∧
      token ≠ kASCIIPListLexerTokenBoolFalse ∧
      token ≠ kASCIIPListLexerTokenBoolTrue ∧
      token ≠ kASCIIPListLexerTokenDictionaryStart ∧
      token ≠ kASCIIPListLexerTokenArrayStart ∧
      token ≠ kASCIIPListLexerTokenDictionaryEnd ∧
      token ≠ kASCIIPListLexerTokenArrayEnd then
    Step.ret false (ASCIIPListParserAbort context (some "Encountered unexpected token code"))
  else if ASCIIPListParserIsDone context then
    Step.ret false (ASCIIPListParserAbort context (some "Encountered token when finished."))
  else if token ≠ kASCIIPListLexerTokenDictionaryStart ∧
      token ≠ kASCIIPListLexerTokenDictionaryEnd ∧
      token ≠ kASCIIPListLexerTokenArrayStart ∧
      token ≠ kASCIIPListLexerTokenArrayEnd then
    parseLiteral context tok
  else if token = kASCIIPListLexerTokenDictionaryStart then
    containerBegun (ASCIIPListParserDictionaryBegin context)
  else if token = kASCIIPListLexerTokenArrayStart then
    containerBegun (ASCIIPListParserArrayBegin context)
  else if token = kASCIIPListLexerTokenDictionaryEnd then
    containerEnded (ASCIIPListParserDictionaryEnd context)
  else if token = kASCIIPListLexerTokenArrayEnd then
    containerEnded (ASCIIPListParserArrayEnd context)
  else
    Step.next kASCIIParsePList context

/-- Lines 299-306: the case `kASCIIParseKeyValSeparator`. -/
def parseKeyValSeparator (context : ASCIIPListParserContext) (tok : Token) : Step :=
  if tok.kind ≠ kASCIIPListLexerTokenDictionaryKeyValSeparator then
    Step.ret false (ASCIIPListParserAbort context
      (some "Expected key-value separator; found something else"))
  else
    Step.next kASCIIParsePList context

/-- Lines 308-353: the case `kASCIIParseEntrySeparator`. -/
def parseEntrySeparator (context : ASCIIPListParserContext) (tok : Token) : Step :=
  let token := tok.kind
  if token ≠ semicolon ∧ token ≠ comma ∧ token ≠ kASCIIPListLexerTokenArrayEnd then
    Step.ret false (ASCIIPListParserAbort context
      (some "Expected entry separator or array end; found something else"))
  else if ASCIIPListParserIsDictionary context = true ∧ token ≠ semicolon then
    Step.ret false (ASCIIPListParserAbort context (some "Expected ';'"))
  else if ASCIIPListParserIsArray context = true ∧ token ≠ comma ∧
      token ≠ kASCIIPListLexerTokenArrayEnd then
    Step.ret false (ASCIIPListParserAbort context (some "Expected ',' or ')'"))
  else if token = kASCIIPListLexerTokenArrayEnd then
    if ASCIIPListParserIsDictionary context then
      Step.ret false (ASCIIPListParserAbort context none)
    else
      containerEnded (ASCIIPListParserArrayEnd context)
  else
    Step.next kASCIIParsePList context

/-- Lines 99-357: the body of the loop for a non-negative token code: comments
are skipped, any other token is dispatched on the state. -/
def parseToken (state : ASCIIParseState) (context : ASCIIPListParserContext) (tok : Token) :
    Step :=
  if tok.kind = kASCIIPListLexerTokenInlineComment ∨
      tok.kind = kASCIIPListLexerTokenLongComment then
    Step.next state context
  else
    match state with
    | kASCIIParsePList => parsePList context tok
    | kASCIIParseKeyValSeparator => parseKeyValSeparator context tok
    | kASCIIParseEntrySeparator => parseEntrySeparator context tok
    | kASCIIInvalid => Step.ret false (ASCIIPListParserAbort context (some "Unexpected state"))

/-- The loop `for (;;)` of the driver from a given state: one token is read per
pass, and an exhausted lexer returns EndOfFile, on which the driver returns.
The result is the returned flag with the final context, or `none` for undefined
behaviour. -/
def parseLoop (state : ASCIIParseState) (context : ASCIIPListParserContext) :
    ASCIIPListLexer → Option (Bool × ASCIIPListParserContext)
  | [] => some (lexerStop context kASCIIPListLexerEndOfFile)
  | tok :: rest =>
    if tok.kind.isNegative then
      some (lexerStop context tok.kind)
    else
      match parseToken state context tok with
      | Step.next state1 context1 => parseLoop state1 context1 rest
      | Step.ret success context1 => some (success, context1)
      | Step.undefined => none

/-- The driver `ASCIIParserParse(context, lexer)`: the loop entered in state
`kASCIIParsePList`. -/
def ASCIIParserParse (context : ASCIIPListParserContext) (lexer : ASCIIPListLexer) :
    Option (Bool × ASCIIPListParserContext) :=
  parseLoop kASCIIParsePList context lexer

/-! ## Token shorthands -/

/-- A token without text. -/
def tk (kind : ASCIIPListLexerToken) : Token := ⟨kind, ""⟩

/-- An UnquotedString token. -/
def tUnquoted (s : String) : Token := ⟨kASCIIPListLexerTokenUnquotedString, s⟩

/-- A QuotedString token with its decoded text. -/
def tQuoted (s : String) : Token := ⟨kASCIIPListLexerTokenQuotedString, s⟩

/-- A Number token with its literal. -/
def tNumber (s : String) : Token := ⟨kASCIIPListLexerTokenNumber, s⟩

/-- A HexNumber token with its literal. -/
def tHex (s : String) : Token := ⟨kASCIIPListLexerTokenHexNumber, s⟩

/-- A Data token with its packed hex digits. -/
def tData (s : String) : Token := ⟨kASCIIPListLexerTokenData, s⟩

/-- The token of an opening brace. -/
def tDictStart : Token := tk kASCIIPListLexerTokenDictionaryStart

/-- The token of a closing brace. -/
def tDictEnd : Token := tk kASCIIPListLexerTokenDictionaryEnd

/-- The token of an opening parenthesis. -/
def tArrayStart : Token := tk kASCIIPListLexerTokenArrayStart

/-- The token of a closing parenthesis. -/
def tArrayEnd : Token := tk kASCIIPListLexerTokenArrayEnd

/-- The token of the equals sign. -/
def tEq : Token := tk kASCIIPListLexerTokenDictionaryKeyValSeparator

/-- The token of the semicolon. -/
def tSemi : Token := tk semicolon

/-- The token of the comma. -/
def tComma : Token := tk comma

/-! ## Hex encoding, the inverse the Data literal is measured against -/

/-- The character of one hex digit `d < 16`, upper or lower case. -/
def hexDigitChar (upper : Bool) (d : Nat) : Char :=
  if d < 10 then Char.ofNat (48 + d)
  else if upper then Char.ofNat (65 + (d - 10)) else Char.ofNat (97 + (d - 10))

/-- The packed hex digits of a byte sequence, high digit first; `upper i`
chooses the case of the digit at position `i`, counted from `i0`. -/
def hexOfBytes (upper : Nat → Bool) : Nat → List Nat → List Char
  | _, [] => []
  | i0, b :: bs =>
    hexDigitChar (upper i0) (b / 16) :: hexDigitChar (upper (i0 + 1)) (b % 16) ::
      hexOfBytes upper (i0 + 2) bs

/-! ## Reachable contexts and the effect of a completed value -/

/-- The context of a parse in progress: no error, not done, and the level
counter equal to the depth of the stack. -/
def openContext (st : List Frame) (root : Option Object) : ASCIIPListParserContext :=
  { stack := st, root := root, level := (st.length : Int), done := false, error := none }

/-- Whether a value may come next: the top frame is not a Dictionary that waits
for a key. -/
def valuePosition : List Frame → Bool
  | Frame.dictionary _ none :: _ => false
  | _ => true

/-- The state and context once a value `obj` has been completed on top of the
stack `st`: at top level it is the root and the parse is done; in an Array frame
it is appended; in a Dictionary frame it fills the pending key. -/
def afterValue (st : List Frame) (root : Option Object) (obj : Object) :
    ASCIIParseState × ASCIIPListParserContext :=
  match st with
  | [] => (kASCIIParsePList,
      { stack := [], root := some obj, level := 0, done := true, error := none })
  | Frame.array items :: rest =>
    (kASCIIParseEntrySeparator, openContext (Frame.array (items ++ [obj]) :: rest) root)
  | Frame.dictionary entries (some key) :: rest =>
    (kASCIIParseEntrySeparator,
      openContext (Frame.dictionary (Dictionary.set entries key obj) none :: rest) root)
  | Frame.dictionary entries none :: rest =>
    (kASCIIParsePList, openContext (Frame.dictionary entries none :: rest) root)

/-- The scalar literal tokens of the grammar; the packed digits of a Data
literal come in pairs. -/
def isScalarToken (t : Token) : Bool :=
  t.kind = kASCIIPListLexerTokenUnquotedString ∨ t.kind = kASCIIPListLexerTokenQuotedString ∨
  t.kind = kASCIIPListLexerTokenNumber ∨ t.kind = kASCIIPListLexerTokenHexNumber ∨
  t.kind = kASCIIPListLexerTokenBoolFalse ∨ t.kind = kASCIIPListLexerTokenBoolTrue ∨
  (t.kind = kASCIIPListLexerTokenData ∧ t.contents.toList.length % 2 = 0)

/-- The string tokens of the grammar. -/
def isStringToken (t : Token) : Bool :=
  t.kind = kASCIIPListLexerTokenUnquotedString ∨ t.kind = kASCIIPListLexerTokenQuotedString

/-- The object the driver constructs for a scalar token in value position
(lines 140-141, 167-185, 201-202 and 216-225). -/
def literalObject (t : Token) : Object :=
  match t.kind with
  | kASCIIPListLexerTokenNumber | kASCIIPListLexerTokenHexNumber =>
    if strchr t.contents '.' then Object.real (atof t.contents)
    else Object.integer (atol t.contents)
  | kASCIIPListLexerTokenBoolTrue => Object.boolean true
  | kASCIIPListLexerTokenBoolFalse => Object.boolean false
  | kASCIIPListLexerTokenData => Object.data ((decodeData t.contents).getD [])
  | _ => Object.string t.contents

/-! ## The grammar of the specification, on token streams -/

/-- The tokens between the parentheses of an array: the values separated by
commas, with an optional trailing comma after the last value. -/
def arrayBody : List (List Token) → Bool → List Token
  | [], _ => []
  | [v], trailing => v ++ (if trailing then [tComma] else [])
  | v :: w :: vs, trailing => v ++ tComma :: arrayBody (w :: vs) trailing

/-- The tokens of an array. -/
def arrayTokens (vs : List (List Token)) (trailing : Bool) : List Token :=
  tArrayStart :: (arrayBody vs trailing ++ [tArrayEnd])

/-- The tokens between the braces of a dictionary: each entry is a key, the
equals sign, a value and a semicolon. -/
def dictBody : List (Token × List Token) → List Token
  | [] => []
  | (k, v) :: es => k :: tEq :: (v ++ tSemi :: dictBody es)

/-- The tokens of a dictionary. -/
def dictTokens (es : List (Token × List Token)) : List Token :=
  tDictStart :: (dictBody es ++ [tDictEnd])

/-- The token streams that derive from `value` in the grammar
`value := scalar | array | dict`. -/
inductive IsValue : List Token → Prop where
  | scalar (t : Token) (h : isScalarToken t = true) : IsValue [t]
  | array (vs : List (List Token)) (trailing : Bool) (h : ∀ v ∈ vs, IsValue v) :
      IsValue (arrayTokens vs trailing)
  | dict (es : List (Token × List Token)) (hk : ∀ e ∈ es, isStringToken e.1 = true)
      (hv : ∀ e ∈ es, IsValue e.2) : IsValue (dictTokens es)

/-- The driver, in state PList at a place where a value may come, consumes the
tokens `ts` and completes the value `obj` with them, whatever the stack below
and whatever follows. -/
def Parses (ts : List Token) (obj : Object) : Prop :=
  ∀ (st : List Frame) (root : Option Object) (rest : List Token), valuePosition st = true →
    parseLoop kASCIIParsePList (openContext st root) (ts ++ rest) =
      parseLoop (afterValue st root obj).1 (afterValue st root obj).2 rest

/-- The entries stored one after the other into a dictionary. -/
def storeEntries (acc : List (String × Object)) (kvs : List (String × Object)) :
    List (String × Object) :=
  kvs.foldl (fun d kv => Dictionary.set d kv.1 kv.2) acc

/-- The values of an array source separated by commas, without a trailing
comma. -/
def commaSeparated : List (List Token) → List Token
  | [] => []
  | [v] => v
  | v :: w :: vs => v ++ tComma :: commaSeparated (w :: vs)

/-- The context the driver returns with after a successful parse whose root is
`obj`. -/
def finishedContext (obj : Object) : ASCIIPListParserContext :=
  { stack := [], root := some obj, level := 0, done := true, error := none }

/-- Whether a state fits a stack and a done flag: in KeyValSeparator the top
frame is a Dictionary with a pending key; in EntrySeparator it is an Array or
a Dictionary without pending key; the done flag is only set in state PList
with an empty stack. -/
def stateFits : ASCIIParseState → List Frame → Bool → Bool
  | kASCIIParsePList, st, done => !done || st.isEmpty
  | kASCIIParseKeyValSeparator, Frame.dictionary _ (some _) :: _, false => true
  | kASCIIParseEntrySeparator, Frame.array _ :: _, false => true
  | kASCIIParseEntrySeparator, Frame.dictionary _ none :: _, false => true
  | _, _, _ => false

/-- The invariant of the driver loop at the top of each pass. -/
def LoopInvariant (s : ASCIIParseState) (c : ASCIIPListParserContext) : Prop :=
  c.error = none ∧ c.level = (c.stack.length : Int) ∧ stateFits s c.stack c.done = true

/-- The driver loop, started in state PList on a fresh context, is at the top
of a pass in state `s` with context `c` after it has consumed the tokens `pre`
without returning. -/
inductive Reaches : List Token → ASCIIParseState → ASCIIPListParserContext → Prop where
  | init : Reaches [] kASCIIParsePList ASCIIPListParserContextInit
  | step (pre : List Token) (s s1 : ASCIIParseState) (c c1 : ASCIIPListParserContext)
      (tok : Token) (h : Reaches pre s c) (hn : tok.kind.isNegative = false)
      (hs : parseToken s c tok = Step.next s1 c1) : Reaches (pre ++ [tok]) s1 c1

/-- A comment token. -/
def isComment (tok : Token) : Bool :=
  tok.kind = kASCIIPListLexerTokenInlineComment ∨ tok.kind = kASCIIPListLexerTokenLongComment

/-! ## The decoding of a scalar literal as the specification states it

These definitions follow the token table, the data model and the numeric
semantics of the specification, not the driver: they are what the objects the
driver constructs are compared with. -/

/-- The value of a hexadecimal digit character; `none` for any other
character. -/
def hexDigitValue (c : Char) : Option Nat :=
  if 48 ≤ c.toNat ∧ c.toNat ≤ 57 then some (c.toNat - 48)
  else if 97 ≤ c.toNat ∧ c.toNat ≤ 102 then some (c.toNat - 87)
  else if 65 ≤ c.toNat ∧ c.toNat ≤ 70 then some (c.toNat - 55)
  else none

/-- The bytes that a text of hex-digit pairs writes, high digit first; `none`
when a character is not a hex digit or the last digit has no partner. -/
def bytesOfHexPairs : List Char → Option (List Nat)
  | [] => some []
  | [_] => none
  | h :: l :: rest =>
    match hexDigitValue h, hexDigitValue l, bytesOfHexPairs rest with
    | some a, some b, some bs => some ((16 * a + b) :: bs)
    | _, _, _ => none

/-- One more digit `c` of a numeral in the given base, after the digits that
gave `acc`. -/
def numeralStep (base : Nat) (acc : Option Nat) (c : Char) : Option Nat :=
  match acc, hexDigitValue c with
  | some n, some d => if d < base then some (n * base + d) else none
  | _, _ => none

/-- The number that a text of digits denotes in the given base (at most 16);
`none` when the text is empty or has a character that is not a digit of the
base. -/
def numeralValue (base : Nat) (s : List Char) : Option Nat :=
  if s = [] then none else s.foldl (numeralStep base) (some 0)

/-- A Number literal of the token table, "optional sign, digits, optional `.`
+ digits, optional `e`/`E` exponent": the sign, the value of the digits, the
value and the count of the digits after the `.` if there is one, and the
exponent if there is one. -/
structure NumberLiteral where
  negative : Bool
  whole : Nat
  fraction : Option (Nat × Nat)
  exponent : Option Int

/-- The exponent at the end of a Number literal: nothing at all (`some none`),
or `e` or `E`, an optional sign and digits; `none` for any other text. -/
def readExponent : List Char → Option (Option Int)
  | [] => some none
  | c :: cs =>
    if c = 'e' ∨ c = 'E' then
      match numeralValue 10 (takeSign cs).2 with
      | some n => some (some (if (takeSign cs).1 then -(n : Int) else (n : Int)))
      | none => none
    else none

/-- A Number literal without its sign; `none` when the text is not one. -/
def readUnsigned (negative : Bool) (s : List Char) : Option NumberLiteral :=
  match numeralValue 10 (s.takeWhile isdigit), s.dropWhile isdigit with
  | none, _ => none
  | some w, [] => some ⟨negative, w, none, none⟩
  | some w, c :: cs =>
    if c = '.' then
      match numeralValue 10 (cs.takeWhile isdigit), readExponent (cs.dropWhile isdigit) with
      | some f, some e => some ⟨negative, w, some (f, (cs.takeWhile isdigit).length), e⟩
      | _, _ => none
    else
      match readExponent (c :: cs) with
      | some e => some ⟨negative, w, none, e⟩
      | none => none

/-- The text of a Number token read as a Number literal of the token table;
`none` when the whole text is not one. -/
def readNumberLiteral (s : List Char) : Option NumberLiteral :=
  readUnsigned (takeSign s).1 (takeSign s).2

/-- The object a Number literal stands for by the numeric semantics of the
specification: a literal with a `.` or an exponent is the Real nearest to its
decimal value; any other is the Integer of its value, and has no decoding (it
is an error) outside the signed 64-bit range. -/
def NumberLiteral.decoding (lit : NumberLiteral) : Option Object :=
  match lit.fraction, lit.exponent with
  | none, none =>
    let v : Int := if lit.negative then -(lit.whole : Int) else (lit.whole : Int)
    if -(2 ^ 63) ≤ v ∧ v ≤ 2 ^ 63 - 1 then some (Object.integer v) else none
  | _, _ =>
    let f := lit.fraction.getD (0, 0)
    some (Object.real (Double.ofDecimal lit.negative (lit.whole * 10 ^ f.2 + f.1)
      (lit.exponent.getD 0 - (f.2 : Int))))

/-- The object a HexNumber literal stands for by the specification: `0x` or
`0X` followed by hex digits is the Integer of their base-16 value, and has no
decoding outside the signed 64-bit range. -/
def hexNumberDecoding (s : List Char) : Option Object :=
  match s with
  | c0 :: c1 :: ds =>
    if c0 = '0' ∧ (c1 = 'x' ∨ c1 = 'X') then
      match numeralValue 16 ds with
      | some v => if (v : Int) ≤ 2 ^ 63 - 1 then some (Object.integer (v : Int)) else none
      | none => none
    else none
  | _ => none

/-- The typed decoding of a scalar token as the specification states it: a
string token is the String of its text, the boolean words are the Booleans, a
Data literal is the bytes its hex-digit pairs write, a Number literal is an
Integer or a Real by `NumberLiteral.decoding` and a HexNumber literal an
Integer in base 16.  `none` where the specification gives no object: a
malformed literal, an integer out of range, a token that is no scalar. -/
def specDecoding (t : Token) : Option Object :=
  match t.kind with
  | kASCIIPListLexerTokenUnquotedString => some (Object.string t.contents)
  | kASCIIPListLexerTokenQuotedString => some (Object.string t.contents)
  | kASCIIPListLexerTokenBoolTrue => some (Object.boolean true)
  | kASCIIPListLexerTokenBoolFalse => some (Object.boolean false)
  | kASCIIPListLexerTokenData => (bytesOfHexPairs t.contents.toList).map Object.data
  | kASCIIPListLexerTokenNumber =>
    (readNumberLiteral t.contents.toList).bind NumberLiteral.decoding
  | kASCIIPListLexerTokenHexNumber => hexNumberDecoding t.contents.toList
  | _ => none

/-- A Number token whose literal has an exponent, `e` or `E`, and no `.`. -/
def exponentWithoutPoint (t : Token) : Bool :=
  t.kind = kASCIIPListLexerTokenNumber ∧ strchr t.contents '.' = false ∧
    (strchr t.contents 'e' = true ∨ strchr t.contents 'E' = true)

/-! ## The entry points (ASCIIParser.cpp, lines 361-418) -/

/-- A `std::FILE *` as the entry point uses it: whether each C library call on
it succeeds, the size `ftell` reports at the end of the file (`none` when it
returns -1), and the bytes of the file. -/
structure FileStream where
  seekEndOk : Bool
  tell : Option Nat
  seekSetOk : Bool
  mallocOk : Bool
  readOk : Bool
  bytes : List Nat

/-- The libc call `fread(data, fsize, 1, fp)`: the number of items read, which is
0 when the item size is 0. -/
def fread (fp : FileStream) (fsize : Nat) : Nat :=
  if fsize = 0 then 0 else if fp.readOk then 1 else 0

/-- One invocation `error(line, column, message)` of the error callback; a null
message is `none`. -/
structure ErrorReport where
  line : Int
  column : Int
  message : Option String
  deriving DecidableEq, Repr

/-- The entry point `ASCIIParser::parse(std::FILE *fp, error_function const &error)`
(lines 374-418).  `lexerInit data fsize` is the lexer that `ASCIIPListLexerInit`
sets up over the buffer.  The result is the returned object (`none` for
`nullptr`) with the invocations of the error callback in order, or `none` for
undefined behaviour in the driver. -/
def ASCIIParser.parse (lexerInit : List Nat → Nat → ASCIIPListLexer) (fp : FileStream) :
    Option (Option Object × List ErrorReport) :=
  if fp.seekEndOk = false then
    some (none, [])
  else
    match fp.tell with
    | none => some (none, [])
    | some fsize =>
      if fp.seekSetOk = false then
        some (none, [])
      else if fp.mallocOk = false then
        some (none, [])
      else if fread fp fsize ≠ 1 then
        some (none, [])
      else
        match ASCIIParserParse ASCIIPListParserContextInit (lexerInit fp.bytes fsize) with
        | none => none
        | some (true, context) => some (ASCIIPListParserCopyRoot context, [])
        | some (false, context) => some (none, [⟨0, 0, context.error⟩])

/-- The entry point `ASCIIParser::parse(std::string const &path, error_function
const &error)` (lines 361-372); `fopen` is the result of `std::fopen(path, "rb")`,
`none` for a null stream. -/
def ASCIIParser.parsePath (lexerInit : List Nat → Nat → ASCIIPListLexer)
    (fopen : Option FileStream) : Option (Option Object × List ErrorReport) :=
  match fopen with
  | none => some (none, [])
  | some fp => ASCIIParser.parse lexerInit fp

/-- The C library calls before the driver all succeed, so that the driver is
run on a buffer of `fsize` bytes. -/
def driverRuns (fp : FileStream) (fsize : Nat) : Prop :=
  fp.seekEndOk = true ∧ fp.tell = some fsize ∧ fp.seekSetOk = true ∧ fp.mallocOk = true ∧
    fread fp fsize = 1

/-- A stream on which every C library call succeeds. -/
def readableFile (bytes : List Nat) : FileStream :=
  { seekEndOk := true, tell := some bytes.length, seekSetOk := true, mallocOk := true,
    readOk := true, bytes := bytes }

/-! ## Equality of Data (plist/Data.h, lines 106-118) -/

/-- The objects in memory: what is found at each address.  A pointer is an
address; a pointer that may be null is an `Option Nat`. -/
abbrev Heap := Nat → Option Object

/-- Modelled from the spec: the base `Object::equals(Object const *)`
(plist/Object.h is not among the sources), taken as the identity of the two
objects.  `Data.equals` below does not depend on this choice: it takes the base
method as a parameter. -/
def Object.equals (this : Nat) (obj : Option Nat) : Bool :=
  obj == some this

/-- Whether the object at an address is a Data (`type() == Data::Type()`). -/
def isData (heap : Heap) (p : Nat) : Bool :=
  match heap p with
  | some (Object.data _) => true
  | _ => false

/-- Modelled from the spec: `CastTo <Data> (obj)` (plist/Base.h is not among the
sources): the pointer itself when it points to a Data, null otherwise. -/
def CastToData (heap : Heap) (obj : Option Nat) : Option Nat :=
  match obj with
  | none => none
  | some o => if isData heap o then some o else none

/-- The accessor `Data::value()` of the Data at address `this`. -/
def Data.value (heap : Heap) (this : Nat) : List Nat :=
  match heap this with
  | some (Object.data v) => v
  | _ => []

/-- The method `Data::equals(Data const *obj)` (lines 115-118). -/
def Data.equalsData (heap : Heap) (this : Nat) (obj : Option Nat) : Bool :=
  match obj with
  | none => false
  | some o => o == this || Data.value heap this == Data.value heap o

/-- The method `Data::equals(Object const *obj)` (lines 106-113);
`objectEquals` is the base method `Object::equals`, which is not among the
sources. -/
def Data.equals (objectEquals : Nat → Option Nat → Bool) (heap : Heap) (this : Nat)
    (obj : Option Nat) : Bool :=
  if objectEquals this obj then
    true
  else
    match CastToData heap obj with
    | none => false
    | some objt => Data.equalsData heap this (some objt)

/-- What is assumed of the base method `Object::equals` on `this`: it is false
on a null pointer, and it only holds for a pointer to an equal object (the
identity of the objects and structural equality both have this property). -/
def SoundObjectEquals (objectEquals : Nat → Option Nat → Bool) (heap : Heap)
    (this : Nat) : Prop :=
  objectEquals this none = false ∧
    ∀ o : Nat, objectEquals this (some o) = true → heap o = heap this

/-! ## Comments in a token stream -/

/-- The second stream is the first with comment tokens inserted at any
positions. -/
inductive CommentsInserted : List Token → List Token → Prop where
  | nil : CommentsInserted [] []
  | keep (t : Token) (ts ts1 : List Token) (h : CommentsInserted ts ts1) :
      CommentsInserted (t :: ts) (t :: ts1)
  | insert (c : Token) (ts ts1 : List Token) (hc : isComment c = true)
      (h : CommentsInserted ts ts1) : CommentsInserted ts (c :: ts1)

/-- The change of the nesting depth a token stands for: an opening brace or
parenthesis adds a frame, a closing one removes a frame. -/
def depthChange : ASCIIPListLexerToken → Int
  | kASCIIPListLexerTokenDictionaryStart => 1
  | kASCIIPListLexerTokenArrayStart => 1
  | kASCIIPListLexerTokenDictionaryEnd => -1
  | kASCIIPListLexerTokenArrayEnd => -1
  | _ => 0

/-- The tokens that start a value: the literals and the two opening brackets. -/
def startsValue (k : ASCIIPListLexerToken) : Bool :=
  k = kASCIIPListLexerTokenUnquotedString ∨ k = kASCIIPListLexerTokenQuotedString ∨
  k = kASCIIPListLexerTokenData ∨ k = kASCIIPListLexerTokenNumber ∨
  k = kASCIIPListLexerTokenHexNumber ∨ k = kASCIIPListLexerTokenBoolFalse ∨
  k = kASCIIPListLexerTokenBoolTrue ∨ k = kASCIIPListLexerTokenDictionaryStart ∨
  k = kASCIIPListLexerTokenArrayStart

end plist

namespace pbxbuild

/-! ## Recursive search paths (pbxbuild/Tool/SearchPaths.cpp, lines 29-63) -/

/-- A `std::string`, one `Char` for each `char`. -/
abbrev StdString := List Char

/-- The member `substr(pos)`: the characters from `pos` to the end; beyond the
size of the string it throws `std::out_of_range`, which is `none`. -/
def substr (s : StdString) (pos : Nat) : Option StdString :=
  if pos ≤ s.length then some (s.drop pos) else none

/-- The member `substr(0, count)`, which does not throw. -/
def substrFront (s : StdString) (count : Nat) : StdString :=
  s.take count

/-- The functions of `libutil::FSUtil` that `AppendPaths` calls; they are not
among the sources and are taken as they come.  `EnumerateRecursive root` is the
list of the paths the enumeration hands to its callback, in order; the callback
of `AppendPaths` always returns true, so the enumeration is never cut short. -/
structure FSUtil where
  ResolveRelativePath : StdString → StdString → StdString
  EnumerateRecursive : StdString → List StdString
  TestForDirectory : StdString → Bool

/-- The callback of lines 39-50 on one enumerated path: a directory is
appended, relative to the root; `none` when `substr` throws. -/
def enumerateCallback (fs : FSUtil) (root absoluteRoot : StdString)
    (args : Option (List StdString)) (path : StdString) : Option (List StdString) :=
  match args with
  | none => none
  | some a =>
    if fs.TestForDirectory path then
      match substr path (absoluteRoot.length + 1) with
      | none => none
      | some rest => some (a ++ [root ++ "/".toList ++ rest])
    else
      some a

/-- The body of the loop of `AppendPaths` for one path (lines 33-53). -/
def appendPath (fs : FSUtil) (workingDirectory : StdString) (args : List StdString)
    (path : StdString) : Option (List StdString) :=
  let recursive : StdString := "**".toList
  if path.length ≥ recursive.length ∧
      substr path (path.length - recursive.length) = some recursive then
    let root := substrFront path (path.length - recursive.length)
    let args1 := args ++ [root]
    let absoluteRoot := fs.ResolveRelativePath root workingDirectory
    (fs.EnumerateRecursive absoluteRoot).foldl (enumerateCallback fs root absoluteRoot)
      (some args1)
  else
    some (args ++ [path])

/-- The function `AppendPaths` (lines 29-55): the vector `args` after the
loop over `paths`, or `none` when an exception leaves the function.  The
environment is passed and not used. -/
def AppendPaths {Environment : Type} (fs : FSUtil) (args : List StdString)
    (_environment : Environment) (workingDirectory : StdString) (paths : List StdString) :
    Option (List StdString) :=
  paths.foldl
    (fun acc path =>
      match acc with
      | none => none
      | some a => appendPath fs workingDirectory a path)
    (some args)

/-- The function `Tool::SearchPaths::ExpandRecursive` (lines 57-63). -/
def Tool.SearchPaths.ExpandRecursive {Environment : Type} (fs : FSUtil)
    (paths : List StdString) (environment : Environment) (workingDirectory : StdString) :
    Option (List StdString) :=
  AppendPaths fs [] environment workingDirectory paths

/-- What one input path contributes to the result: a path that ends with `**`
contributes its root, the path without the two trailing characters, followed
by what the enumeration adds; any other path contributes itself. -/
def Contributes (path : StdString) (contribution : List StdString) : Prop :=
  (∃ root, path = root ++ "**".toList ∧ ∃ found, contribution = root :: found) ∨
    ((¬ ∃ root, path = root ++ "**".toList) ∧ contribution = [path])

/-- The enumeration below the root of every recursive path only hands out
directories that are longer than the absolute root and its separator, so that
`substr` does not throw. -/
def EnumerationBelowRoot (fs : FSUtil) (workingDirectory : StdString)
    (paths : List StdString) : Prop :=
  ∀ root, root ++ "**".toList ∈ paths →
    ∀ q ∈ fs.EnumerateRecursive (fs.ResolveRelativePath root workingDirectory),
      fs.TestForDirectory q = true →
        (fs.ResolveRelativePath root workingDirectory).length + 1 ≤ q.length

end pbxbuild

namespace plist

open ASCIIPListLexerToken ASCIIParseState

/-! ## Lemmas -/

theorem hex_to_bin_digit_hexDigitChar (u : Bool) (d : Nat) (h : d < 16) :
    hex_to_bin_digit (hexDigitChar u d) = d := by
  interval_cases d <;> cases u <;> rfl

theorem pack_nibbles (b : Nat) (h : b < 256) : (((b / 16) <<< 4) ||| (b % 16)) % 256 = b := by
  interval_cases b <;> rfl

theorem hexOfBytes_length (upper : Nat → Bool) (i0 : Nat) (B : List Nat) :
    (hexOfBytes upper i0 B).length = 2 * B.length := by
  induction B generalizing i0 with
  | nil => rfl
  | cons b bs ih => simp [hexOfBytes, ih]; omega

theorem hex_to_bin_hexOfBytes (upper : Nat → Bool) (i0 : Nat) (B : List Nat)
    (hB : ∀ b ∈ B, b < 256) (k : Nat) (hk : k < B.length) :
    hex_to_bin (hexOfBytes upper i0 B) (2 * k) = B.getD k 0 := by
  induction B generalizing i0 k with
  | nil => simp at hk
  | cons b bs ih =>
    have hb : b < 256 := hB b (by simp)
    cases k with
    | zero =>
      simp only [hex_to_bin, cstrAt, hexOfBytes, Nat.mul_zero, List.getD_cons_zero, Nat.zero_add,
        List.getD_cons_succ]
      rw [hex_to_bin_digit_hexDigitChar _ _ (by omega),
        hex_to_bin_digit_hexDigitChar _ _ (Nat.mod_lt _ (by decide))]
      exact pack_nibbles b hb
    | succ k =>
      have hk1 : k < bs.length := by simpa using hk
      have := ih (i0 + 2) (fun x hx => hB x (by simp [hx])) k hk1
      simp only [hex_to_bin, cstrAt, hexOfBytes, List.getD_cons_succ] at this ⊢
      have e1 : 2 * (k + 1) = 2 * k + 1 + 1 := by omega
      rw [e1]
      simpa using this

theorem dataLoopIndices_even (m : Nat) :
    dataLoopIndices (2 * m) = (List.range m).map (fun k => 2 * k) := by
  induction m with
  | zero => rfl
  | succ m ih =>
    have e : 2 * (m + 1) = (2 * m + 1) + 1 := by omega
    unfold dataLoopIndices at ih ⊢
    rw [e, List.range_succ, List.range_succ, List.filter_append, List.filter_append, ih,
      List.range_succ, List.map_append]
    simp
    omega

theorem dataLoop_fold (contents : List Char) (bs : List Nat) (j : Nat) (hj : j ≤ bs.length) :
    ((List.range j).map (fun k => 2 * k)).foldl (dataLoopBody contents) (some bs) =
      some ((List.range j).map (fun k => hex_to_bin contents (2 * k)) ++ bs.drop j) := by
  induction j with
  | zero => simp
  | succ j ih =>
    have hlt : j < bs.length := by omega
    rw [List.range_succ, List.map_append, List.foldl_append, ih (by omega)]
    have hs : (2 * j) >>> 1 = j := by
      rw [Nat.shiftRight_eq_div_pow]; omega
    simp only [List.map_cons, List.map_nil, List.foldl_cons, List.foldl_nil, dataLoopBody, hs]
    have hlen : j < ((List.range j).map (fun k => hex_to_bin contents (2 * k)) ++ bs.drop j).length := by
      simp; omega
    rw [if_pos hlen]
    congr 1
    rw [List.map_append, List.append_assoc]
    have hd : bs.drop j = bs[j] :: bs.drop (j + 1) := List.drop_eq_getElem_cons hlt
    rw [hd, List.set_append_right _ _ (by simp)]
    simp only [List.length_map, List.length_range, Nat.sub_self, List.set_cons_zero,
      List.cons_append, List.nil_append, List.map_cons, List.map_nil]

theorem decodeData_hexOfBytes (upper : Nat → Bool) (B : List Nat) (hB : ∀ b ∈ B, b < 256) :
    decodeData (String.mk (hexOfBytes upper 0 B)) = some B := by
  unfold decodeData
  simp only [String.toList, hexOfBytes_length]
  rw [dataLoopIndices_even, Nat.mul_div_cancel_left _ (by decide : 0 < 2),
    dataLoop_fold _ _ _ (by simp)]
  simp only [List.drop_replicate, Nat.sub_self, List.replicate_zero, List.append_nil]
  congr 1
  apply List.ext_getElem
  · simp
  · intro k h1 h2
    simp only [List.getElem_map, List.getElem_range]
    rw [hex_to_bin_hexOfBytes upper 0 B hB k h2]
    simp [List.getD_eq_getElem?_getD, h2]

theorem decodeData_even (contents : String) (h : contents.toList.length % 2 = 0) :
    ∃ bytes, decodeData contents = some bytes := by
  unfold decodeData
  obtain ⟨m, hm⟩ : ∃ m, contents.toList.length = 2 * m := ⟨contents.toList.length / 2, by omega⟩
  simp only [hm]
  rw [dataLoopIndices_even, dataLoop_fold _ _ _ (by simp)]
  exact ⟨_, rfl⟩

theorem level_succ_ne_zero (n : Nat) : ((n : Int) + 1 = 0) = False := by
  simp; omega

theorem boolFalse_beq_boolTrue :
    (kASCIIPListLexerTokenBoolFalse == kASCIIPListLexerTokenBoolTrue) = false := by
  decide

theorem scalar_step_of_decoded (st : List Frame) (root : Option Object) (t : Token)
    (hst : valuePosition st = true) (ht : isScalarToken t = true)
    (hd : t.kind = kASCIIPListLexerTokenData → ∃ bytes, decodeData t.contents = some bytes) :
    parseToken kASCIIParsePList (openContext st root) t =
      Step.next (afterValue st root (literalObject t)).1 (afterValue st root (literalObject t)).2 := by
  obtain ⟨kind, contents⟩ := t
  simp only at hd
  simp only [isScalarToken, Bool.decide_or, Bool.or_eq_true, decide_eq_true_eq,
    Bool.decide_and, Bool.and_eq_true] at ht
  have hkind : kind = kASCIIPListLexerTokenUnquotedString ∨
      kind = kASCIIPListLexerTokenQuotedString ∨ kind = kASCIIPListLexerTokenNumber ∨
      kind = kASCIIPListLexerTokenHexNumber ∨ kind = kASCIIPListLexerTokenBoolFalse ∨
      kind = kASCIIPListLexerTokenBoolTrue ∨ kind = kASCIIPListLexerTokenData := by
    rcases ht with h | h | h | h | h | h | ⟨h, _⟩ <;> simp [h]
  clear ht
  rcases st with _ | ⟨f, r⟩
  · by_cases hr : strchr contents '.' = true <;>
    rcases hkind with h | h | h | h | h | h | h <;> subst h <;>
    simp [parseToken, parsePList, parseLiteral, afterStore, literalStored, literalObject,
      openContext, afterValue, ASCIIPListParserIsDone, ASCIIPListParserGetLevel,
      ASCIIPListParserIsDictionary, ASCIIPListParserStoreValue, ASCIIPListParserFinish, hr,
      boolFalse_beq_boolTrue] <;>
    (obtain ⟨bytes, hb⟩ := hd rfl; simp [hb])
  · rcases f with items | ⟨es, _ | k⟩
    · by_cases hr : strchr contents '.' = true <;>
      rcases hkind with h | h | h | h | h | h | h <;> subst h <;>
      simp [parseToken, parsePList, parseLiteral, afterStore, literalStored, literalObject,
        openContext, afterValue, ASCIIPListParserIsDone, ASCIIPListParserGetLevel,
        ASCIIPListParserIsDictionary, ASCIIPListParserStoreValue, ASCIIPListParserFinish, hr,
        boolFalse_beq_boolTrue, level_succ_ne_zero] <;>
      (obtain ⟨bytes, hb⟩ := hd rfl; simp [hb])
    · simp [valuePosition] at hst
    · by_cases hr : strchr contents '.' = true <;>
      rcases hkind with h | h | h | h | h | h | h <;> subst h <;>
      simp [parseToken, parsePList, parseLiteral, afterStore, literalStored, literalObject,
        openContext, afterValue, ASCIIPListParserIsDone, ASCIIPListParserGetLevel,
        ASCIIPListParserIsDictionary, ASCIIPListParserStoreValue, ASCIIPListParserFinish, hr,
        boolFalse_beq_boolTrue, level_succ_ne_zero] <;>
      (obtain ⟨bytes, hb⟩ := hd rfl; simp [hb])

theorem scalar_step (st : List Frame) (root : Option Object) (t : Token)
    (hst : valuePosition st = true) (ht : isScalarToken t = true) :
    parseToken kASCIIParsePList (openContext st root) t =
      Step.next (afterValue st root (literalObject t)).1 (afterValue st root (literalObject t)).2 := by
  apply scalar_step_of_decoded st root t hst ht
  intro hk
  apply decodeData_even
  simp only [isScalarToken, Bool.decide_or, Bool.or_eq_true, decide_eq_true_eq,
    Bool.decide_and, Bool.and_eq_true, hk] at ht
  simpa using ht

theorem beginArray_step (st : List Frame) (root : Option Object) :
    parseToken kASCIIParsePList (openContext st root) tArrayStart =
      Step.next kASCIIParsePList (openContext (Frame.array [] :: st) root) := by
  simp [parseToken, parsePList, tArrayStart, tk, containerBegun, ASCIIPListParserArrayBegin,
    ASCIIPListParserIncrementLevel, openContext, ASCIIPListParserIsDone]

theorem beginDictionary_step (st : List Frame) (root : Option Object) :
    parseToken kASCIIParsePList (openContext st root) tDictStart =
      Step.next kASCIIParsePList (openContext (Frame.dictionary [] none :: st) root) := by
  simp [parseToken, parsePList, tDictStart, tk, containerBegun, ASCIIPListParserDictionaryBegin,
    ASCIIPListParserIncrementLevel, openContext, ASCIIPListParserIsDone]

theorem endArray_step (st : List Frame) (root : Option Object) (items : List Object)
    (hst : valuePosition st = true) :
    parseToken kASCIIParsePList (openContext (Frame.array items :: st) root) tArrayEnd =
      Step.next (afterValue st root (Object.array items)).1
        (afterValue st root (Object.array items)).2 := by
  rcases st with _ | ⟨f, r⟩
  · simp [parseToken, parsePList, tArrayEnd, tk, containerEnded, ASCIIPListParserArrayEnd,
      ASCIIPListParserDecrementLevel, openContext, ASCIIPListParserIsDone, afterValue,
      ASCIIPListParserStoreValue, ASCIIPListParserFinish, ASCIIPListParserGetLevel]
  · rcases f with its | ⟨es, _ | k⟩
    · simp [parseToken, parsePList, tArrayEnd, tk, containerEnded, ASCIIPListParserArrayEnd,
        ASCIIPListParserDecrementLevel, openContext, ASCIIPListParserIsDone, afterValue,
        ASCIIPListParserStoreValue, ASCIIPListParserFinish, ASCIIPListParserGetLevel,
        level_succ_ne_zero]
    · simp [valuePosition] at hst
    · simp [parseToken, parsePList, tArrayEnd, tk, containerEnded, ASCIIPListParserArrayEnd,
        ASCIIPListParserDecrementLevel, openContext, ASCIIPListParserIsDone, afterValue,
        ASCIIPListParserStoreValue, ASCIIPListParserFinish, ASCIIPListParserGetLevel,
        level_succ_ne_zero]

theorem endArray_separator_step (st : List Frame) (root : Option Object) (items : List Object)
    (hst : valuePosition st = true) :
    parseToken kASCIIParseEntrySeparator (openContext (Frame.array items :: st) root) tArrayEnd =
      Step.next (afterValue st root (Object.array items)).1
        (afterValue st root (Object.array items)).2 := by
  rcases st with _ | ⟨f, r⟩
  · simp [parseToken, parseEntrySeparator, tArrayEnd, tk, containerEnded,
      ASCIIPListParserArrayEnd, ASCIIPListParserIsDictionary, ASCIIPListParserIsArray,
      ASCIIPListParserDecrementLevel, openContext, afterValue,
      ASCIIPListParserStoreValue, ASCIIPListParserFinish, ASCIIPListParserGetLevel]
  · rcases f with its | ⟨es, _ | k⟩
    · simp [parseToken, parseEntrySeparator, tArrayEnd, tk, containerEnded,
        ASCIIPListParserArrayEnd, ASCIIPListParserIsDictionary, ASCIIPListParserIsArray,
        ASCIIPListParserDecrementLevel, openContext, afterValue,
        ASCIIPListParserStoreValue, ASCIIPListParserFinish, ASCIIPListParserGetLevel,
        level_succ_ne_zero]
    · simp [valuePosition] at hst
    · simp [parseToken, parseEntrySeparator, tArrayEnd, tk, containerEnded,
        ASCIIPListParserArrayEnd, ASCIIPListParserIsDictionary, ASCIIPListParserIsArray,
        ASCIIPListParserDecrementLevel, openContext, afterValue,
        ASCIIPListParserStoreValue, ASCIIPListParserFinish, ASCIIPListParserGetLevel,
        level_succ_ne_zero]

theorem endDictionary_step (st : List Frame) (root : Option Object)
    (entries : List (String × Object)) (hst : valuePosition st = true) :
    parseToken kASCIIParsePList (openContext (Frame.dictionary entries none :: st) root)
        tDictEnd =
      Step.next (afterValue st root (Object.dictionary entries)).1
        (afterValue st root (Object.dictionary entries)).2 := by
  rcases st with _ | ⟨f, r⟩
  · simp [parseToken, parsePList, tDictEnd, tk, containerEnded, ASCIIPListParserDictionaryEnd,
      ASCIIPListParserDecrementLevel, openContext, ASCIIPListParserIsDone, afterValue,
      ASCIIPListParserStoreValue, ASCIIPListParserFinish, ASCIIPListParserGetLevel]
  · rcases f with its | ⟨es, _ | k⟩
    · simp [parseToken, parsePList, tDictEnd, tk, containerEnded, ASCIIPListParserDictionaryEnd,
        ASCIIPListParserDecrementLevel, openContext, ASCIIPListParserIsDone, afterValue,
        ASCIIPListParserStoreValue, ASCIIPListParserFinish, ASCIIPListParserGetLevel,
        level_succ_ne_zero]
    · simp [valuePosition] at hst
    · simp [parseToken, parsePList, tDictEnd, tk, containerEnded, ASCIIPListParserDictionaryEnd,
        ASCIIPListParserDecrementLevel, openContext, ASCIIPListParserIsDone, afterValue,
        ASCIIPListParserStoreValue, ASCIIPListParserFinish, ASCIIPListParserGetLevel,
        level_succ_ne_zero]

theorem comma_step (st : List Frame) (root : Option Object) (items : List Object) :
    parseToken kASCIIParseEntrySeparator (openContext (Frame.array items :: st) root) tComma =
      Step.next kASCIIParsePList (openContext (Frame.array items :: st) root) := by
  simp [parseToken, parseEntrySeparator, tComma, tk, ASCIIPListParserIsDictionary,
    ASCIIPListParserIsArray, openContext]

theorem semicolon_step (st : List Frame) (root : Option Object)
    (entries : List (String × Object)) :
    parseToken kASCIIParseEntrySeparator
        (openContext (Frame.dictionary entries none :: st) root) tSemi =
      Step.next kASCIIParsePList (openContext (Frame.dictionary entries none :: st) root) := by
  simp [parseToken, parseEntrySeparator, tSemi, tk, ASCIIPListParserIsDictionary,
    ASCIIPListParserIsArray, openContext]

theorem key_step (st : List Frame) (root : Option Object) (entries : List (String × Object))
    (k : Token) (hk : isStringToken k = true) :
    parseToken kASCIIParsePList (openContext (Frame.dictionary entries none :: st) root) k =
      Step.next kASCIIParseKeyValSeparator
        (openContext (Frame.dictionary entries (some k.contents) :: st) root) := by
  obtain ⟨kind, contents⟩ := k
  simp only [isStringToken, Bool.decide_or, Bool.or_eq_true, decide_eq_true_eq] at hk
  rcases hk with h | h <;> subst h <;>
  simp [parseToken, parsePList, parseLiteral, afterStore, literalStored, openContext,
    ASCIIPListParserIsDone, ASCIIPListParserGetLevel, ASCIIPListParserIsDictionary,
    ASCIIPListParserStoreKey, level_succ_ne_zero]

theorem keyValSeparator_step (context : ASCIIPListParserContext) :
    parseToken kASCIIParseKeyValSeparator context tEq = Step.next kASCIIParsePList context := by
  simp [parseToken, parseKeyValSeparator, tEq, tk]

theorem parseLoop_cons_next (s s1 : ASCIIParseState) (c c1 : ASCIIPListParserContext)
    (tok : Token) (rest : List Token) (hn : tok.kind.isNegative = false)
    (h : parseToken s c tok = Step.next s1 c1) :
    parseLoop s c (tok :: rest) = parseLoop s1 c1 rest := by
  simp [parseLoop, hn, h]

theorem scalar_parses (t : Token) (ht : isScalarToken t = true) : Parses [t] (literalObject t) := by
  intro st root rest hst
  have hn : t.kind.isNegative = false := by
    obtain ⟨kind, contents⟩ := t
    simp only [isScalarToken, Bool.decide_or, Bool.or_eq_true, decide_eq_true_eq,
      Bool.decide_and, Bool.and_eq_true] at ht
    rcases ht with h | h | h | h | h | h | ⟨h, _⟩ <;> subst h <;> rfl
  exact parseLoop_cons_next _ _ _ _ t rest hn (scalar_step st root t hst ht)

theorem arrayBody_parses (vs : List (List Token)) (objs : List Object)
    (h : List.Forall₂ Parses vs objs) :
    ∀ (trailing : Bool) (st : List Frame) (root : Option Object) (acc : List Object)
      (rest : List Token), valuePosition st = true →
      parseLoop kASCIIParsePList (openContext (Frame.array acc :: st) root)
          (arrayBody vs trailing ++ tArrayEnd :: rest) =
        parseLoop (afterValue st root (Object.array (acc ++ objs))).1
          (afterValue st root (Object.array (acc ++ objs))).2 rest := by
  induction h with
  | nil =>
    intro trailing st root acc rest hst
    simp only [arrayBody, List.nil_append, List.append_nil]
    exact parseLoop_cons_next _ _ _ _ _ rest rfl (endArray_step st root acc hst)
  | @cons v obj vs1 objs1 hv hrest ih =>
    intro trailing st root acc rest hst
    cases hrest with
    | nil =>
      simp only [arrayBody, List.append_assoc]
      rw [hv (Frame.array acc :: st) root _ rfl]
      simp only [afterValue]
      cases trailing with
      | false =>
        simp only [Bool.false_eq_true, if_false, List.nil_append]
        exact parseLoop_cons_next _ _ _ _ _ rest rfl (endArray_separator_step st root _ hst)
      | true =>
        simp only [if_true, List.singleton_append]
        rw [parseLoop_cons_next _ _ _ _ tComma _ rfl (comma_step st root _)]
        exact parseLoop_cons_next _ _ _ _ _ rest rfl (endArray_step st root _ hst)
    | @cons w obj2 vs2 objs2 hw hrest2 =>
      simp only [arrayBody, List.append_assoc, List.cons_append]
      rw [hv (Frame.array acc :: st) root _ rfl]
      simp only [afterValue]
      rw [parseLoop_cons_next _ _ _ _ tComma _ rfl (comma_step st root _)]
      have := ih trailing st root (acc ++ [obj]) rest hst
      simp only [arrayBody, List.append_assoc, List.cons_append, List.singleton_append,
        List.nil_append] at this ⊢
      exact this

theorem array_parses (vs : List (List Token)) (objs : List Object)
    (h : List.Forall₂ Parses vs objs) (trailing : Bool) :
    Parses (arrayTokens vs trailing) (Object.array objs) := by
  intro st root rest hst
  simp only [arrayTokens, List.cons_append, List.append_assoc, List.singleton_append]
  rw [parseLoop_cons_next _ _ _ _ tArrayStart _ rfl (beginArray_step st root)]
  have := arrayBody_parses vs objs h trailing st root [] rest hst
  simpa using this

theorem dictBody_parses (es : List (Token × List Token)) (objs : List Object)
    (h : List.Forall₂ (fun e obj => isStringToken e.1 = true ∧ Parses e.2 obj) es objs) :
    ∀ (st : List Frame) (root : Option Object) (acc : List (String × Object))
      (rest : List Token), valuePosition st = true →
      parseLoop kASCIIParsePList (openContext (Frame.dictionary acc none :: st) root)
          (dictBody es ++ tDictEnd :: rest) =
        parseLoop
          (afterValue st root (Object.dictionary
            (storeEntries acc ((es.map (fun e => e.1.contents)).zip objs)))).1
          (afterValue st root (Object.dictionary
            (storeEntries acc ((es.map (fun e => e.1.contents)).zip objs)))).2 rest := by
  induction h with
  | nil =>
    intro st root acc rest hst
    simp only [dictBody, List.nil_append, List.map_nil, List.zip_nil_left, storeEntries,
      List.foldl_nil]
    exact parseLoop_cons_next _ _ _ _ _ rest rfl (endDictionary_step st root acc hst)
  | @cons e obj es1 objs1 he hrest ih =>
    intro st root acc rest hst
    obtain ⟨k, v⟩ := e
    obtain ⟨hk, hv⟩ := he
    have hn : k.kind.isNegative = false := by
      obtain ⟨kind, contents⟩ := k
      simp only [isStringToken, Bool.decide_or, Bool.or_eq_true, decide_eq_true_eq] at hk
      rcases hk with h | h <;> subst h <;> rfl
    simp only [dictBody, List.cons_append, List.append_assoc]
    rw [parseLoop_cons_next _ _ _ _ _ _ hn (key_step st root acc k hk)]
    rw [parseLoop_cons_next _ _ _ _ tEq _ rfl (keyValSeparator_step _)]
    rw [hv (Frame.dictionary acc (some k.contents) :: st) root _ rfl]
    simp only [afterValue]
    rw [parseLoop_cons_next _ _ _ _ tSemi _ rfl (semicolon_step st root _)]
    have := ih st root (Dictionary.set acc k.contents obj) rest hst
    simpa [storeEntries] using this

theorem dict_parses (es : List (Token × List Token)) (objs : List Object)
    (h : List.Forall₂ (fun e obj => isStringToken e.1 = true ∧ Parses e.2 obj) es objs) :
    Parses (dictTokens es)
      (Object.dictionary (storeEntries [] ((es.map (fun e => e.1.contents)).zip objs))) := by
  intro st root rest hst
  simp only [dictTokens, List.cons_append, List.append_assoc, List.singleton_append]
  rw [parseLoop_cons_next _ _ _ _ tDictStart _ rfl (beginDictionary_step st root)]
  exact dictBody_parses es objs h st root [] rest hst

theorem forall₂_of_forall_exists {α β : Type} (R : α → β → Prop) (l : List α)
    (h : ∀ a ∈ l, ∃ b, R a b) : ∃ bs, List.Forall₂ R l bs := by
  induction l with
  | nil => exact ⟨[], List.Forall₂.nil⟩
  | cons a l ih =>
    obtain ⟨b, hb⟩ := h a (by simp)
    obtain ⟨bs, hbs⟩ := ih (fun x hx => h x (by simp [hx]))
    exact ⟨b :: bs, List.Forall₂.cons hb hbs⟩

theorem isValue_parses (ts : List Token) (h : IsValue ts) : ∃ obj, Parses ts obj := by
  induction h with
  | scalar t ht => exact ⟨_, scalar_parses t ht⟩
  | array vs trailing _ ih =>
    obtain ⟨objs, hobjs⟩ := forall₂_of_forall_exists Parses vs ih
    exact ⟨_, array_parses vs objs hobjs trailing⟩
  | dict es hk _ ih =>
    obtain ⟨objs, hobjs⟩ := forall₂_of_forall_exists
      (fun e obj => isStringToken e.1 = true ∧ Parses e.2 obj) es
      (fun e he => (ih e he).imp (fun _ hp => ⟨hk e he, hp⟩))
    exact ⟨_, dict_parses es objs hobjs⟩

theorem parses_top_level (ts : List Token) (obj : Object) (h : Parses ts obj) :
    ASCIIParserParse ASCIIPListParserContextInit ts =
      some (true, { stack := [], root := some obj, level := 0, done := true, error := none }) := by
  have := h [] none [] rfl
  simp only [List.append_nil] at this
  simp only [ASCIIParserParse]
  have hinit : ASCIIPListParserContextInit = openContext [] none := rfl
  rw [hinit, this]
  rfl

theorem arrayBody_false (vs : List (List Token)) : arrayBody vs false = commaSeparated vs := by
  induction vs with
  | nil => rfl
  | cons v vs ih =>
    cases vs with
    | nil => simp [arrayBody, commaSeparated]
    | cons w ws => simp only [arrayBody, commaSeparated, ih]

theorem arrayBody_true (vs : List (List Token)) (h : vs ≠ []) :
    arrayBody vs true = commaSeparated vs ++ [tComma] := by
  induction vs with
  | nil => exact absurd rfl h
  | cons v vs ih =>
    cases vs with
    | nil => simp [arrayBody, commaSeparated]
    | cons w ws =>
      simp only [arrayBody, commaSeparated, ih (by simp), List.append_assoc, List.cons_append]

theorem Dictionary.set_of_not_mem (acc : List (String × Object)) (k : String) (v : Object)
    (h : k ∉ acc.map Prod.fst) : Dictionary.set acc k v = acc ++ [(k, v)] := by
  induction acc with
  | nil => rfl
  | cons e acc ih =>
    obtain ⟨k0, v0⟩ := e
    simp only [List.map_cons, List.mem_cons, not_or] at h
    have hne : ¬ k0 = k := fun he => h.1 he.symm
    simp [Dictionary.set, hne, ih h.2]

theorem storeEntries_of_nodup (kvs : List (String × Object)) :
    ∀ acc : List (String × Object), (kvs.map Prod.fst).Nodup →
      (∀ kv ∈ kvs, kv.1 ∉ acc.map Prod.fst) → storeEntries acc kvs = acc ++ kvs := by
  induction kvs with
  | nil => intro acc _ _; simp [storeEntries]
  | cons kv kvs ih =>
    intro acc hnd hdis
    simp only [List.map_cons, List.nodup_cons] at hnd
    have h1 : storeEntries acc (kv :: kvs) = storeEntries (Dictionary.set acc kv.1 kv.2) kvs := rfl
    rw [h1, Dictionary.set_of_not_mem acc kv.1 kv.2 (hdis kv (by simp)), ih _ hnd.2]
    · simp
    · intro x hx
      simp only [List.map_append, List.map_cons, List.map_nil, List.mem_append,
        List.mem_singleton, not_or]
      refine ⟨hdis x (by simp [hx]), ?_⟩
      intro he
      exact hnd.1 (he ▸ List.mem_map_of_mem Prod.fst hx)

theorem Dictionary.get_of_mem (d : List (String × Object)) (hnd : (d.map Prod.fst).Nodup)
    (k : String) (v : Object) (h : (k, v) ∈ d) : Dictionary.get d k = some v := by
  induction d with
  | nil => simp at h
  | cons e d ih =>
    obtain ⟨k0, v0⟩ := e
    simp only [List.map_cons, List.nodup_cons] at hnd
    simp only [List.mem_cons, Prod.mk.injEq] at h
    rcases h with ⟨hk, hv⟩ | h
    · simp [Dictionary.get, hk, hv]
    · have hne : ¬ k0 = k := by
        intro he
        exact hnd.1 (he ▸ List.mem_map_of_mem Prod.fst h)
      simp [Dictionary.get, hne, ih hnd.2 h]

theorem parses_top_level_eof (ts : List Token) (obj : Object) (h : Parses ts obj) :
    ASCIIParserParse ASCIIPListParserContextInit (ts ++ [tk kASCIIPListLexerEndOfFile]) =
      some (true, finishedContext obj) := by
  have := h [] none [tk kASCIIPListLexerEndOfFile] rfl
  simp only [ASCIIParserParse]
  have hinit : ASCIIPListParserContextInit = openContext [] none := rfl
  rw [hinit, this]
  rfl

theorem scalars_parse (ts : List Token) (h : ∀ t ∈ ts, isScalarToken t = true) :
    List.Forall₂ Parses (ts.map (fun t => [t])) (ts.map literalObject) := by
  induction ts with
  | nil => exact List.Forall₂.nil
  | cons t ts ih =>
    exact List.Forall₂.cons (scalar_parses t (h t (by simp)))
      (ih (fun x hx => h x (by simp [hx])))

theorem flat_entries_parse (es : List (Token × Token))
    (hk : ∀ e ∈ es, isStringToken e.1 = true) (hv : ∀ e ∈ es, isScalarToken e.2 = true) :
    List.Forall₂ (fun (e : Token × List Token) obj => isStringToken e.1 = true ∧ Parses e.2 obj)
      (es.map (fun e => (e.1, [e.2]))) (es.map (fun e => literalObject e.2)) := by
  induction es with
  | nil => exact List.Forall₂.nil
  | cons e es ih =>
    exact List.Forall₂.cons ⟨hk e (by simp), scalar_parses e.2 (hv e (by simp))⟩
      (ih (fun x hx => hk x (by simp [hx])) (fun x hx => hv x (by simp [hx])))

theorem flat_entries_zip (es : List (Token × Token)) :
    (((es.map (fun e => (e.1, [e.2]))).map (fun e => e.1.contents)).zip
      (es.map (fun e => literalObject e.2))) =
      es.map (fun e => (e.1.contents, literalObject e.2)) := by
  induction es with
  | nil => rfl
  | cons e es ih => simpa using ih

theorem level_succ_sub_one_ne_zero (n : Nat) : ((n : Int) + 1 + 1 - 1 = 0) = False := by
  simp; omega

theorem loopInvariant_step (s s1 : ASCIIParseState) (c c1 : ASCIIPListParserContext)
    (tok : Token) (hinv : LoopInvariant s c) (hs : parseToken s c tok = Step.next s1 c1) :
    LoopInvariant s1 c1 := by
  obtain ⟨stack, root, level, done, error⟩ := c
  obtain ⟨kind, contents⟩ := tok
  obtain ⟨he, hl, hf⟩ := hinv
  simp only at he hl hf
  subst he hl
  cases s with
  | kASCIIInvalid => simp [stateFits] at hf
  | kASCIIParseKeyValSeparator =>
    rcases stack with _ | ⟨(_ | ⟨_, _ | _⟩), _⟩ <;> cases done <;> simp [stateFits] at hf
    by_cases hk : kind = kASCIIPListLexerTokenDictionaryKeyValSeparator
    · subst hk
      simp [parseToken, parseKeyValSeparator] at hs
      obtain ⟨h1, h2⟩ := hs
      subst h1 h2
      simp [LoopInvariant, stateFits]
    · cases kind <;> simp [parseToken, parseKeyValSeparator] at hs hk <;>
      (obtain ⟨h1, h2⟩ := hs; subst h1 h2; simp [LoopInvariant, stateFits])
  | kASCIIParseEntrySeparator =>
    rcases stack with _ | ⟨(_ | ⟨_, _ | _⟩), st⟩ <;> cases done <;> simp [stateFits] at hf
    · cases kind <;>
      simp [parseToken, parseEntrySeparator, ASCIIPListParserIsDictionary,
        ASCIIPListParserIsArray] at hs <;>
      first
      | (obtain ⟨h1, h2⟩ := hs; subst h1 h2; simp [LoopInvariant, stateFits])
      | (rcases st with _ | ⟨(_ | ⟨_, _ | _⟩), st2⟩ <;>
         simp [containerEnded, ASCIIPListParserArrayEnd, ASCIIPListParserStoreValue,
           ASCIIPListParserDecrementLevel, ASCIIPListParserGetLevel, ASCIIPListParserFinish,
           ASCIIPListParserAbort, level_succ_ne_zero, level_succ_sub_one_ne_zero] at hs <;>
         (obtain ⟨h1, h2⟩ := hs; subst h1 h2; simp [LoopInvariant, stateFits]))
    · cases kind <;>
      simp [parseToken, parseEntrySeparator, ASCIIPListParserIsDictionary,
        ASCIIPListParserIsArray] at hs <;>
      (obtain ⟨h1, h2⟩ := hs; subst h1 h2; simp [LoopInvariant, stateFits])
  | kASCIIParsePList =>
    cases done with
    | true =>
      cases kind <;> simp [parseToken, parsePList, ASCIIPListParserIsDone] at hs <;>
      (obtain ⟨h1, h2⟩ := hs; subst h1 h2; simpa [LoopInvariant, stateFits] using hf)
    | false =>
      clear hf
      cases hd : decodeData contents <;> by_cases hr : strchr contents '.' = true <;>
      rcases stack with _ | ⟨(_ | ⟨_, _ | _⟩), st⟩ <;>
      cases kind <;>
      simp [parseToken, parsePList, parseLiteral, afterStore, literalStored, containerBegun,
        containerEnded, ASCIIPListParserIsDone, ASCIIPListParserGetLevel,
        ASCIIPListParserIsDictionary, ASCIIPListParserStoreValue, ASCIIPListParserStoreKey,
        ASCIIPListParserFinish, ASCIIPListParserAbort, ASCIIPListParserDictionaryBegin,
        ASCIIPListParserArrayBegin, ASCIIPListParserDictionaryEnd, ASCIIPListParserArrayEnd,
        ASCIIPListParserIncrementLevel, ASCIIPListParserDecrementLevel, hd, hr,
        level_succ_ne_zero] at hs <;>
      first
      | (obtain ⟨h1, h2⟩ := hs; subst h1 h2; simp [LoopInvariant, stateFits])
      | (rcases st with _ | ⟨(_ | ⟨_, _ | _⟩), st2⟩ <;>
         simp [level_succ_ne_zero, level_succ_sub_one_ne_zero] at hs <;>
         (obtain ⟨h1, h2⟩ := hs; subst h1 h2; simp [LoopInvariant, stateFits]))

theorem reaches_invariant (pre : List Token) (s : ASCIIParseState)
    (c : ASCIIPListParserContext) (h : Reaches pre s c) : LoopInvariant s c := by
  induction h with
  | init => simp [LoopInvariant, stateFits, ASCIIPListParserContextInit]
  | step pre s s1 c c1 tok _ _ hs ih => exact loopInvariant_step s s1 c c1 tok ih hs

theorem reaches_parseLoop (pre : List Token) (s : ASCIIParseState)
    (c : ASCIIPListParserContext) (h : Reaches pre s c) :
    ∀ rest, ASCIIParserParse ASCIIPListParserContextInit (pre ++ rest) = parseLoop s c rest := by
  induction h with
  | init => intro rest; rfl
  | step pre s s1 c c1 tok _ hn hs ih =>
    intro rest
    rw [List.append_assoc, ih, List.singleton_append, parseLoop_cons_next s s1 c c1 tok rest hn hs]

theorem parseLoop_comment (s : ASCIIParseState) (c : ASCIIPListParserContext) (tok : Token)
    (rest : List Token) (hc : isComment tok = true) :
    parseLoop s c (tok :: rest) = parseLoop s c rest := by
  obtain ⟨kind, contents⟩ := tok
  simp only [isComment, Bool.decide_or, Bool.or_eq_true, decide_eq_true_eq] at hc
  rcases hc with h | h <;> subst h <;>
    simp [parseLoop, ASCIIPListLexerToken.isNegative, parseToken]

theorem commentsInserted_parseLoop (ts ts1 : List Token) (h : CommentsInserted ts ts1) :
    ∀ (s : ASCIIParseState) (c : ASCIIPListParserContext),
      parseLoop s c ts1 = parseLoop s c ts := by
  induction h with
  | nil => intro s c; rfl
  | keep t ts ts1 _ ih =>
    intro s c
    simp only [parseLoop]
    split
    · rfl
    · split
      · exact ih _ _
      · rfl
      · rfl
  | insert t ts ts1 hc _ ih =>
    intro s c
    rw [parseLoop_comment s c t ts1 hc]
    exact ih s c

theorem lexerStop_failure_message (c : ASCIIPListParserContext) (k : ASCIIPListLexerToken)
    (he : c.error = none) (b : Bool) (c1 : ASCIIPListParserContext)
    (h : lexerStop c k = (b, c1)) :
    (b = true ∧ k = kASCIIPListLexerEndOfFile ∧ c.done = true ∧ c1 = c) ∨
      (b = false ∧ ∃ msg, c1.error = some msg) := by
  obtain ⟨stack, root, level, done, error⟩ := c
  simp only at he
  subst he
  cases done <;> cases k <;>
    simp [lexerStop, ASCIIPListParserIsDone, ASCIIPListParserAbort] at h <;>
    (obtain ⟨h1, h2⟩ := h; subst h1 h2; simp)

theorem step_failure_message (s : ASCIIParseState) (c c1 : ASCIIPListParserContext)
    (tok : Token) (b : Bool) (hinv : LoopInvariant s c)
    (hs : parseToken s c tok = Step.ret b c1) : b = false ∧ ∃ msg, c1.error = some msg := by
  obtain ⟨stack, root, level, done, error⟩ := c
  obtain ⟨kind, contents⟩ := tok
  obtain ⟨he, hl, hf⟩ := hinv
  simp only at he hl hf
  subst he hl
  cases s with
  | kASCIIInvalid => simp [stateFits] at hf
  | kASCIIParseKeyValSeparator =>
    cases kind <;> simp [parseToken, parseKeyValSeparator, ASCIIPListParserAbort] at hs <;>
      (obtain ⟨h1, h2⟩ := hs; subst h1 h2; simp)
  | kASCIIParseEntrySeparator =>
    rcases stack with _ | ⟨(_ | ⟨_, _ | _⟩), st⟩ <;> cases done <;> simp [stateFits] at hf
    · cases kind <;>
      simp [parseToken, parseEntrySeparator, ASCIIPListParserIsDictionary,
        ASCIIPListParserIsArray, ASCIIPListParserAbort] at hs <;>
      first
      | (obtain ⟨h1, h2⟩ := hs; subst h1 h2; simp)
      | (rcases st with _ | ⟨(_ | ⟨_, _ | _⟩), st2⟩ <;>
         simp [containerEnded, ASCIIPListParserArrayEnd, ASCIIPListParserStoreValue,
           ASCIIPListParserDecrementLevel, ASCIIPListParserGetLevel, ASCIIPListParserFinish,
           ASCIIPListParserAbort, level_succ_ne_zero, level_succ_sub_one_ne_zero] at hs <;>
         (obtain ⟨h1, h2⟩ := hs; subst h1 h2; simp))
    · cases kind <;>
      simp [parseToken, parseEntrySeparator, ASCIIPListParserIsDictionary,
        ASCIIPListParserIsArray, ASCIIPListParserAbort] at hs <;>
      (obtain ⟨h1, h2⟩ := hs; subst h1 h2; simp)
  | kASCIIParsePList =>
    cases done with
    | true =>
      cases kind <;>
        simp [parseToken, parsePList, ASCIIPListParserIsDone, ASCIIPListParserAbort] at hs <;>
      (obtain ⟨h1, h2⟩ := hs; subst h1 h2; simp)
    | false =>
      clear hf
      cases hd : decodeData contents <;> by_cases hr : strchr contents '.' = true <;>
      rcases stack with _ | ⟨(_ | ⟨_, _ | _⟩), st⟩ <;>
      cases kind <;>
      simp [parseToken, parsePList, parseLiteral, afterStore, literalStored, containerBegun,
        containerEnded, ASCIIPListParserIsDone, ASCIIPListParserGetLevel,
        ASCIIPListParserIsDictionary, ASCIIPListParserStoreValue, ASCIIPListParserStoreKey,
        ASCIIPListParserFinish, ASCIIPListParserAbort, ASCIIPListParserDictionaryBegin,
        ASCIIPListParserArrayBegin, ASCIIPListParserDictionaryEnd, ASCIIPListParserArrayEnd,
        ASCIIPListParserIncrementLevel, ASCIIPListParserDecrementLevel, hd, hr,
        level_succ_ne_zero] at hs <;>
      first
      | (obtain ⟨h1, h2⟩ := hs; subst h1 h2; simp)
      | (rcases st with _ | ⟨(_ | ⟨_, _ | _⟩), st2⟩ <;>
         simp [level_succ_ne_zero, level_succ_sub_one_ne_zero] at hs <;>
         (obtain ⟨h1, h2⟩ := hs; subst h1 h2; simp))

theorem rootInvariant_step (s s1 : ASCIIParseState) (c c1 : ASCIIPListParserContext)
    (tok : Token) (hinv : LoopInvariant s c) (hroot : c.done = true → c.root.isSome = true)
    (hs : parseToken s c tok = Step.next s1 c1) : c1.done = true → c1.root.isSome = true := by
  obtain ⟨stack, root, level, done, error⟩ := c
  obtain ⟨kind, contents⟩ := tok
  obtain ⟨he, hl, hf⟩ := hinv
  simp only at he hl hf hroot
  subst he hl
  cases s with
  | kASCIIInvalid => simp [stateFits] at hf
  | kASCIIParseKeyValSeparator =>
    rcases stack with _ | ⟨(_ | ⟨_, _ | _⟩), _⟩ <;> cases done <;> simp [stateFits] at hf
    cases kind <;> simp [parseToken, parseKeyValSeparator] at hs <;>
      (obtain ⟨h1, h2⟩ := hs; subst h1 h2; simp)
  | kASCIIParseEntrySeparator =>
    rcases stack with _ | ⟨(_ | ⟨_, _ | _⟩), st⟩ <;> cases done <;> simp [stateFits] at hf
    · cases kind <;>
      simp [parseToken, parseEntrySeparator, ASCIIPListParserIsDictionary,
        ASCIIPListParserIsArray] at hs <;>
      first
      | (obtain ⟨h1, h2⟩ := hs; subst h1 h2; simp)
      | (rcases st with _ | ⟨(_ | ⟨_, _ | _⟩), st2⟩ <;>
         simp [containerEnded, ASCIIPListParserArrayEnd, ASCIIPListParserStoreValue,
           ASCIIPListParserDecrementLevel, ASCIIPListParserGetLevel, ASCIIPListParserFinish,
           ASCIIPListParserAbort, level_succ_ne_zero, level_succ_sub_one_ne_zero] at hs <;>
         (obtain ⟨h1, h2⟩ := hs; subst h1 h2; simp))
    · cases kind <;>
      simp [parseToken, parseEntrySeparator, ASCIIPListParserIsDictionary,
        ASCIIPListParserIsArray] at hs <;>
      (obtain ⟨h1, h2⟩ := hs; subst h1 h2; simp)
  | kASCIIParsePList =>
    cases done with
    | true =>
      cases kind <;> simp [parseToken, parsePList, ASCIIPListParserIsDone] at hs <;>
      (obtain ⟨h1, h2⟩ := hs; subst h1 h2; simpa using hroot)
    | false =>
      clear hf
      cases hd : decodeData contents <;> by_cases hr : strchr contents '.' = true <;>
      rcases stack with _ | ⟨(_ | ⟨_, _ | _⟩), st⟩ <;>
      cases kind <;>
      simp [parseToken, parsePList, parseLiteral, afterStore, literalStored, containerBegun,
        containerEnded, ASCIIPListParserIsDone, ASCIIPListParserGetLevel,
        ASCIIPListParserIsDictionary, ASCIIPListParserStoreValue, ASCIIPListParserStoreKey,
        ASCIIPListParserFinish, ASCIIPListParserAbort, ASCIIPListParserDictionaryBegin,
        ASCIIPListParserArrayBegin, ASCIIPListParserDictionaryEnd, ASCIIPListParserArrayEnd,
        ASCIIPListParserIncrementLevel, ASCIIPListParserDecrementLevel, hd, hr,
        level_succ_ne_zero] at hs <;>
      first
      | (obtain ⟨h1, h2⟩ := hs; subst h1 h2; simp)
      | (rcases st with _ | ⟨(_ | ⟨_, _ | _⟩), st2⟩ <;>
         simp [level_succ_ne_zero, level_succ_sub_one_ne_zero] at hs <;>
         (obtain ⟨h1, h2⟩ := hs; subst h1 h2; simp))

theorem reaches_done_root (pre : List Token) (s : ASCIIParseState)
    (c : ASCIIPListParserContext) (h : Reaches pre s c) :
    c.done = true → c.root.isSome = true := by
  induction h with
  | init => simp [ASCIIPListParserContextInit]
  | step pre s s1 c c1 tok hr _ hs ih =>
    exact rootInvariant_step s s1 c c1 tok (reaches_invariant pre s c hr) ih hs

theorem step_depth (s s1 : ASCIIParseState) (c c1 : ASCIIPListParserContext)
    (tok : Token) (hinv : LoopInvariant s c) (hs : parseToken s c tok = Step.next s1 c1) :
    (c1.stack.length : Int) = (c.stack.length : Int) + depthChange tok.kind := by
  obtain ⟨stack, root, level, done, error⟩ := c
  obtain ⟨kind, contents⟩ := tok
  obtain ⟨he, hl, hf⟩ := hinv
  simp only at he hl hf
  subst he hl
  cases s with
  | kASCIIInvalid => simp [stateFits] at hf
  | kASCIIParseKeyValSeparator =>
    cases kind <;> simp [parseToken, parseKeyValSeparator] at hs <;>
      (obtain ⟨h1, h2⟩ := hs; subst h1 h2; simp [depthChange])
  | kASCIIParseEntrySeparator =>
    rcases stack with _ | ⟨(_ | ⟨_, _ | _⟩), st⟩ <;> cases done <;> simp [stateFits] at hf
    · cases kind <;>
      simp [parseToken, parseEntrySeparator, ASCIIPListParserIsDictionary,
        ASCIIPListParserIsArray] at hs <;>
      first
      | (obtain ⟨h1, h2⟩ := hs; subst h1 h2; simp [depthChange])
      | (rcases st with _ | ⟨(_ | ⟨_, _ | _⟩), st2⟩ <;>
         simp [containerEnded, ASCIIPListParserArrayEnd, ASCIIPListParserStoreValue,
           ASCIIPListParserDecrementLevel, ASCIIPListParserGetLevel, ASCIIPListParserFinish,
           ASCIIPListParserAbort, level_succ_ne_zero, level_succ_sub_one_ne_zero] at hs <;>
         (obtain ⟨h1, h2⟩ := hs; subst h1 h2; simp [depthChange]))
    · cases kind <;>
      simp [parseToken, parseEntrySeparator, ASCIIPListParserIsDictionary,
        ASCIIPListParserIsArray] at hs <;>
      (obtain ⟨h1, h2⟩ := hs; subst h1 h2; simp [depthChange])
  | kASCIIParsePList =>
    cases done with
    | true =>
      cases kind <;> simp [parseToken, parsePList, ASCIIPListParserIsDone] at hs <;>
      (obtain ⟨h1, h2⟩ := hs; subst h1 h2; simp [depthChange])
    | false =>
      clear hf
      cases hd : decodeData contents <;> by_cases hr : strchr contents '.' = true <;>
      rcases stack with _ | ⟨(_ | ⟨_, _ | _⟩), st⟩ <;>
      cases kind <;>
      simp [parseToken, parsePList, parseLiteral, afterStore, literalStored, containerBegun,
        containerEnded, ASCIIPListParserIsDone, ASCIIPListParserGetLevel,
        ASCIIPListParserIsDictionary, ASCIIPListParserStoreValue, ASCIIPListParserStoreKey,
        ASCIIPListParserFinish, ASCIIPListParserAbort, ASCIIPListParserDictionaryBegin,
        ASCIIPListParserArrayBegin, ASCIIPListParserDictionaryEnd, ASCIIPListParserArrayEnd,
        ASCIIPListParserIncrementLevel, ASCIIPListParserDecrementLevel, hd, hr,
        level_succ_ne_zero] at hs <;>
      first
      | (obtain ⟨h1, h2⟩ := hs; subst h1 h2; simp [depthChange])
      | (rcases st with _ | ⟨(_ | ⟨_, _ | _⟩), st2⟩ <;>
         simp [level_succ_ne_zero, level_succ_sub_one_ne_zero] at hs <;>
         (obtain ⟨h1, h2⟩ := hs; subst h1 h2; simp [depthChange]))

theorem driver_outcome (rest : List Token) :
    ∀ (pre : List Token) (s : ASCIIParseState) (c : ASCIIPListParserContext),
      Reaches pre s c → ∀ (b : Bool) (c1 : ASCIIPListParserContext),
      parseLoop s c rest = some (b, c1) →
      (b = true ∧ c1.done = true ∧ c1.root.isSome = true ∧ c1.stack = [] ∧ c1.error = none) ∨
        (b = false ∧ ∃ msg, c1.error = some msg) := by
  have hstop : ∀ (pre : List Token) (s : ASCIIParseState) (c : ASCIIPListParserContext)
      (k : ASCIIPListLexerToken), Reaches pre s c → ∀ (b : Bool) (c1 : ASCIIPListParserContext),
      lexerStop c k = (b, c1) →
      (b = true ∧ c1.done = true ∧ c1.root.isSome = true ∧ c1.stack = [] ∧ c1.error = none) ∨
        (b = false ∧ ∃ msg, c1.error = some msg) := by
    intro pre s c k hr b c1 h
    obtain ⟨he, _, hf⟩ := reaches_invariant pre s c hr
    rcases lexerStop_failure_message c k he b c1 h with ⟨hb, _, hd, hc⟩ | hfail
    · subst hc
      refine Or.inl ⟨hb, hd, reaches_done_root pre s c1 hr hd, ?_, he⟩
      cases s <;> rcases hst : c1.stack with _ | ⟨(_ | ⟨_, _ | _⟩), st⟩ <;>
        simp [stateFits, hst, hd] at hf <;> rfl
    · exact Or.inr hfail
  induction rest with
  | nil =>
    intro pre s c hr b c1 h
    simp only [parseLoop, Option.some.injEq] at h
    exact hstop pre s c _ hr b c1 h
  | cons tok rest ih =>
    intro pre s c hr b c1 h
    simp only [parseLoop] at h
    split at h
    · simp only [Option.some.injEq] at h
      exact hstop pre s c _ hr b c1 h
    · rename_i hn
      split at h
      · rename_i s1 c2 hs
        exact ih (pre ++ [tok]) s1 c2
          (Reaches.step pre s s1 c c2 tok hr (by simpa using hn) hs) b c1 h
      · rename_i b2 c2 hs
        simp only [Option.some.injEq, Prod.mk.injEq] at h
        obtain ⟨h1, h2⟩ := h
        subst h1 h2
        exact Or.inr (step_failure_message s c c2 tok b2 (reaches_invariant pre s c hr) hs)
      · simp at h
theorem Dictionary.get_set_same (acc : List (String × Object)) (k : String) (v : Object) :
    Dictionary.get (Dictionary.set acc k v) k = some v := by
  induction acc with
  | nil => simp [Dictionary.set, Dictionary.get]
  | cons e acc ih =>
    obtain ⟨k0, v0⟩ := e
    by_cases hk : k0 = k
    · simp [Dictionary.set, Dictionary.get, hk]
    · simp [Dictionary.set, Dictionary.get, hk, ih]

theorem Dictionary.get_set_other (acc : List (String × Object)) (k k1 : String) (v : Object)
    (hne : k1 ≠ k) : Dictionary.get (Dictionary.set acc k v) k1 = Dictionary.get acc k1 := by
  induction acc with
  | nil =>
    have : ¬ k = k1 := fun h => hne h.symm
    simp [Dictionary.set, Dictionary.get, this]
  | cons e acc ih =>
    obtain ⟨k0, v0⟩ := e
    by_cases hk : k0 = k
    · subst hk
      have : ¬ k0 = k1 := fun h => hne h.symm
      simp [Dictionary.set, Dictionary.get, this]
    · by_cases hk1 : k0 = k1
      · subst hk1
        simp [Dictionary.set, Dictionary.get, hk]
      · simp [Dictionary.set, Dictionary.get, hk, hk1, ih]

theorem Dictionary.mem_keys_set (acc : List (String × Object)) (k k1 : String) (v : Object) :
    k1 ∈ (Dictionary.set acc k v).map Prod.fst ↔ k1 = k ∨ k1 ∈ acc.map Prod.fst := by
  induction acc with
  | nil => simp [Dictionary.set]
  | cons e acc ih =>
    obtain ⟨k0, v0⟩ := e
    by_cases hk : k0 = k
    · subst hk
      simp [Dictionary.set]
    · simp only [Dictionary.set, hk, if_false, List.map_cons, List.mem_cons, ih]
      tauto

theorem Dictionary.nodup_keys_set (acc : List (String × Object)) (k : String) (v : Object)
    (h : (acc.map Prod.fst).Nodup) : ((Dictionary.set acc k v).map Prod.fst).Nodup := by
  induction acc with
  | nil => simp [Dictionary.set]
  | cons e acc ih =>
    obtain ⟨k0, v0⟩ := e
    simp only [List.map_cons, List.nodup_cons] at h
    by_cases hk : k0 = k
    · subst hk
      simpa [Dictionary.set] using h
    · simp only [Dictionary.set, hk, if_false, List.map_cons, List.nodup_cons]
      refine ⟨?_, ih h.2⟩
      rw [Dictionary.mem_keys_set]
      intro hm
      rcases hm with hm | hm
      · exact hk hm
      · exact h.1 hm

theorem storeEntries_cons (acc : List (String × Object)) (kv : String × Object)
    (kvs : List (String × Object)) :
    storeEntries acc (kv :: kvs) = storeEntries (Dictionary.set acc kv.1 kv.2) kvs := rfl

theorem storeEntries_append (acc kvs1 kvs2 : List (String × Object)) :
    storeEntries acc (kvs1 ++ kvs2) = storeEntries (storeEntries acc kvs1) kvs2 := by
  simp [storeEntries, List.foldl_append]

theorem storeEntries_nodup_keys (kvs : List (String × Object)) :
    ∀ acc : List (String × Object), (acc.map Prod.fst).Nodup →
      ((storeEntries acc kvs).map Prod.fst).Nodup := by
  induction kvs with
  | nil => intro acc h; simpa [storeEntries] using h
  | cons kv kvs ih =>
    intro acc h
    rw [storeEntries_cons]
    exact ih _ (Dictionary.nodup_keys_set acc kv.1 kv.2 h)

theorem storeEntries_get_other (kvs : List (String × Object)) :
    ∀ (acc : List (String × Object)) (k : String), (∀ kv ∈ kvs, kv.1 ≠ k) →
      Dictionary.get (storeEntries acc kvs) k = Dictionary.get acc k := by
  induction kvs with
  | nil => intro acc k _; rfl
  | cons kv kvs ih =>
    intro acc k h
    rw [storeEntries_cons, ih _ k (fun x hx => h x (by simp [hx]))]
    exact Dictionary.get_set_other acc kv.1 k kv.2 (fun he => h kv (by simp) he.symm)

theorem storeEntries_mem_keys (kvs : List (String × Object)) :
    ∀ (acc : List (String × Object)) (k : String),
      k ∈ (storeEntries acc kvs).map Prod.fst ↔
        k ∈ acc.map Prod.fst ∨ k ∈ kvs.map Prod.fst := by
  induction kvs with
  | nil => intro acc k; simp [storeEntries]
  | cons kv kvs ih =>
    intro acc k
    rw [storeEntries_cons, ih, Dictionary.mem_keys_set]
    simp only [List.map_cons, List.mem_cons]
    tauto

theorem flat_dictionary_parses (es : List (Token × Token))
    (hk : ∀ e ∈ es, isStringToken e.1 = true) (hv : ∀ e ∈ es, isScalarToken e.2 = true) :
    ASCIIParserParse ASCIIPListParserContextInit (dictTokens (es.map (fun e => (e.1, [e.2])))) =
      some (true, finishedContext (Object.dictionary
        (storeEntries [] (es.map (fun e => (e.1.contents, literalObject e.2)))))) := by
  have hp := dict_parses _ _ (flat_entries_parse es hk hv)
  rw [flat_entries_zip] at hp
  exact parses_top_level _ _ hp

theorem parse_of_driverRuns (lexerInit : List Nat → Nat → ASCIIPListLexer) (fp : FileStream)
    (fsize : Nat) (h : driverRuns fp fsize) :
    ASCIIParser.parse lexerInit fp =
      match ASCIIParserParse ASCIIPListParserContextInit (lexerInit fp.bytes fsize) with
      | none => none
      | some (true, context) => some (ASCIIPListParserCopyRoot context, [])
      | some (false, context) => some (none, [⟨0, 0, context.error⟩]) := by
  obtain ⟨h1, h2, h3, h4, h5⟩ := h
  simp [ASCIIParser.parse, h1, h2, h3, h4, h5]

theorem parse_root_inv (lexerInit : List Nat → Nat → ASCIIPListLexer) (fp : FileStream)
    (obj : Object) (reports : List ErrorReport)
    (h : ASCIIParser.parse lexerInit fp = some (some obj, reports)) :
    ∃ fsize c, driverRuns fp fsize ∧
      ASCIIParserParse ASCIIPListParserContextInit (lexerInit fp.bytes fsize) = some (true, c) ∧
      ASCIIPListParserCopyRoot c = some obj ∧ reports = [] := by
  unfold ASCIIParser.parse at h
  split at h
  · simp at h
  · rename_i h1
    split at h
    · simp at h
    · rename_i fsize h2
      split at h
      · simp at h
      · rename_i h3
        split at h
        · simp at h
        · rename_i h4
          split at h
          · simp at h
          · rename_i h5
            split at h
            · simp at h
            · rename_i c hc
              simp only [Option.some.injEq, Prod.mk.injEq] at h
              refine ⟨fsize, c, ⟨?_, h2, ?_, ?_, ?_⟩, hc, h.1, h.2.symm⟩
              · simpa using h1
              · simpa using h3
              · simpa using h4
              · simpa using h5
            · simp at h

/-! ## The stored object and the decoding the specification states -/

theorem hex_to_bin_digit_of_hexDigitValue (c : Char) (a : Nat) (h : hexDigitValue c = some a) :
    hex_to_bin_digit c = a ∧ a < 16 := by
  have ha : 'a'.toNat = 97 := rfl
  have hf : 'f'.toNat = 102 := rfl
  have hA : 'A'.toNat = 65 := rfl
  have hF : 'F'.toNat = 70 := rfl
  have h0 : '0'.toNat = 48 := rfl
  have h9 : '9'.toNat = 57 := rfl
  unfold hexDigitValue at h
  unfold hex_to_bin_digit
  rw [ha, hf, hA, hF, h0, h9]
  split_ifs at h ⊢ <;> simp only [Option.some.injEq, reduceCtorEq] at h <;> omega

theorem bytesOfHexPairs_hex_to_bin (B : List Nat) :
    ∀ cs : List Char, bytesOfHexPairs cs = some B →
      cs.length = 2 * B.length ∧ ∀ k, k < B.length → hex_to_bin cs (2 * k) = B.getD k 0 := by
  induction B with
  | nil =>
    intro cs h
    match cs, h with
    | [], _ => simp
    | [_], h => simp [bytesOfHexPairs] at h
    | c :: l :: rest, h =>
      simp only [bytesOfHexPairs] at h
      split at h <;> simp at h
  | cons b bs ih =>
    intro cs h
    match cs, h with
    | [], h => simp [bytesOfHexPairs] at h
    | [_], h => simp [bytesOfHexPairs] at h
    | c :: l :: rest, h =>
      simp only [bytesOfHexPairs] at h
      split at h
      · rename_i x y z hx hy hz
        simp only [Option.some.injEq, List.cons.injEq] at h
        obtain ⟨hb, hbs⟩ := h
        subst hbs
        obtain ⟨h1, h2⟩ := ih rest hz
        obtain ⟨hc, hc16⟩ := hex_to_bin_digit_of_hexDigitValue c _ hx
        obtain ⟨hl, hl16⟩ := hex_to_bin_digit_of_hexDigitValue l _ hy
        refine ⟨by simp [h1]; omega, ?_⟩
        intro k hk
        cases k with
        | zero =>
          simp only [hex_to_bin, cstrAt, Nat.mul_zero, List.getD_cons_zero, Nat.zero_add,
            List.getD_cons_succ, hc, hl]
          subst hb
          have := pack_nibbles (16 * x + y) (by omega)
          have e1 : (16 * x + y) / 16 = x := by omega
          have e2 : (16 * x + y) % 16 = y := by omega
          rw [e1, e2] at this
          exact this
        | succ k =>
          have hk1 : k < z.length := by simpa using hk
          have := h2 k hk1
          simp only [hex_to_bin, cstrAt, List.getD_cons_succ] at this ⊢
          have e1 : 2 * (k + 1) = 2 * k + 1 + 1 := by omega
          rw [e1]
          simpa using this
      · simp at h

theorem decodeData_of_bytesOfHexPairs (contents : String) (B : List Nat)
    (h : bytesOfHexPairs contents.toList = some B) : decodeData contents = some B := by
  obtain ⟨hlen, hk⟩ := bytesOfHexPairs_hex_to_bin B _ h
  unfold decodeData
  simp only [hlen]
  rw [dataLoopIndices_even, Nat.mul_div_cancel_left _ (by decide : 0 < 2),
    dataLoop_fold _ _ _ (by simp)]
  simp only [List.drop_replicate, Nat.sub_self, List.replicate_zero, List.append_nil]
  congr 1
  apply List.ext_getElem
  · simp
  · intro k h1 h2
    simp only [List.getElem_map, List.getElem_range]
    rw [hk k h2]
    simp [List.getD_eq_getElem?_getD, h2]

theorem isdigit_iff (c : Char) : isdigit c = true ↔ 48 ≤ c.toNat ∧ c.toNat ≤ 57 := by
  simp [isdigit]

theorem numeralStep_none (base : Nat) (s : List Char) :
    s.foldl (numeralStep base) none = none := by
  induction s with
  | nil => rfl
  | cons c cs ih => simpa [numeralStep] using ih

theorem numeral_fold_digits (s : List Char) :
    ∀ (acc n : Nat), s.foldl (numeralStep 10) (some acc) = some n →
      (∀ c ∈ s, isdigit c = true) ∧ digitsValue s acc = n := by
  induction s with
  | nil => intro acc n h; simpa [digitsValue] using h
  | cons c cs ih =>
    intro acc n h
    simp only [List.foldl_cons] at h
    cases hv : hexDigitValue c with
    | none => simp [numeralStep, hv, numeralStep_none] at h
    | some d =>
      by_cases hd : d < 10
      · have hstep : numeralStep 10 (some acc) c = some (acc * 10 + d) := by
          simp [numeralStep, hv, hd]
        rw [hstep] at h
        obtain ⟨h1, h2⟩ := ih _ _ h
        have hc : isdigit c = true ∧ d = c.toNat - 48 := by
          rw [isdigit_iff]
          unfold hexDigitValue at hv
          split_ifs at hv <;> simp only [Option.some.injEq, reduceCtorEq] at hv <;> omega
        refine ⟨?_, ?_⟩
        · intro x hx
          rcases List.mem_cons.1 hx with rfl | hx
          · exact hc.1
          · exact h1 x hx
        · simp only [digitsValue, hc.1, if_true]
          rw [← hc.2]; exact h2
      · have hstep : numeralStep 10 (some acc) c = none := by
          simp [numeralStep, hv, hd]
        rw [hstep, numeralStep_none] at h
        simp at h

theorem numeralValue_digits (s : List Char) (n : Nat) (h : numeralValue 10 s = some n) :
    s ≠ [] ∧ (∀ c ∈ s, isdigit c = true) ∧ digitsValue s 0 = n := by
  unfold numeralValue at h
  split_ifs at h with hs
  exact ⟨hs, numeral_fold_digits s 0 n h⟩

theorem digitsValue_append (a b : List Char) (ha : ∀ c ∈ a, isdigit c = true) :
    ∀ acc, digitsValue (a ++ b) acc = digitsValue b (digitsValue a acc) := by
  induction a with
  | nil => intro acc; rfl
  | cons c cs ih =>
    intro acc
    have hc : isdigit c = true := ha c (by simp)
    simp only [List.cons_append, digitsValue, hc, if_true]
    exact ih (fun x hx => ha x (by simp [hx])) _

theorem digitsValue_acc (b : List Char) (hb : ∀ c ∈ b, isdigit c = true) :
    ∀ acc, digitsValue b acc = acc * 10 ^ b.length + digitsValue b 0 := by
  induction b with
  | nil => intro acc; simp [digitsValue]
  | cons c cs ih =>
    intro acc
    have hc : isdigit c = true := hb c (by simp)
    have hcs : ∀ x ∈ cs, isdigit x = true := fun x hx => hb x (by simp [hx])
    simp only [digitsValue, hc, if_true, List.length_cons]
    rw [ih hcs (acc * 10 + (c.toNat - 48)), ih hcs (0 * 10 + (c.toNat - 48))]
    ring

theorem digitsValue_takeWhile (s : List Char) :
    ∀ acc, digitsValue (s.takeWhile isdigit) acc = digitsValue s acc := by
  induction s with
  | nil => intro acc; rfl
  | cons c cs ih =>
    intro acc
    by_cases hc : isdigit c = true
    · simp only [List.takeWhile_cons, hc, if_true, digitsValue]
      exact ih _
    · simp [List.takeWhile_cons, hc, digitsValue]

theorem takeWhile_of_all (s : List Char) (h : ∀ c ∈ s, isdigit c = true) :
    s.takeWhile isdigit = s ∧ s.dropWhile isdigit = [] := by
  induction s with
  | nil => simp
  | cons c cs ih =>
    have hc : isdigit c = true := h c (by simp)
    have := ih (fun x hx => h x (by simp [hx]))
    simp [List.takeWhile_cons, List.dropWhile_cons, hc, this]

theorem readExponent_exponentPart (r : List Char) (e : Option Int)
    (h : readExponent r = some e) : exponentPart 'e' 'E' r = e.getD 0 := by
  cases r with
  | nil =>
    simp only [readExponent, Option.some.injEq] at h
    subst h; rfl
  | cons c cs =>
    by_cases hc : c = 'e' ∨ c = 'E'
    · simp only [readExponent, hc, if_true] at h
      cases hn : numeralValue 10 (takeSign cs).2 with
      | none => simp [hn] at h
      | some n =>
        simp only [hn, Option.some.injEq] at h
        subst h
        obtain ⟨hne, hall, hval⟩ := numeralValue_digits _ _ hn
        have htw := (takeWhile_of_all _ hall).1
        simp only [exponentPart, hc, if_true, htw, hne, if_false, hval, Option.getD_some]
    · simp [readExponent, hc] at h

theorem exponent_letter_mem (r : List Char) (e : Int)
    (h : readExponent r = some (some e)) : 'e' ∈ r ∨ 'E' ∈ r := by
  cases r with
  | nil => simp [readExponent] at h
  | cons c cs =>
    by_cases hc : c = 'e' ∨ c = 'E'
    · rcases hc with rfl | rfl <;> simp
    · simp [readExponent, hc] at h

theorem readUnsigned_hex (negative : Bool) (c1 : Char) (rest : List Char)
    (h : c1 = 'x' ∨ c1 = 'X') : readUnsigned negative ('0' :: c1 :: rest) = none := by
  have h0 : isdigit '0' = true := by decide
  have hx : isdigit 'x' = false := by decide
  have hX : isdigit 'X' = false := by decide
  have hn : numeralValue 10 ['0'] = some 0 := by decide
  rcases h with rfl | rfl
  · simp only [readUnsigned, List.takeWhile_cons, List.dropWhile_cons, h0, hx, if_true]
    simp [hn, readExponent]
  · simp only [readUnsigned, List.takeWhile_cons, List.dropWhile_cons, h0, hX, if_true]
    simp [hn, readExponent]

theorem readUnsigned_spec (negative : Bool) (r : List Char) (lit : NumberLiteral)
    (h : readUnsigned negative r = some lit) :
    lit.negative = negative ∧
    (∃ d rest, r = d :: rest ∧ isdigit d = true) ∧
    digitsValue r 0 = lit.whole ∧
    decimalConstant negative r =
      Double.ofDecimal negative
        (lit.whole * 10 ^ (lit.fraction.getD (0, 0)).2 + (lit.fraction.getD (0, 0)).1)
        (lit.exponent.getD 0 - ((lit.fraction.getD (0, 0)).2 : Int)) ∧
    (lit.fraction.isSome = true → '.' ∈ r) ∧
    (lit.exponent.isSome = true → 'e' ∈ r ∨ 'E' ∈ r) ∧
    (lit.fraction = none → lit.exponent = none → ∀ c ∈ r, isdigit c = true) := by
  have hsplit : r.takeWhile isdigit ++ r.dropWhile isdigit = r := List.takeWhile_append_dropWhile _ _
  unfold readUnsigned at h
  cases hw : numeralValue 10 (r.takeWhile isdigit) with
  | none => simp [hw] at h
  | some w =>
    obtain ⟨hne, hall, hval⟩ := numeralValue_digits _ _ hw
    have hhead : ∃ d rest, r = d :: rest ∧ isdigit d = true := by
      cases r with
      | nil => simp at hne
      | cons d rest =>
        by_cases hd : isdigit d = true
        · exact ⟨d, rest, rfl, hd⟩
        · simp [List.takeWhile_cons, hd] at hne
    have hwhole : digitsValue r 0 = w := by rw [← digitsValue_takeWhile]; exact hval
    cases hdrop : r.dropWhile isdigit with
    | nil =>
      simp only [hw, hdrop, Option.some.injEq] at h
      subst h
      rw [hdrop, List.append_nil] at hsplit
      refine ⟨rfl, hhead, hwhole, ?_, by simp, by simp, ?_⟩
      · simp only [decimalConstant, hdrop, fractionPart, hne, false_and, if_false,
          List.append_nil, hval, exponentPart, Option.getD_none, List.length_nil]
        simp
      · intro _ _; rw [← hsplit]; exact hall
    | cons c cs =>
      simp only [hw, hdrop] at h
      by_cases hc : c = '.'
      · simp only [hc, if_true] at h
        cases hf : numeralValue 10 (cs.takeWhile isdigit) with
        | none => simp [hf] at h
        | some f =>
          cases he : readExponent (cs.dropWhile isdigit) with
          | none => simp [hf, he] at h
          | some e =>
            simp only [hf, he, Option.some.injEq] at h
            subst h
            obtain ⟨hfne, hfall, hfval⟩ := numeralValue_digits _ _ hf
            have hexp := readExponent_exponentPart _ _ he
            refine ⟨rfl, hhead, hwhole, ?_, ?_, ?_, by simp⟩
            · simp only [decimalConstant, hdrop, fractionPart, hc, if_true, hne, false_and,
                if_false, hexp, Option.getD_some]
              rw [digitsValue_append _ _ hall, digitsValue_acc _ hfall, hval, hfval]
            · intro _; rw [← hsplit, hdrop, hc]; simp
            · intro hsome
              cases e with
              | none => simp at hsome
              | some ev =>
                have := exponent_letter_mem _ _ he
                have hsub : ∀ x, x ∈ cs.dropWhile isdigit → x ∈ r := by
                  intro x hx
                  rw [← hsplit, hdrop]
                  have : x ∈ cs := by
                    rw [← List.takeWhile_append_dropWhile isdigit cs]
                    exact List.mem_append_right _ hx
                  simp [this]
                rcases this with h1 | h1
                · exact Or.inl (hsub _ h1)
                · exact Or.inr (hsub _ h1)
      · simp only [hc, if_false] at h
        cases he : readExponent (c :: cs) with
        | none => simp [he] at h
        | some e =>
          simp only [he, Option.some.injEq] at h
          subst h
          have hexp := readExponent_exponentPart _ _ he
          have he2 : ∃ ev, e = some ev := by
            cases e with
            | none =>
              by_cases hce : c = 'e' ∨ c = 'E'
              · simp only [readExponent, hce, if_true] at he
                cases hn : numeralValue 10 (takeSign cs).2 <;> simp [hn] at he
              · simp [readExponent, hce] at he
            | some ev => exact ⟨ev, rfl⟩
          obtain ⟨ev, rfl⟩ := he2
          refine ⟨rfl, hhead, hwhole, ?_, by simp, ?_, by simp⟩
          · simp only [decimalConstant, hdrop, fractionPart, hc, if_false, hne, false_and,
              List.append_nil, hval, hexp, Option.getD_some, Option.getD_none, List.length_nil]
            simp
          · intro _
            have := exponent_letter_mem _ _ he
            rcases this with h1 | h1
            · left; rw [← hsplit, hdrop]; exact List.mem_append_right _ h1
            · right; rw [← hsplit, hdrop]; exact List.mem_append_right _ h1

theorem tolower_digit (d : Char) (hd : isdigit d = true) : tolower d = d := by
  rw [isdigit_iff] at hd
  unfold tolower
  rw [if_neg (by omega)]

theorem digit_ne (d c : Char) (hd : isdigit d = true) (hc : isdigit c = false) : d ≠ c := by
  rintro rfl
  rw [hd] at hc
  cases hc

theorem literal_no_space (s : List Char) (d : Char) (rest : List Char)
    (h : (takeSign s).2 = d :: rest) (hd : isdigit d = true) : s.dropWhile isspace = s := by
  cases s with
  | nil => rfl
  | cons c cs =>
    have hc : isspace c = false := by
      by_cases h1 : c = '-'
      · subst h1; decide
      · by_cases h2 : c = '+'
        · subst h2; decide
        · simp only [takeSign, h1, h2, if_false, List.cons.injEq] at h
          obtain ⟨rfl, _⟩ := h
          rw [isdigit_iff] at hd
          simp only [isspace, Bool.or_eq_false_iff, decide_eq_false_iff_not, Bool.and_eq_false_iff]
          omega
    simp [List.dropWhile_cons, hc]

theorem takeSign_mem (s : List Char) (c : Char) (h : c ∈ (takeSign s).2) : c ∈ s := by
  cases s with
  | nil => simp [takeSign] at h
  | cons c0 cs =>
    by_cases h1 : c0 = '-'
    · simp only [takeSign, h1, if_true] at h
      exact List.mem_cons_of_mem _ h
    · by_cases h2 : c0 = '+'
      · simp only [takeSign, h1, h2, if_true, if_false] at h
        exact List.mem_cons_of_mem _ h
      · simpa only [takeSign, h1, h2, if_false] using h

theorem mem_takeSign (s : List Char) (c : Char) (h : c ∈ s) (h1 : c ≠ '-') (h2 : c ≠ '+') :
    c ∈ (takeSign s).2 := by
  cases s with
  | nil => simp at h
  | cons c0 cs =>
    by_cases e1 : c0 = '-'
    · subst e1
      simp only [takeSign, if_true]
      rcases List.mem_cons.1 h with h | h
      · exact absurd h h1
      · exact h
    · by_cases e2 : c0 = '+'
      · subst e2
        simp only [takeSign, e1, if_true, if_false]
        rcases List.mem_cons.1 h with h | h
        · exact absurd h h2
        · exact h
      · simpa only [takeSign, e1, e2, if_false] using h

theorem decimalValue_of_literal (s : List Char) (lit : NumberLiteral)
    (h : readNumberLiteral s = some lit) :
    decimalValue s = if lit.negative then -(lit.whole : Int) else (lit.whole : Int) := by
  obtain ⟨hneg, ⟨d, rest, hr, hd⟩, hwhole, -⟩ := readUnsigned_spec _ _ _ h
  simp only [decimalValue, literal_no_space s d rest hr hd, hwhole, hneg]

theorem strtod_of_literal (s : List Char) (lit : NumberLiteral)
    (h : readNumberLiteral s = some lit) :
    strtod s =
      Double.ofDecimal lit.negative
        (lit.whole * 10 ^ (lit.fraction.getD (0, 0)).2 + (lit.fraction.getD (0, 0)).1)
        (lit.exponent.getD 0 - ((lit.fraction.getD (0, 0)).2 : Int)) := by
  obtain ⟨hneg, ⟨d, rest, hr, hd⟩, -, hdec, -⟩ := readUnsigned_spec _ _ _ h
  have hi : (tolower d = 'i') = False := by
    rw [tolower_digit d hd]; exact eq_false (digit_ne d 'i' hd (by decide))
  have hn : (tolower d = 'n') = False := by
    rw [tolower_digit d hd]; exact eq_false (digit_ne d 'n' hd (by decide))
  rw [hneg, ← hdec]
  unfold strtod
  simp only [literal_no_space s d rest hr hd]
  rw [hr]
  simp only [startsWithWord, hi, hn, decide_False, Bool.false_and, Bool.false_eq_true, if_false]
  cases rest with
  | nil => rfl
  | cons c1 rest1 =>
    simp only
    by_cases hx : d = '0' ∧ (c1 = 'x' ∨ c1 = 'X')
    · exfalso
      unfold readNumberLiteral at h
      rw [hr, hx.1, readUnsigned_hex _ c1 rest1 hx.2] at h
      cases h
    · rw [if_neg hx]

theorem strchr_iff (contents : String) (ch : Char) :
    strchr contents ch = true ↔ ch ∈ contents.toList := by
  simp [strchr]

theorem number_literalObject_of_specDecoding (contents : String) (o : Object)
    (h : specDecoding (tNumber contents) = some o)
    (he : exponentWithoutPoint (tNumber contents) = false) :
    literalObject (tNumber contents) = o := by
  simp only [specDecoding, tNumber, Option.bind_eq_some] at h
  obtain ⟨lit, hlit, hdec⟩ := h
  obtain ⟨hneg, -, -, -, hfrac, hexp, hall⟩ := readUnsigned_spec _ _ _ hlit
  by_cases hdot : strchr contents '.' = true
  · have hreal : ¬ (lit.fraction = none ∧ lit.exponent = none) := by
      rintro ⟨h1, h2⟩
      have hmem := mem_takeSign _ _ ((strchr_iff _ _).1 hdot) (by decide) (by decide)
      have := hall h1 h2 _ hmem
      revert this
      decide
    have hobj : o = Object.real (Double.ofDecimal lit.negative
        (lit.whole * 10 ^ (lit.fraction.getD (0, 0)).2 + (lit.fraction.getD (0, 0)).1)
        (lit.exponent.getD 0 - ((lit.fraction.getD (0, 0)).2 : Int))) := by
      unfold NumberLiteral.decoding at hdec
      split at hdec
      · rename_i h1 h2
        exact absurd ⟨h1, h2⟩ hreal
      · simpa using hdec.symm
    rw [hobj]
    simp only [literalObject, tNumber, hdot, if_true, atof, strtod_of_literal _ _ hlit]
  · have hdotf : strchr contents '.' = false := by simpa using hdot
    have hno : strchr contents 'e' = false ∧ strchr contents 'E' = false := by
      simpa [exponentWithoutPoint, tNumber, hdotf] using he
    have h1 : lit.fraction = none := by
      cases hf : lit.fraction with
      | none => rfl
      | some f =>
        have := takeSign_mem _ _ (hfrac (by simp [hf]))
        exact absurd ((strchr_iff _ _).2 this) hdot
    have h2 : lit.exponent = none := by
      cases hx : lit.exponent with
      | none => rfl
      | some e =>
        rcases hexp (by simp [hx]) with hm | hm
        · have := (strchr_iff _ _).2 (takeSign_mem _ _ hm)
          rw [hno.1] at this; cases this
        · have := (strchr_iff _ _).2 (takeSign_mem _ _ hm)
          rw [hno.2] at this; cases this
    have hval := decimalValue_of_literal _ _ hlit
    simp only [NumberLiteral.decoding, h1, h2] at hdec
    cases hb : lit.negative <;>
      simp only [hb, if_true, if_false, Bool.false_eq_true] at hdec hval
    all_goals
      split_ifs at hdec with hrange
      simp only [Option.some.injEq] at hdec
      subst hdec
      simp only [literalObject, tNumber, hdotf, Bool.false_eq_true, if_false, atol, hval,
        LONG_MAX, LONG_MIN]
      rw [if_neg (by omega), if_neg (by omega)]

theorem literalObject_of_specDecoding (t : Token) (o : Object)
    (h : specDecoding t = some o) (hx : t.kind ≠ kASCIIPListLexerTokenHexNumber)
    (he : exponentWithoutPoint t = false) : literalObject t = o := by
  obtain ⟨kind, contents⟩ := t
  simp only at hx
  cases kind <;> simp only [specDecoding, reduceCtorEq, Option.some.injEq] at h
  · subst h; rfl
  · subst h; rfl
  · simp only [Option.map_eq_some'] at h
    obtain ⟨B, hB, rfl⟩ := h
    simp [literalObject, decodeData_of_bytesOfHexPairs contents B hB]
  · exact number_literalObject_of_specDecoding contents o h he
  · exact absurd rfl hx
  · subst h; rfl
  · subst h; rfl

theorem literalObject_number_no_point (t : Token) (hk : t.kind = kASCIIPListLexerTokenNumber)
    (hdot : strchr t.contents '.' = false) :
    literalObject t = Object.integer (atol t.contents) := by
  simp [literalObject, hk, hdot]

theorem atof_samples :
    atof "2.5" = Double.finite false 5629499534213120 (-51) ∧ atof "2.50" = atof "2.5" ∧
    atof "-0.1" = Double.finite true 7205759403792794 (-56) ∧
    atof "1e5" = Double.finite false 6871947673600000 (-36) ∧
    atof "1e23" = Double.finite false 5960464477539062 24 ∧
    atof "1e-7" = Double.finite false 7555786372591432 (-76) ∧
    atof "9007199254740993" = Double.finite false 4503599627370496 1 ∧
    atof "0x1.8p1" = Double.finite false 6755399441055744 (-51) ∧
    atof "x" = Double.finite false 0 (-1074) := by
  decide

/-! ## Properties of the driver -/

/-- C1: every token stream that derives from the grammar `plist := value`,
`value := scalar | array | dict`, at any nesting depth, makes the driver return
success with the done flag set, whether EndOfFile is the exhausted lexer or an
explicit EndOfFile token. -/
theorem grammar_accepted (ts : List Token) (h : IsValue ts) :
    ∃ context, ASCIIPListParserIsDone context = true ∧
      ASCIIParserParse ASCIIPListParserContextInit ts = some (true, context) ∧
      ASCIIParserParse ASCIIPListParserContextInit (ts ++ [tk kASCIIPListLexerEndOfFile]) =
        some (true, context) := by
  obtain ⟨obj, hobj⟩ := isValue_parses ts h
  exact ⟨finishedContext obj, rfl, parses_top_level ts obj hobj, parses_top_level_eof ts obj hobj⟩

/-- Witness of C1 on the stream of `{ a = ( 1, { }, ); }`. -/
theorem grammar_accepted_witness :
    IsValue (dictTokens [(tUnquoted "a", arrayTokens [[tNumber "1"], dictTokens []] true)]) ∧
    ∃ context, ASCIIPListParserIsDone context = true ∧
      ASCIIParserParse ASCIIPListParserContextInit
        (dictTokens [(tUnquoted "a", arrayTokens [[tNumber "1"], dictTokens []] true)]) =
          some (true, context) ∧
      ASCIIParserParse ASCIIPListParserContextInit
        (dictTokens [(tUnquoted "a", arrayTokens [[tNumber "1"], dictTokens []] true)] ++
          [tk kASCIIPListLexerEndOfFile]) = some (true, context) :=
  have hd : IsValue (dictTokens []) :=
    IsValue.dict [] (fun _ he => absurd he (List.not_mem_nil _))
      (fun _ he => absurd he (List.not_mem_nil _))
  have ha : IsValue (arrayTokens [[tNumber "1"], dictTokens []] true) :=
    IsValue.array _ true (fun v hv => by
      simp only [List.mem_cons, List.mem_singleton, List.not_mem_nil, or_false] at hv
      rcases hv with hv | hv
      · subst hv; exact IsValue.scalar (tNumber "1") (by decide)
      · subst hv; exact hd)
  have hv : IsValue (dictTokens [(tUnquoted "a", arrayTokens [[tNumber "1"], dictTokens []] true)]) :=
    IsValue.dict _ (fun e he => by
        simp only [List.mem_singleton] at he
        subst he; decide)
      (fun e he => by
        simp only [List.mem_singleton] at he
        subst he; exact ha)
  ⟨hv, grammar_accepted _ hv⟩

/-- C2 fails as stated: in `{ a = 1e5; b = 9223372036854775808; }` the keys
are distinct strings and the values scalar Number tokens; parsing succeeds, but
`a` maps to Integer(1) where the typed decoding of `1e5` is the Real 100000, and
`b` maps to Integer(2^63 - 1), which is not the value of its literal: the
literal is out of range and has no typed decoding. -/
theorem flat_dictionary_numbers_not_typed_decoding :
    (∀ e ∈ [(tUnquoted "a", tNumber "1e5"), (tUnquoted "b", tNumber "9223372036854775808")],
      isStringToken e.1 = true ∧ isScalarToken e.2 = true) ∧
    ["a", "b"].Nodup ∧
    ASCIIParserParse ASCIIPListParserContextInit
      [tDictStart, tUnquoted "a", tEq, tNumber "1e5", tSemi,
        tUnquoted "b", tEq, tNumber "9223372036854775808", tSemi, tDictEnd] =
      some (true, finishedContext (Object.dictionary
        [("a", Object.integer 1), ("b", Object.integer 9223372036854775807)])) ∧
    specDecoding (tNumber "1e5") =
      some (Object.real (Double.finite false 6871947673600000 (-36))) ∧
    Double.toRat (Double.finite false 6871947673600000 (-36)) = 100000 ∧
    Dictionary.get [("a", Object.integer 1), ("b", Object.integer 9223372036854775807)] "a" ≠
      specDecoding (tNumber "1e5") ∧
    specDecoding (tNumber "9223372036854775808") = none := by
  refine ⟨by decide, by decide, rfl, rfl, ?_, ?_, rfl⟩
  · simp only [Double.toRat]
    norm_num
  · have h : specDecoding (tNumber "1e5") =
        some (Object.real (Double.finite false 6871947673600000 (-36))) := rfl
    rw [h]
    simp [Dictionary.get]

/-- C2, as the code has it: a flat dictionary source with pairwise distinct string keys
and scalar values other than HexNumber tokens parses successfully to a
Dictionary whose keys, iterated, are the keys in source order; each key maps to
the typed decoding of its value token wherever the specification gives one,
except for a Number literal with an exponent and no `.`; a Number token without
`.` maps in every case to the Integer that `atol` reads from the literal. -/
theorem flat_dictionary_values_as_specified (es : List (Token × Token))
    (hk : ∀ e ∈ es, isStringToken e.1 = true)
    (hv : ∀ e ∈ es, isScalarToken e.2 = true ∧ e.2.kind ≠ kASCIIPListLexerTokenHexNumber)
    (hdistinct : (es.map (fun e => e.1.contents)).Nodup) :
    ∃ entries : List (String × Object),
      ASCIIParserParse ASCIIPListParserContextInit (dictTokens (es.map (fun e => (e.1, [e.2])))) =
        some (true, finishedContext (Object.dictionary entries)) ∧
      Dictionary.keys entries = es.map (fun e => e.1.contents) ∧
      ∀ e ∈ es, ∃ obj, Dictionary.get entries e.1.contents = some obj ∧
        (exponentWithoutPoint e.2 = false → ∀ o, specDecoding e.2 = some o → obj = o) ∧
        (e.2.kind = kASCIIPListLexerTokenNumber → strchr e.2.contents '.' = false →
          obj = Object.integer (atol e.2.contents)) := by
  have hfst : (es.map (fun e => (e.1.contents, literalObject e.2))).map Prod.fst =
      es.map (fun e => e.1.contents) := by
    simp [List.map_map, Function.comp_def]
  refine ⟨es.map (fun e : Token × Token => (e.1.contents, literalObject e.2)), ?_, hfst, ?_⟩
  · rw [flat_dictionary_parses es hk (fun e he => (hv e he).1),
      storeEntries_of_nodup _ _ (by rw [hfst]; exact hdistinct) (by intro kv _; simp)]
    rfl
  · intro e he
    refine ⟨literalObject e.2, ?_, ?_, ?_⟩
    · apply Dictionary.get_of_mem _ (by rw [hfst]; exact hdistinct)
      exact List.mem_map_of_mem (fun e => (e.1.contents, literalObject e.2)) he
    · intro hexp o ho
      exact literalObject_of_specDecoding e.2 o ho (hv e he).2 hexp
    · exact literalObject_number_no_point e.2

/-- Witness of C2 as amended, on `{ name = "Alice"; age = 30; }`: `name` maps to
String("Alice") and `age` to Integer(30), the typed decodings of the two value
tokens. -/
theorem flat_dictionary_values_as_specified_witness :
    (∀ e ∈ [(tUnquoted "name", tQuoted "Alice"), (tUnquoted "age", tNumber "30")],
      isStringToken e.1 = true) ∧
    (∀ e ∈ [(tUnquoted "name", tQuoted "Alice"), (tUnquoted "age", tNumber "30")],
      isScalarToken e.2 = true ∧ e.2.kind ≠ kASCIIPListLexerTokenHexNumber) ∧
    ["name", "age"].Nodup ∧
    specDecoding (tQuoted "Alice") = some (Object.string "Alice") ∧
    specDecoding (tNumber "30") = some (Object.integer 30) ∧
    ∃ entries : List (String × Object),
      ASCIIParserParse ASCIIPListParserContextInit
        [tDictStart, tUnquoted "name", tEq, tQuoted "Alice", tSemi,
          tUnquoted "age", tEq, tNumber "30", tSemi, tDictEnd] =
        some (true, finishedContext (Object.dictionary entries)) ∧
      Dictionary.keys entries = ["name", "age"] ∧
      Dictionary.get entries "name" = some (Object.string "Alice") ∧
      Dictionary.get entries "age" = some (Object.integer 30) := by
  obtain ⟨entries, hp, hkeys, hvals⟩ := flat_dictionary_values_as_specified
    [(tUnquoted "name", tQuoted "Alice"), (tUnquoted "age", tNumber "30")]
    (by decide) (by decide) (by decide)
  refine ⟨by decide, by decide, by decide, rfl, rfl, entries, hp, hkeys, ?_, ?_⟩
  · obtain ⟨obj, hget, hspec, -⟩ := hvals (tUnquoted "name", tQuoted "Alice") (by simp)
    rw [← hspec rfl (Object.string "Alice") rfl]
    exact hget
  · obtain ⟨obj, hget, hspec, -⟩ := hvals (tUnquoted "age", tNumber "30") (by simp)
    rw [← hspec rfl (Object.integer 30) rfl]
    exact hget

/-- C3 fails as stated: `( 1e5, 9223372036854775808 )` is a list of scalar
literal tokens; parsing succeeds, but the first element is Integer(1) where
the typed decoding of `1e5` is the Real 100000, and the second is
Integer(2^63 - 1), which is not the value of its literal: the literal is out of
range and has no typed decoding. -/
theorem array_numbers_not_typed_decoding :
    (∀ t ∈ [tNumber "1e5", tNumber "9223372036854775808"], isScalarToken t = true) ∧
    ASCIIParserParse ASCIIPListParserContextInit
      [tArrayStart, tNumber "1e5", tComma, tNumber "9223372036854775808", tArrayEnd] =
      some (true, finishedContext (Object.array
        [Object.integer 1, Object.integer 9223372036854775807])) ∧
    specDecoding (tNumber "1e5") =
      some (Object.real (Double.finite false 6871947673600000 (-36))) ∧
    Double.toRat (Double.finite false 6871947673600000 (-36)) = 100000 ∧
    [Object.integer 1, Object.integer 9223372036854775807][0]? ≠
      specDecoding (tNumber "1e5") ∧
    specDecoding (tNumber "9223372036854775808") = none := by
  refine ⟨by decide, rfl, rfl, ?_, ?_, rfl⟩
  · simp only [Double.toRat]
    norm_num
  · have h : specDecoding (tNumber "1e5") =
        some (Object.real (Double.finite false 6871947673600000 (-36))) := rfl
    rw [h]
    simp

/-- C3, as the code has it: a parenthesised list of scalar literal tokens other than
HexNumber tokens, separated by commas, parses successfully to an Array of the
same length, in source order and with duplicates kept; each element is the typed
decoding of its token wherever the specification gives one, except for a Number
literal with an exponent and no `.`; for a Number token without `.` it is in
every case the Integer that `atol` reads from the literal. -/
theorem array_elements_as_specified (ts : List Token)
    (h : ∀ t ∈ ts, isScalarToken t = true ∧ t.kind ≠ kASCIIPListLexerTokenHexNumber) :
    ∃ objs : List Object,
      ASCIIParserParse ASCIIPListParserContextInit
        (tArrayStart :: (commaSeparated (ts.map (fun t => [t])) ++ [tArrayEnd])) =
        some (true, finishedContext (Object.array objs)) ∧
      objs.length = ts.length ∧
      List.Forall₂ (fun t obj =>
        (exponentWithoutPoint t = false → ∀ o, specDecoding t = some o → obj = o) ∧
        (t.kind = kASCIIPListLexerTokenNumber → strchr t.contents '.' = false →
          obj = Object.integer (atol t.contents))) ts objs := by
  refine ⟨ts.map literalObject, ?_, by simp, ?_⟩
  · have hp := array_parses _ _ (scalars_parse ts (fun t ht => (h t ht).1)) false
    rw [arrayTokens, arrayBody_false] at hp
    exact parses_top_level _ _ hp
  · rw [List.forall₂_map_right_iff, List.forall₂_same]
    intro t ht
    exact ⟨fun hexp o ho => literalObject_of_specDecoding t o ho (h t ht).2 hexp,
      literalObject_number_no_point t⟩

/-- Witness of C3 as amended, on `( 1, 2.5, YES, "x" )`: the Array is Integer(1), the Real
nearest to 2.5 (which is 2.5 itself), Boolean(true) and String("x"). -/
theorem array_elements_as_specified_witness :
    (∀ t ∈ [tNumber "1", tNumber "2.5", tk kASCIIPListLexerTokenBoolTrue, tQuoted "x"],
      isScalarToken t = true ∧ t.kind ≠ kASCIIPListLexerTokenHexNumber) ∧
    specDecoding (tNumber "2.5") =
      some (Object.real (Double.finite false 5629499534213120 (-51))) ∧
    Double.toRat (Double.finite false 5629499534213120 (-51)) = 5 / 2 ∧
    ∃ objs : List Object,
      ASCIIParserParse ASCIIPListParserContextInit
        [tArrayStart, tNumber "1", tComma, tNumber "2.5", tComma,
          tk kASCIIPListLexerTokenBoolTrue, tComma, tQuoted "x", tArrayEnd] =
        some (true, finishedContext (Object.array objs)) ∧
      objs = [Object.integer 1, Object.real (Double.finite false 5629499534213120 (-51)),
        Object.boolean true, Object.string "x"] := by
  obtain ⟨objs, hp, -, hf⟩ := array_elements_as_specified
    [tNumber "1", tNumber "2.5", tk kASCIIPListLexerTokenBoolTrue, tQuoted "x"] (by decide)
  have hreal : specDecoding (tNumber "2.5") =
      some (Object.real (Double.finite false 5629499534213120 (-51))) := rfl
  refine ⟨by decide, hreal, ?_, objs, hp, ?_⟩
  · simp only [Double.toRat]
    norm_num
  · match objs, hf with
    | [o1, o2, o3, o4], .cons h1 (.cons h2 (.cons h3 (.cons h4 .nil))) =>
      rw [h1.1 rfl (Object.integer 1) rfl, h2.1 rfl _ hreal,
        h3.1 rfl (Object.boolean true) rfl, h4.1 rfl (Object.string "x") rfl]

/-- C4: for every byte sequence `B`, when the Data literal helper returns the
packed hex digits of `B`, in lower or upper case, the decoding loop yields
exactly `B`, this Data is what the driver hands to the store, and as a
top-level value it becomes the root. -/
theorem data_literal_decodes_hex (upper : Nat → Bool) (B : List Nat)
    (context : ASCIIPListParserContext) (hB : ∀ b ∈ B, b < 256)
    (hctx : ASCIIPListParserIsDictionary context = false) :
    decodeData (String.mk (hexOfBytes upper 0 B)) = some B ∧
    parseLiteral context (tData (String.mk (hexOfBytes upper 0 B))) =
      afterStore (ASCIIPListParserGetLevel context == 0) false
        (ASCIIPListParserStoreValue context (Object.data B)) ∧
    ASCIIParserParse ASCIIPListParserContextInit [tData (String.mk (hexOfBytes upper 0 B))] =
      some (true, finishedContext (Object.data B)) := by
  have hd := decodeData_hexOfBytes upper B hB
  refine ⟨hd, ?_, ?_⟩
  · simp [parseLiteral, tData, hctx, hd]
  · have hs : isScalarToken (tData (String.mk (hexOfBytes upper 0 B))) = true := by
      simp [isScalarToken, tData, hexOfBytes_length]
    have hp := parses_top_level _ _ (scalar_parses _ hs)
    have ht : literalObject (tData (String.mk (hexOfBytes upper 0 B))) = Object.data B := by
      simp [literalObject, tData, hd]
    rw [ht] at hp
    exact hp

/-- Witness of C4 on the bytes of `<48656c6c 6f>`. -/
theorem data_literal_decodes_hex_witness :
    (∀ b ∈ [0x48, 0x65, 0x6c, 0x6c, 0x6f], b < 256) ∧
    ASCIIPListParserIsDictionary ASCIIPListParserContextInit = false ∧
    decodeData "48656c6c6f" = some [0x48, 0x65, 0x6c, 0x6c, 0x6f] ∧
    ASCIIParserParse ASCIIPListParserContextInit [tData "48656c6c6f"] =
      some (true, finishedContext (Object.data [0x48, 0x65, 0x6c, 0x6c, 0x6f])) :=
  have h := data_literal_decodes_hex (fun _ => false) [0x48, 0x65, 0x6c, 0x6c, 0x6f]
    ASCIIPListParserContextInit (by decide) rfl
  ⟨by decide, rfl, h.1, h.2.2⟩

/-- C5, as the code has it: a Number token that is stored as a value is stored
as a Real when its literal contains '.', and as an Integer otherwise; an 'e' or
'E' in the literal plays no part. -/
theorem number_is_real_iff_dot (context : ASCIIPListParserContext) (tok : Token)
    (hk : tok.kind = kASCIIPListLexerTokenNumber)
    (hdone : ASCIIPListParserIsDone context = false)
    (hctx : ASCIIPListParserIsDictionary context = false) :
    (strchr tok.contents '.' = true →
      parseToken kASCIIParsePList context tok =
        afterStore (ASCIIPListParserGetLevel context == 0) false
          (ASCIIPListParserStoreValue context (Object.real (atof tok.contents)))) ∧
    (strchr tok.contents '.' = false →
      parseToken kASCIIParsePList context tok =
        afterStore (ASCIIPListParserGetLevel context == 0) false
          (ASCIIPListParserStoreValue context (Object.integer (atol tok.contents)))) := by
  obtain ⟨kind, contents⟩ := tok
  simp only at hk
  subst hk
  constructor <;> intro hr <;>
  simp [parseToken, parsePList, parseLiteral, hdone, hctx, hr]

/-- Witness of C5 as amended, on the literals `2.5` and `1e5`. -/
theorem number_is_real_iff_dot_witness :
    (tNumber "2.5").kind = kASCIIPListLexerTokenNumber ∧
    (tNumber "1e5").kind = kASCIIPListLexerTokenNumber ∧
    ASCIIPListParserIsDone ASCIIPListParserContextInit = false ∧
    ASCIIPListParserIsDictionary ASCIIPListParserContextInit = false ∧
    strchr "2.5" '.' = true ∧ strchr "1e5" '.' = false ∧
    parseToken kASCIIParsePList ASCIIPListParserContextInit (tNumber "2.5") =
      afterStore true false
        (ASCIIPListParserStoreValue ASCIIPListParserContextInit (Object.real (atof "2.5"))) ∧
    parseToken kASCIIParsePList ASCIIPListParserContextInit (tNumber "1e5") =
      afterStore true false
        (ASCIIPListParserStoreValue ASCIIPListParserContextInit
          (Object.integer (atol "1e5"))) :=
  ⟨rfl, rfl, rfl, rfl, by decide, by decide,
   (number_is_real_iff_dot ASCIIPListParserContextInit (tNumber "2.5") rfl rfl rfl).1 (by decide),
   (number_is_real_iff_dot ASCIIPListParserContextInit (tNumber "1e5") rfl rfl rfl).2 (by decide)⟩

/-- C5 fails as stated: the Number literal `1e5` contains 'e', and the driver
stores it as an Integer, not as a Real. -/
theorem number_with_exponent_stored_as_integer :
    strchr "1e5" 'e' = true ∧
    ASCIIParserParse ASCIIPListParserContextInit [tNumber "1e5"] =
      some (true, finishedContext (Object.integer 1)) ∧
    (∀ r : Double, Object.integer 1 ≠ Object.real r) :=
  ⟨by decide, rfl, fun _ h => Object.noConfusion h⟩

/-- C6, on the code: the HexNumber literal `0x10` goes through `atol`, which
reads base 10 and stops at the `x`; the driver stores Integer(0), not
Integer(16). -/
theorem hex_number_read_in_base_ten :
    strchr "0x10" '.' = false ∧ atol "0x10" = 0 ∧
    parseToken kASCIIParsePList ASCIIPListParserContextInit (tHex "0x10") =
      afterStore true false
        (ASCIIPListParserStoreValue ASCIIPListParserContextInit (Object.integer 0)) ∧
    ASCIIParserParse ASCIIPListParserContextInit [tHex "0x10"] =
      some (true, finishedContext (Object.integer 0)) :=
  ⟨by decide, by decide, rfl, rfl⟩

/-- C7, as the code has it: an integer Number token stored as a value is never
rejected for its magnitude: the driver hands `Integer(atol(literal))` to the
store and goes on; that value lies within the signed 64-bit range, and it is
the value of the literal whenever the literal is within the range. -/
theorem integer_literal_never_rejected (st : List Frame) (root : Option Object) (tok : Token)
    (hk : tok.kind = kASCIIPListLexerTokenNumber) (hdot : strchr tok.contents '.' = false)
    (hst : valuePosition st = true) :
    parseToken kASCIIParsePList (openContext st root) tok =
      Step.next (afterValue st root (Object.integer (atol tok.contents))).1
        (afterValue st root (Object.integer (atol tok.contents))).2 ∧
    LONG_MIN ≤ atol tok.contents ∧ atol tok.contents ≤ LONG_MAX ∧
    (LONG_MIN ≤ decimalValue tok.contents.toList → decimalValue tok.contents.toList ≤ LONG_MAX →
      atol tok.contents = decimalValue tok.contents.toList) := by
  have hs : isScalarToken tok = true := by simp [isScalarToken, hk]
  have ht : literalObject tok = Object.integer (atol tok.contents) := by
    simp [literalObject, hk, hdot]
  have h := scalar_step st root tok hst hs
  rw [ht] at h
  refine ⟨h, ?_, ?_, ?_⟩
  · unfold atol LONG_MAX LONG_MIN
    simp only
    split_ifs <;> omega
  · unfold atol LONG_MAX LONG_MIN
    simp only
    split_ifs <;> omega
  · intro h1 h2
    unfold atol
    simp only
    split_ifs <;> omega

/-- Witness of C7 as amended, on the literal `9223372036854775808` inside an
array. -/
theorem integer_literal_never_rejected_witness :
    (tNumber "9223372036854775808").kind = kASCIIPListLexerTokenNumber ∧
    strchr "9223372036854775808" '.' = false ∧
    valuePosition [Frame.array []] = true ∧
    parseToken kASCIIParsePList (openContext [Frame.array []] none)
        (tNumber "9223372036854775808") =
      Step.next kASCIIParseEntrySeparator
        (openContext [Frame.array [Object.integer 9223372036854775807]] none) :=
  ⟨rfl, by decide, rfl,
    (integer_literal_never_rejected [Frame.array []] none (tNumber "9223372036854775808")
    rfl (by decide) rfl).1⟩

/-- C7 fails as stated: the literal `9223372036854775808` denotes 2^63, outside
the signed 64-bit range, and the driver returns success with an Integer as
root. -/
theorem integer_overflow_not_rejected :
    decimalValue "9223372036854775808".toList = 2 ^ 63 ∧ ¬ ((2 : Int) ^ 63 ≤ LONG_MAX) ∧
    ASCIIParserParse ASCIIPListParserContextInit [tNumber "9223372036854775808"] =
      some (true, finishedContext (Object.integer 9223372036854775807)) :=
  ⟨by decide, by decide, rfl⟩

/-- C8: whenever a Data token arrives in state PList while the top frame is a
Dictionary with no pending key, the driver fails with the message
'Data cannot be dictionary key'; the literal is not decoded (its text plays no
part) and the context is aborted as it stood, no key or value having been
stored. -/
theorem data_key_rejected (pre : List Token) (context : ASCIIPListParserContext)
    (tok : Token) (rest : List Token) (h : Reaches pre kASCIIParsePList context)
    (hdict : ASCIIPListParserIsDictionary context = true)
    (hk : tok.kind = kASCIIPListLexerTokenData) :
    ASCIIParserParse ASCIIPListParserContextInit (pre ++ tok :: rest) =
      some (false, ASCIIPListParserAbort context (some "Data cannot be dictionary key")) ∧
    (ASCIIPListParserAbort context (some "Data cannot be dictionary key")).error =
      some "Data cannot be dictionary key" := by
  obtain ⟨he, _, hf⟩ := reaches_invariant pre _ context h
  obtain ⟨stack, root, level, done, error⟩ := context
  obtain ⟨kind, contents⟩ := tok
  simp only at he hk hf
  subst he hk
  rw [reaches_parseLoop pre _ _ h]
  rcases stack with _ | ⟨(_ | ⟨_, _ | _⟩), st⟩ <;>
    simp [ASCIIPListParserIsDictionary] at hdict
  cases done <;> simp [stateFits] at hf
  simp [parseLoop, ASCIIPListLexerToken.isNegative, parseToken, parsePList, parseLiteral,
    ASCIIPListParserIsDone, ASCIIPListParserIsDictionary, ASCIIPListParserAbort]

/-- Witness of C8 on `{ <abc>`, a Data literal whose digits would not even
decode. -/
theorem data_key_rejected_witness :
    Reaches [tDictStart] kASCIIParsePList (openContext [Frame.dictionary [] none] none) ∧
    ASCIIPListParserIsDictionary (openContext [Frame.dictionary [] none] none) = true ∧
    (tData "abc").kind = kASCIIPListLexerTokenData ∧
    ASCIIParserParse ASCIIPListParserContextInit [tDictStart, tData "abc"] =
      some (false, ASCIIPListParserAbort (openContext [Frame.dictionary [] none] none)
        (some "Data cannot be dictionary key")) :=
  have hr : Reaches [tDictStart] kASCIIParsePList (openContext [Frame.dictionary [] none] none) :=
    Reaches.step [] _ _ _ _ tDictStart Reaches.init rfl rfl
  ⟨hr, rfl, rfl, (data_key_rejected [tDictStart] _ (tData "abc") [] hr rfl rfl).1⟩

/-- C9: in state EntrySeparator the top frame is a Dictionary without pending
key or an Array.  For a non-comment token, when it is a Dictionary the driver
goes on (to state PList) on ';' and fails on every other token; when it is an
Array the driver goes on on ',', ends the array on ')', and fails on every
other token.  The four sources `{ a = 1 }`, `( 1; )`, `{ a = 1, }` and `( 1 2 )`
fail. -/
theorem entry_separator_continues_only_on_separator (pre : List Token)
    (context : ASCIIPListParserContext) (tok : Token) (rest : List Token)
    (h : Reaches pre kASCIIParseEntrySeparator context) (hc : isComment tok = false) :
    (ASCIIPListParserIsDictionary context = true ∨ ASCIIPListParserIsArray context = true) ∧
    (ASCIIPListParserIsDictionary context = true →
      (tok.kind = semicolon ∧
        ASCIIParserParse ASCIIPListParserContextInit (pre ++ tok :: rest) =
          parseLoop kASCIIParsePList context rest) ∨
      (tok.kind ≠ semicolon ∧
        ∃ c, ASCIIParserParse ASCIIPListParserContextInit (pre ++ tok :: rest) =
          some (false, c))) ∧
    (ASCIIPListParserIsArray context = true →
      (tok.kind = comma ∧
        ASCIIParserParse ASCIIPListParserContextInit (pre ++ tok :: rest) =
          parseLoop kASCIIParsePList context rest) ∨
      (tok.kind = kASCIIPListLexerTokenArrayEnd ∧
        parseToken kASCIIParseEntrySeparator context tok =
          containerEnded (ASCIIPListParserArrayEnd context)) ∨
      (tok.kind ≠ comma ∧ tok.kind ≠ kASCIIPListLexerTokenArrayEnd ∧
        ∃ c, ASCIIParserParse ASCIIPListParserContextInit (pre ++ tok :: rest) =
          some (false, c))) ∧
    (ASCIIParserParse ASCIIPListParserContextInit
        [tDictStart, tUnquoted "a", tEq, tNumber "1", tDictEnd]).map
      (fun r => (r.1, r.2.error)) =
      some (false, some "Expected entry separator or array end; found something else") ∧
    (ASCIIParserParse ASCIIPListParserContextInit
        [tArrayStart, tNumber "1", tSemi, tArrayEnd]).map (fun r => (r.1, r.2.error)) =
      some (false, some "Expected ',' or ')'") ∧
    (ASCIIParserParse ASCIIPListParserContextInit
        [tDictStart, tUnquoted "a", tEq, tNumber "1", tComma, tDictEnd]).map
      (fun r => (r.1, r.2.error)) = some (false, some "Expected ';'") ∧
    (ASCIIParserParse ASCIIPListParserContextInit
        [tArrayStart, tNumber "1", tNumber "2", tArrayEnd]).map (fun r => (r.1, r.2.error)) =
      some (false, some "Expected entry separator or array end; found something else") := by
  obtain ⟨he, _, hf⟩ := reaches_invariant pre _ context h
  obtain ⟨stack, root, level, done, error⟩ := context
  obtain ⟨kind, contents⟩ := tok
  simp only at he hf
  subst he
  simp only [isComment, Bool.decide_or, Bool.or_eq_false_iff, decide_eq_false_iff_not] at hc
  rw [reaches_parseLoop pre _ _ h]
  refine ⟨?_, ?_, ?_, rfl, rfl, rfl, rfl⟩
  · rcases stack with _ | ⟨(_ | ⟨_, _ | _⟩), st⟩ <;> cases done <;>
      simp [stateFits] at hf <;>
      simp [ASCIIPListParserIsDictionary, ASCIIPListParserIsArray]
  · intro hdict
    rcases stack with _ | ⟨(_ | ⟨_, _ | _⟩), st⟩ <;>
      simp [ASCIIPListParserIsDictionary] at hdict
    cases done <;> simp [stateFits] at hf
    cases kind <;>
      simp [parseLoop, ASCIIPListLexerToken.isNegative, lexerStop, parseToken,
        parseEntrySeparator, ASCIIPListParserIsDone, ASCIIPListParserIsDictionary,
        ASCIIPListParserIsArray] at hc ⊢
  · intro harr
    rcases stack with _ | ⟨(_ | ⟨_, _ | _⟩), st⟩ <;>
      simp [ASCIIPListParserIsArray] at harr
    cases done <;> simp [stateFits] at hf
    cases kind <;>
      simp [parseLoop, ASCIIPListLexerToken.isNegative, lexerStop, parseToken,
        parseEntrySeparator, ASCIIPListParserIsDone, ASCIIPListParserIsDictionary,
        ASCIIPListParserIsArray] at hc ⊢

/-- Witness of C9 on `( 1 ;`: after `( 1` the driver is in state
EntrySeparator with an Array on top, and the ';' makes it fail. -/
theorem entry_separator_continues_only_on_separator_witness :
    Reaches [tArrayStart, tNumber "1"] kASCIIParseEntrySeparator
      (openContext [Frame.array [Object.integer 1]] none) ∧
    isComment tSemi = false ∧
    ∃ c, ASCIIParserParse ASCIIPListParserContextInit [tArrayStart, tNumber "1", tSemi] =
      some (false, c) :=
  have h1 : Reaches [tArrayStart] kASCIIParsePList (openContext [Frame.array []] none) :=
    Reaches.step [] _ _ _ _ tArrayStart Reaches.init rfl rfl
  have h2 : Reaches [tArrayStart, tNumber "1"] kASCIIParseEntrySeparator
      (openContext [Frame.array [Object.integer 1]] none) :=
    Reaches.step [tArrayStart] _ _ _ _ (tNumber "1") h1 rfl rfl
  ⟨h2, rfl,
    ((entry_separator_continues_only_on_separator [tArrayStart, tNumber "1"] _ tSemi [] h2
      rfl).2.2.1 rfl).elim (fun h => absurd h.1 (by decide))
      (fun h => h.elim (fun h => absurd h.1 (by decide)) (fun h => h.2.2))⟩

/-- C10: for a non-empty sequence of values, the array source without and the
array source with a trailing comma before the closing parenthesis both parse
successfully, and to the same Array. -/
theorem trailing_comma_changes_nothing (vs : List (List Token)) (hne : vs ≠ [])
    (hv : ∀ v ∈ vs, IsValue v) :
    ∃ objs : List Object, objs.length = vs.length ∧
      ASCIIParserParse ASCIIPListParserContextInit
        (tArrayStart :: (commaSeparated vs ++ [tArrayEnd])) =
        some (true, finishedContext (Object.array objs)) ∧
      ASCIIParserParse ASCIIPListParserContextInit
        (tArrayStart :: (commaSeparated vs ++ [tComma, tArrayEnd])) =
        some (true, finishedContext (Object.array objs)) := by
  obtain ⟨objs, hobjs⟩ := forall₂_of_forall_exists Parses vs
    (fun v h => isValue_parses v (hv v h))
  refine ⟨objs, hobjs.length_eq.symm, ?_, ?_⟩
  · have hp := array_parses vs objs hobjs false
    rw [arrayTokens, arrayBody_false] at hp
    exact parses_top_level _ _ hp
  · have hp := array_parses vs objs hobjs true
    rw [arrayTokens, arrayBody_true vs hne, List.append_assoc] at hp
    exact parses_top_level _ _ hp

/-- Witness of C10 on `( 1, ( "x" ) )` and `( 1, ( "x" ), )`. -/
theorem trailing_comma_changes_nothing_witness :
    [[tNumber "1"], arrayTokens [[tQuoted "x"]] false] ≠ [] ∧
    (∀ v ∈ [[tNumber "1"], arrayTokens [[tQuoted "x"]] false], IsValue v) ∧
    ∃ objs : List Object, objs.length = 2 ∧
      ASCIIParserParse ASCIIPListParserContextInit
        [tArrayStart, tNumber "1", tComma, tArrayStart, tQuoted "x", tArrayEnd, tArrayEnd] =
        some (true, finishedContext (Object.array objs)) ∧
      ASCIIParserParse ASCIIPListParserContextInit
        [tArrayStart, tNumber "1", tComma, tArrayStart, tQuoted "x", tArrayEnd, tComma,
          tArrayEnd] =
        some (true, finishedContext (Object.array objs)) :=
  have hv : ∀ v ∈ [[tNumber "1"], arrayTokens [[tQuoted "x"]] false], IsValue v := fun v hv => by
    simp only [List.mem_cons, List.mem_singleton, List.not_mem_nil, or_false] at hv
    rcases hv with hv | hv
    · subst hv; exact IsValue.scalar (tNumber "1") (by decide)
    · subst hv
      exact IsValue.array _ false (fun w hw => by
        simp only [List.mem_singleton] at hw
        subst hw; exact IsValue.scalar (tQuoted "x") (by decide))
  ⟨by simp, hv, trailing_comma_changes_nothing _ (by simp) hv⟩

/-- C11: when the lexer returns EndOfFile, in whatever state the loop is, the
driver returns success if and only if the done flag is set and the stack is
empty; otherwise it fails with the premature-EOF message.  A stream that
leaves a container open, and the empty stream, fail with premature EOF. -/
theorem eof_success_iff_done (pre : List Token) (s : ASCIIParseState)
    (c : ASCIIPListParserContext) (rest : List Token) (h : Reaches pre s c) :
    (ASCIIParserParse ASCIIPListParserContextInit pre = some (true, c) ↔
      (c.done = true ∧ c.stack = [])) ∧
    (¬ (c.done = true ∧ c.stack = []) →
      ASCIIParserParse ASCIIPListParserContextInit pre =
        some (false, ASCIIPListParserAbort c (some "Encountered premature EOF")) ∧
      (ASCIIPListParserAbort c (some "Encountered premature EOF")).error =
        some "Encountered premature EOF") ∧
    (c.stack ≠ [] →
      ASCIIParserParse ASCIIPListParserContextInit pre =
        some (false, ASCIIPListParserAbort c (some "Encountered premature EOF"))) ∧
    ASCIIParserParse ASCIIPListParserContextInit (pre ++ tk kASCIIPListLexerEndOfFile :: rest) =
      ASCIIParserParse ASCIIPListParserContextInit pre ∧
    ASCIIParserParse ASCIIPListParserContextInit [] =
      some (false, ASCIIPListParserAbort ASCIIPListParserContextInit
        (some "Encountered premature EOF")) := by
  obtain ⟨he, _, hf⟩ := reaches_invariant pre s c h
  have h1 := reaches_parseLoop pre s c h []
  have h2 := reaches_parseLoop pre s c h (tk kASCIIPListLexerEndOfFile :: rest)
  rw [List.append_nil] at h1
  rw [h1, h2]
  have hstack : c.done = true → c.stack = [] := by
    intro hd
    cases s <;> rcases hst : c.stack with _ | ⟨(_ | ⟨_, _ | _⟩), st⟩ <;>
      simp [stateFits, hst, hd] at hf <;> rfl
  obtain ⟨stack, root, level, done, error⟩ := c
  simp only at he hstack
  subst he
  cases done
  · refine ⟨?_, ?_, ?_, rfl, rfl⟩ <;>
      simp [parseLoop, lexerStop, ASCIIPListParserIsDone, ASCIIPListParserAbort]
  · have hs := hstack rfl
    subst hs
    refine ⟨?_, ?_, ?_, rfl, rfl⟩ <;>
      simp [parseLoop, lexerStop, ASCIIPListParserIsDone]

/-- Witness of C11 on `( 1` followed by EndOfFile: the array is left open. -/
theorem eof_success_iff_done_witness :
    Reaches [tArrayStart, tNumber "1"] kASCIIParseEntrySeparator
      (openContext [Frame.array [Object.integer 1]] none) ∧
    ASCIIParserParse ASCIIPListParserContextInit [tArrayStart, tNumber "1"] =
      some (false, ASCIIPListParserAbort (openContext [Frame.array [Object.integer 1]] none)
        (some "Encountered premature EOF")) :=
  have h1 : Reaches [tArrayStart] kASCIIParsePList (openContext [Frame.array []] none) :=
    Reaches.step [] _ _ _ _ tArrayStart Reaches.init rfl rfl
  have h2 : Reaches [tArrayStart, tNumber "1"] kASCIIParseEntrySeparator
      (openContext [Frame.array [Object.integer 1]] none) :=
    Reaches.step [tArrayStart] _ _ _ _ (tNumber "1") h1 rfl rfl
  ⟨h2, (eof_success_iff_done [tArrayStart, tNumber "1"] _ _ [] h2).2.2.1
    (List.cons_ne_nil _ _)⟩

/-- C12: once the done flag is set, every later token other than a comment or
EndOfFile makes the driver fail with a message; a token that would start a
second top-level value fails with 'Encountered token when finished.'. -/
theorem no_token_after_done (pre : List Token) (s : ASCIIParseState)
    (c : ASCIIPListParserContext) (tok : Token) (rest : List Token)
    (h : Reaches pre s c) (hd : ASCIIPListParserIsDone c = true)
    (hc : isComment tok = false) (heof : tok.kind ≠ kASCIIPListLexerEndOfFile) :
    (∃ c1 msg, ASCIIParserParse ASCIIPListParserContextInit (pre ++ tok :: rest) =
      some (false, c1) ∧ c1.error = some msg) ∧
    (startsValue tok.kind = true →
      ASCIIParserParse ASCIIPListParserContextInit (pre ++ tok :: rest) =
        some (false, ASCIIPListParserAbort c (some "Encountered token when finished."))) := by
  obtain ⟨he, _, hf⟩ := reaches_invariant pre s c h
  rw [reaches_parseLoop pre s c h]
  obtain ⟨stack, root, level, done, error⟩ := c
  obtain ⟨kind, contents⟩ := tok
  simp only [ASCIIPListParserIsDone] at he hd hf heof
  subst he hd
  simp only [isComment, Bool.decide_or, Bool.or_eq_false_iff, decide_eq_false_iff_not] at hc
  cases s <;> rcases stack with _ | ⟨(_ | ⟨_, _ | _⟩), st⟩ <;> simp [stateFits] at hf
  cases kind <;>
    simp [parseLoop, ASCIIPListLexerToken.isNegative, lexerStop, parseToken, parsePList,
      ASCIIPListParserIsDone, ASCIIPListParserAbort, startsValue] at hc heof ⊢

/-- Witness of C12 on `1 2`: the second top-level value is refused. -/
theorem no_token_after_done_witness :
    Reaches [tNumber "1"] kASCIIParsePList (finishedContext (Object.integer 1)) ∧
    ASCIIPListParserIsDone (finishedContext (Object.integer 1)) = true ∧
    isComment (tNumber "2") = false ∧
    ASCIIParserParse ASCIIPListParserContextInit [tNumber "1", tNumber "2"] =
      some (false, ASCIIPListParserAbort (finishedContext (Object.integer 1))
        (some "Encountered token when finished.")) :=
  have h1 : Reaches [tNumber "1"] kASCIIParsePList (finishedContext (Object.integer 1)) :=
    Reaches.step [] _ _ _ _ (tNumber "1") Reaches.init rfl rfl
  ⟨h1, rfl, rfl,
    (no_token_after_done [tNumber "1"] _ _ (tNumber "2") [] h1 rfl rfl (by decide)).2 rfl⟩

/-- C13: inserting any number of InlineComment or LongComment tokens at any
positions of a token stream leaves the outcome of the driver unchanged, from
every state and context: the same returned flag and the same final context,
hence the same tree and the same error message. -/
theorem comments_change_nothing (ts ts1 : List Token) (s : ASCIIParseState)
    (c : ASCIIPListParserContext) (h : CommentsInserted ts ts1) :
    parseLoop s c ts1 = parseLoop s c ts ∧ ASCIIParserParse c ts1 = ASCIIParserParse c ts :=
  ⟨commentsInserted_parseLoop ts ts1 h s c,
    commentsInserted_parseLoop ts ts1 h kASCIIParsePList c⟩

/-- Witness of C13 on `( 1 )` against `/* */ ( // 1 ) /* */`. -/
theorem comments_change_nothing_witness :
    CommentsInserted [tArrayStart, tNumber "1", tArrayEnd]
      [tk kASCIIPListLexerTokenLongComment, tArrayStart, tk kASCIIPListLexerTokenInlineComment,
        tNumber "1", tArrayEnd, tk kASCIIPListLexerTokenLongComment] ∧
    ASCIIParserParse ASCIIPListParserContextInit
      [tk kASCIIPListLexerTokenLongComment, tArrayStart, tk kASCIIPListLexerTokenInlineComment,
        tNumber "1", tArrayEnd, tk kASCIIPListLexerTokenLongComment] =
      ASCIIParserParse ASCIIPListParserContextInit [tArrayStart, tNumber "1", tArrayEnd] :=
  have h : CommentsInserted [tArrayStart, tNumber "1", tArrayEnd]
      [tk kASCIIPListLexerTokenLongComment, tArrayStart, tk kASCIIPListLexerTokenInlineComment,
        tNumber "1", tArrayEnd, tk kASCIIPListLexerTokenLongComment] :=
    CommentsInserted.insert _ _ _ rfl (CommentsInserted.keep _ _ _
      (CommentsInserted.insert _ _ _ rfl (CommentsInserted.keep _ _ _
        (CommentsInserted.keep _ _ _
          (CommentsInserted.insert _ _ _ rfl CommentsInserted.nil)))))
  ⟨h, (comments_change_nothing _ _ kASCIIParsePList ASCIIPListParserContextInit h).2⟩
/-- C14, as the code has it: a flat dictionary source, keys repeated or not,
parses successfully to a Dictionary that has each key once, mapped to the
value of its last occurrence, and the entry point delivers nothing through the
error callback. -/
theorem duplicate_key_last_wins_silently (lexerInit : List Nat → Nat → ASCIIPListLexer)
    (fp : FileStream) (fsize : Nat) (es : List (Token × Token))
    (hio : driverRuns fp fsize)
    (hlex : lexerInit fp.bytes fsize = dictTokens (es.map (fun e => (e.1, [e.2]))))
    (hk : ∀ e ∈ es, isStringToken e.1 = true) (hv : ∀ e ∈ es, isScalarToken e.2 = true) :
    ∃ d, ASCIIParser.parse lexerInit fp = some (some (Object.dictionary d), []) ∧
      (Dictionary.keys d).Nodup ∧
      (∀ k, k ∈ Dictionary.keys d ↔ k ∈ es.map (fun e => e.1.contents)) ∧
      (∀ es1 e es2, es = es1 ++ e :: es2 → (∀ x ∈ es2, x.1.contents ≠ e.1.contents) →
        Dictionary.get d e.1.contents = some (literalObject e.2)) := by
  refine ⟨storeEntries [] (es.map (fun e => (e.1.contents, literalObject e.2))), ?_, ?_, ?_, ?_⟩
  · rw [parse_of_driverRuns lexerInit fp fsize hio, hlex, flat_dictionary_parses es hk hv]
    rfl
  · exact storeEntries_nodup_keys _ [] (by simp)
  · intro k
    simp only [Dictionary.keys]
    rw [storeEntries_mem_keys]
    simp [List.map_map, Function.comp_def]
  · intro es1 e es2 hes hlast
    subst hes
    rw [List.map_append, List.map_cons, storeEntries_append, storeEntries_cons,
      storeEntries_get_other _ _ _ (by
        intro kv hkv
        simp only [List.mem_map] at hkv
        obtain ⟨x, hx, rfl⟩ := hkv
        exact hlast x hx)]
    exact Dictionary.get_set_same _ _ _

/-- Witness of C14 as amended, on the stream of `{ a = 1; a = 2; }`. -/
theorem duplicate_key_last_wins_silently_witness :
    driverRuns (readableFile ("\x7b a = 1; a = 2; \x7d".toList.map Char.toNat)) 17 ∧
    (∀ e ∈ [(tUnquoted "a", tNumber "1"), (tUnquoted "a", tNumber "2")],
      isStringToken e.1 = true) ∧
    (∀ e ∈ [(tUnquoted "a", tNumber "1"), (tUnquoted "a", tNumber "2")],
      isScalarToken e.2 = true) ∧
    ∃ d, ASCIIParser.parse
        (fun _ _ => [tDictStart, tUnquoted "a", tEq, tNumber "1", tSemi,
          tUnquoted "a", tEq, tNumber "2", tSemi, tDictEnd])
        (readableFile ("\x7b a = 1; a = 2; \x7d".toList.map Char.toNat)) =
        some (some (Object.dictionary d), []) ∧
      (Dictionary.keys d).Nodup ∧ Dictionary.get d "a" = some (Object.integer 2) :=
  have hio : driverRuns (readableFile ("\x7b a = 1; a = 2; \x7d".toList.map Char.toNat)) 17 :=
    ⟨rfl, rfl, rfl, rfl, rfl⟩
  have h := duplicate_key_last_wins_silently
    (fun _ _ => [tDictStart, tUnquoted "a", tEq, tNumber "1", tSemi,
      tUnquoted "a", tEq, tNumber "2", tSemi, tDictEnd])
    (readableFile ("\x7b a = 1; a = 2; \x7d".toList.map Char.toNat)) 17
    [(tUnquoted "a", tNumber "1"), (tUnquoted "a", tNumber "2")] hio rfl
    (by decide) (by decide)
  ⟨hio, by decide, by decide, h.elim (fun d hd => ⟨d, hd.1, hd.2.1,
    hd.2.2.2 [(tUnquoted "a", tNumber "1")] (tUnquoted "a", tNumber "2") [] rfl
      (fun _ hx => absurd hx (List.not_mem_nil _))⟩)⟩

/-- C14 fails as stated: for the stream of `{ a = 1; a = 2; }` the entry point
returns the Dictionary with `a` mapped to Integer(2) and invokes the error
callback not once but never. -/
theorem duplicate_key_no_diagnostic :
    ASCIIParser.parse
      (fun _ _ => [tDictStart, tUnquoted "a", tEq, tNumber "1", tSemi,
        tUnquoted "a", tEq, tNumber "2", tSemi, tDictEnd])
      (readableFile ("\x7b a = 1; a = 2; \x7d".toList.map Char.toNat)) =
      some (some (Object.dictionary [("a", Object.integer 2)]), []) ∧
    ([] : List ErrorReport).length ≠ 1 :=
  ⟨rfl, by decide⟩
/-- C15: the entry point returns a root object only if the driver returned
success, and then without invoking the error callback; whenever the driver
fails, the result is null and the error callback is invoked exactly once, with
the error message of the context. -/
theorem parse_returns_root_only_on_success (lexerInit : List Nat → Nat → ASCIIPListLexer)
    (fp : FileStream) :
    (∀ obj reports, ASCIIParser.parse lexerInit fp = some (some obj, reports) →
      ∃ fsize c, driverRuns fp fsize ∧
        ASCIIParserParse ASCIIPListParserContextInit (lexerInit fp.bytes fsize) =
          some (true, c) ∧
        ASCIIPListParserCopyRoot c = some obj ∧ reports = []) ∧
    (∀ fsize c, driverRuns fp fsize →
      ASCIIParserParse ASCIIPListParserContextInit (lexerInit fp.bytes fsize) =
        some (false, c) →
      ASCIIParser.parse lexerInit fp = some (none, [⟨0, 0, c.error⟩])) := by
  refine ⟨fun obj reports h => parse_root_inv lexerInit fp obj reports h, ?_⟩
  intro fsize c hio hfail
  rw [parse_of_driverRuns lexerInit fp fsize hio, hfail]

/-- Witness of C15 on the stream of `( 1`: the driver fails on the open array,
no tree is returned and the callback gets the message of the context. -/
theorem parse_returns_root_only_on_success_witness :
    driverRuns (readableFile ("( 1".toList.map Char.toNat)) 3 ∧
    ASCIIParserParse ASCIIPListParserContextInit [tArrayStart, tNumber "1"] =
      some (false, ASCIIPListParserAbort (openContext [Frame.array [Object.integer 1]] none)
        (some "Encountered premature EOF")) ∧
    ASCIIParser.parse (fun _ _ => [tArrayStart, tNumber "1"])
      (readableFile ("( 1".toList.map Char.toNat)) =
      some (none, [⟨0, 0, some "Encountered premature EOF"⟩]) :=
  ⟨⟨rfl, rfl, rfl, rfl, rfl⟩, rfl,
    (parse_returns_root_only_on_success (fun _ _ => [tArrayStart, tNumber "1"])
      (readableFile ("( 1".toList.map Char.toNat))).2 3 _ ⟨rfl, rfl, rfl, rfl, rfl⟩ rfl⟩

/-- C16, as the code has it: when the driver fails, the error callback is
invoked once with line 0 and column 0, whichever token caused the failure;
the reported position lies within the bounds of the input. -/
theorem error_position_is_zero (lexerInit : List Nat → Nat → ASCIIPListLexer)
    (fp : FileStream) (fsize : Nat) (c : ASCIIPListParserContext)
    (hio : driverRuns fp fsize)
    (hfail : ASCIIParserParse ASCIIPListParserContextInit (lexerInit fp.bytes fsize) =
      some (false, c)) :
    ∃ reports, ASCIIParser.parse lexerInit fp = some (none, reports) ∧ reports.length = 1 ∧
      ∀ r ∈ reports, r.line = 0 ∧ r.column = 0 ∧ 0 ≤ r.column ∧ r.column ≤ (fsize : Int) := by
  refine ⟨[⟨0, 0, c.error⟩], ?_, rfl, ?_⟩
  · rw [parse_of_driverRuns lexerInit fp fsize hio, hfail]
  · intro r hr
    simp only [List.mem_singleton] at hr
    subst hr
    exact ⟨rfl, rfl, le_refl _, Int.ofNat_nonneg _⟩

/-- Witness of C16 as amended, on the stream of `/* top */ { a = ( 1; )`. -/
theorem error_position_is_zero_witness :
    driverRuns (readableFile ("/* top */ \x7b a = ( 1; )".toList.map Char.toNat)) 22 ∧
    (∃ c, ASCIIParserParse ASCIIPListParserContextInit
      [tk kASCIIPListLexerTokenLongComment, tDictStart, tUnquoted "a", tEq, tArrayStart,
        tNumber "1", tSemi, tArrayEnd] = some (false, c)) ∧
    ∃ reports, ASCIIParser.parse
        (fun _ _ => [tk kASCIIPListLexerTokenLongComment, tDictStart, tUnquoted "a", tEq,
          tArrayStart, tNumber "1", tSemi, tArrayEnd])
        (readableFile ("/* top */ \x7b a = ( 1; )".toList.map Char.toNat)) =
        some (none, reports) ∧ reports.length = 1 ∧
      ∀ r ∈ reports, r.line = 0 ∧ r.column = 0 ∧ 0 ≤ r.column ∧ r.column ≤ ((22 : Nat) : Int) :=
  ⟨⟨rfl, rfl, rfl, rfl, rfl⟩, ⟨_, rfl⟩,
    error_position_is_zero
      (fun _ _ => [tk kASCIIPListLexerTokenLongComment, tDictStart, tUnquoted "a", tEq,
        tArrayStart, tNumber "1", tSemi, tArrayEnd])
      (readableFile ("/* top */ \x7b a = ( 1; )".toList.map Char.toNat)) 22 _
      ⟨rfl, rfl, rfl, rfl, rfl⟩ rfl⟩

/-- C16 fails as stated: in `/* top */ { a = ( 1; )` the ';' inside the
parentheses is at offset 19; the driver fails on it, and the position reported
with the error is line 0, column 0. -/
theorem error_position_not_at_token :
    "/* top */ \x7b a = ( 1; )".toList.indexOf ';' = 19 ∧
    ASCIIParser.parse
      (fun _ _ => [tk kASCIIPListLexerTokenLongComment, tDictStart, tUnquoted "a", tEq,
        tArrayStart, tNumber "1", tSemi, tArrayEnd])
      (readableFile ("/* top */ \x7b a = ( 1; )".toList.map Char.toNat)) =
      some (none, [⟨0, 0, some "Expected ',' or ')'"⟩]) ∧
    (0 : Int) ≠ 19 :=
  ⟨by decide, rfl, by decide⟩

/-- C17, as the code has it: when the driver has been run and the entry point
returns no object, the driver has failed and the error callback has been
invoked once, with the message of the context; when a C library call before
the driver fails (seek, tell, allocation, or the read of a non-empty file), and
when the file cannot be opened, the entry point returns no object without
invoking the error callback. -/
theorem null_result_reported_for_driver_failure_only
    (lexerInit : List Nat → Nat → ASCIIPListLexer) (fp : FileStream) :
    (∀ fsize reports, driverRuns fp fsize →
      ASCIIParser.parse lexerInit fp = some (none, reports) →
      ∃ c msg, ASCIIParserParse ASCIIPListParserContextInit (lexerInit fp.bytes fsize) =
          some (false, c) ∧ c.error = some msg ∧ reports = [⟨0, 0, some msg⟩]) ∧
    (fp.seekEndOk = false ∨ fp.tell = none ∨ fp.seekSetOk = false ∨ fp.mallocOk = false ∨
        (∃ n, fp.tell = some n ∧ 0 < n ∧ fp.readOk = false) →
      ASCIIParser.parse lexerInit fp = some (none, [])) ∧
    ASCIIParser.parsePath lexerInit none = some (none, []) := by
  refine ⟨?_, ?_, rfl⟩
  · intro fsize reports hio h
    rw [parse_of_driverRuns lexerInit fp fsize hio] at h
    rcases hd : ASCIIParserParse ASCIIPListParserContextInit (lexerInit fp.bytes fsize) with
      _ | ⟨b, c⟩
    · simp [hd] at h
    · rcases driver_outcome _ [] _ _ Reaches.init b c hd with ⟨hb, _, hroot, _, _⟩ | ⟨hb, msg, hmsg⟩
      · subst hb
        simp only [hd, ASCIIPListParserCopyRoot, Option.some.injEq, Prod.mk.injEq] at h
        rw [h.1] at hroot
        simp at hroot
      · subst hb
        simp only [hd, Option.some.injEq, Prod.mk.injEq, true_and] at h
        exact ⟨c, msg, rfl, hmsg, by rw [← h, hmsg]⟩
  · intro h
    rcases h with h | h | h | h | ⟨n, h1, h2, h3⟩
    · simp [ASCIIParser.parse, h]
    · simp [ASCIIParser.parse, h]
    · simp only [ASCIIParser.parse, h]
      split <;> [rfl; (split <;> simp)]
    · simp only [ASCIIParser.parse, h]
      split <;> [rfl; (split <;> simp)]
    · have hr : fread fp n = 0 := by
        simp [fread, h3]
      simp only [ASCIIParser.parse, h1, hr]
      split <;> [rfl; (split <;> [rfl; (split <;> simp)])]

/-- Witness of C17 as amended: the driver failure on `( 1` is reported, the
failure of the first seek is not. -/
theorem null_result_reported_for_driver_failure_only_witness :
    driverRuns (readableFile ("( 1".toList.map Char.toNat)) 3 ∧
    ASCIIParser.parse (fun _ _ => [tArrayStart, tNumber "1"])
      (readableFile ("( 1".toList.map Char.toNat)) =
      some (none, [⟨0, 0, some "Encountered premature EOF"⟩]) ∧
    (∃ c msg, ASCIIParserParse ASCIIPListParserContextInit [tArrayStart, tNumber "1"] =
      some (false, c) ∧ c.error = some msg ∧
      [(⟨0, 0, some "Encountered premature EOF"⟩ : ErrorReport)] = [⟨0, 0, some msg⟩]) :=
  ⟨⟨rfl, rfl, rfl, rfl, rfl⟩, rfl,
    (null_result_reported_for_driver_failure_only (fun _ _ => [tArrayStart, tNumber "1"])
      (readableFile ("( 1".toList.map Char.toNat))).1 3 _ ⟨rfl, rfl, rfl, rfl, rfl⟩ rfl⟩

/-- C17 fails as stated: when the first seek on the stream fails, and when the
file cannot be opened, the entry point returns no object and the error
callback has not been invoked. -/
theorem seek_failure_not_reported :
    ASCIIParser.parse (fun _ _ => [tNumber "1"])
      { seekEndOk := false, tell := some 1, seekSetOk := true, mallocOk := true,
        readOk := true, bytes := [49] } = some (none, []) ∧
    ASCIIParser.parsePath (fun _ _ => [tNumber "1"]) none = some (none, []) :=
  ⟨rfl, rfl⟩
theorem objectEquals_sound (heap : Heap) (this : Nat) :
    SoundObjectEquals Object.equals heap this := by
  constructor
  · rfl
  · intro o h
    simp only [Object.equals, beq_iff_eq, Option.some.injEq] at h
    rw [h]

/-- C18: equality of Data values is structural.  For two Data objects, the
base `Object::equals` holding only for equal objects, `equals` holds exactly
when the byte sequences are equal, through either overload; it is reflexive and
symmetric; `equals` of a null pointer is false; and `equals(Object const *)`
with an object of another variant is false. -/
theorem data_equals_structural (objectEquals : Nat → Option Nat → Bool) (heap : Heap)
    (a b : Nat) (va vb : List Nat) (ha : heap a = some (Object.data va))
    (hb : heap b = some (Object.data vb))
    (hbasea : SoundObjectEquals objectEquals heap a)
    (hbaseb : SoundObjectEquals objectEquals heap b) :
    (Data.equalsData heap a (some b) = true ↔ va = vb) ∧
    (Data.equals objectEquals heap a (some b) = true ↔ va = vb) ∧
    Data.equalsData heap a (some a) = true ∧ Data.equals objectEquals heap a (some a) = true ∧
    Data.equalsData heap a (some b) = Data.equalsData heap b (some a) ∧
    Data.equals objectEquals heap a (some b) = Data.equals objectEquals heap b (some a) ∧
    Data.equalsData heap a none = false ∧ Data.equals objectEquals heap a none = false ∧
    (∀ o : Nat, isData heap o = false → Data.equals objectEquals heap a (some o) = false) := by
  obtain ⟨hna, hsa⟩ := hbasea
  obtain ⟨hnb, hsb⟩ := hbaseb
  have hva : Data.value heap a = va := by simp [Data.value, ha]
  have hvb : Data.value heap b = vb := by simp [Data.value, hb]
  have hda : isData heap a = true := by simp [isData, ha]
  have hdb : isData heap b = true := by simp [isData, hb]
  have hptr : a = b → va = vb := by
    intro h
    subst h
    rw [ha] at hb
    simpa using hb
  have hE : Data.equalsData heap a (some b) = (b == a || va == vb) := by
    simp [Data.equalsData, hva, hvb]
  have hE2 : Data.equalsData heap b (some a) = (a == b || vb == va) := by
    simp [Data.equalsData, hva, hvb]
  have hiff : (b == a || va == vb) = true ↔ va = vb := by
    rw [Bool.or_eq_true, beq_iff_eq, beq_iff_eq]
    constructor
    · rintro (h | h)
      · exact hptr h.symm
      · exact h
    · exact fun h => Or.inr h
  have hiff2 : (a == b || vb == va) = true ↔ va = vb := by
    rw [Bool.or_eq_true, beq_iff_eq, beq_iff_eq]
    constructor
    · rintro (h | h)
      · exact hptr h
      · exact h.symm
    · exact fun h => Or.inr h.symm
  have hab : Data.equals objectEquals heap a (some b) = true ↔ va = vb := by
    simp only [Data.equals, CastToData, hdb, if_true, hE]
    constructor
    · intro h
      split at h
      · rename_i h1
        have := hsa _ h1
        rw [ha, hb] at this
        simpa using this.symm
      · exact hiff.mp h
    · intro h
      split
      · rfl
      · exact hiff.mpr h
  have hba : Data.equals objectEquals heap b (some a) = true ↔ va = vb := by
    simp only [Data.equals, CastToData, hda, if_true, hE2]
    constructor
    · intro h
      split at h
      · rename_i h1
        have := hsb _ h1
        rw [ha, hb] at this
        simpa using this
      · exact hiff2.mp h
    · intro h
      split
      · rfl
      · exact hiff2.mpr h
  refine ⟨?_, hab, ?_, ?_, ?_, ?_, rfl, ?_, ?_⟩
  · rw [hE]; exact hiff
  · simp [Data.equalsData]
  · simp only [Data.equals, CastToData, hda, if_true]
    split
    · rfl
    · simp [Data.equalsData]
  · rw [hE, hE2, Bool.eq_iff_iff, hiff, hiff2]
  · rw [Bool.eq_iff_iff, hab, hba]
  · simp [Data.equals, hna, CastToData]
  · intro o ho
    have hbase : objectEquals a (some o) = false := by
      cases hq : objectEquals a (some o)
      · rfl
      · have := hsa _ hq
        simp [isData, this, ha] at ho
    simp [Data.equals, hbase, CastToData, ho]

/-- Witness of C18 on a heap with the same bytes in two Data objects and a
String, the base method being the identity of the objects. -/
theorem data_equals_structural_witness :
    Data.equals Object.equals
      (fun p => if p = 1 ∨ p = 2 then some (Object.data [72, 105])
        else if p = 3 then some (Object.string "Hi") else none) 1 (some 2) = true ∧
    Data.equals Object.equals
      (fun p => if p = 1 ∨ p = 2 then some (Object.data [72, 105])
        else if p = 3 then some (Object.string "Hi") else none) 1 (some 3) = false :=
  have h := data_equals_structural Object.equals
    (fun p => if p = 1 ∨ p = 2 then some (Object.data [72, 105])
      else if p = 3 then some (Object.string "Hi") else none) 1 2 [72, 105] [72, 105]
    rfl rfl (objectEquals_sound _ 1) (objectEquals_sound _ 2)
  ⟨h.2.1.mpr rfl, h.2.2.2.2.2.2.2.2 3 rfl⟩

/-- C19: when the top frame is a Dictionary with no pending key, a Number,
HexNumber, BoolTrue or BoolFalse token is accepted as a key: the text of the
token becomes the pending key, a String, and the next state is
KeyValSeparator; `{ YES = 1; }` parses to the Dictionary with the String key
"YES" mapped to Integer(1). -/
theorem literal_token_accepted_as_key (pre : List Token) (c : ASCIIPListParserContext)
    (tok : Token) (h : Reaches pre kASCIIParsePList c)
    (hd : ASCIIPListParserIsDictionary c = true)
    (hk : tok.kind = kASCIIPListLexerTokenNumber ∨ tok.kind = kASCIIPListLexerTokenHexNumber ∨
      tok.kind = kASCIIPListLexerTokenBoolTrue ∨ tok.kind = kASCIIPListLexerTokenBoolFalse) :
    (∃ entries st, c.stack = Frame.dictionary entries none :: st ∧
      parseToken kASCIIParsePList c tok =
        Step.next kASCIIParseKeyValSeparator
          { c with stack := Frame.dictionary entries (some tok.contents) :: st }) ∧
    parseLiteral c tok =
      afterStore (ASCIIPListParserGetLevel c == 0) true
        (ASCIIPListParserStoreKey c tok.contents) ∧
    ASCIIParserParse ASCIIPListParserContextInit
      [tDictStart, ⟨kASCIIPListLexerTokenBoolTrue, "YES"⟩, tEq, tNumber "1", tSemi, tDictEnd] =
      some (true, finishedContext (Object.dictionary [("YES", Object.integer 1)])) := by
  obtain ⟨he, hl, hf⟩ := reaches_invariant pre _ c h
  obtain ⟨stack, root, level, done, error⟩ := c
  obtain ⟨kind, contents⟩ := tok
  simp only at he hl hf hk
  subst he hl
  rcases stack with _ | ⟨(_ | ⟨es, _ | _⟩), st⟩ <;>
    simp [ASCIIPListParserIsDictionary] at hd
  cases done <;> simp [stateFits] at hf
  refine ⟨⟨es, st, rfl, ?_⟩, ?_, rfl⟩
  · rcases hk with hk | hk | hk | hk <;> subst hk <;>
      simp [parseToken, parsePList, parseLiteral, afterStore, literalStored,
        ASCIIPListParserIsDone, ASCIIPListParserGetLevel, ASCIIPListParserIsDictionary,
        ASCIIPListParserStoreKey, level_succ_ne_zero]
  · rcases hk with hk | hk | hk | hk <;> subst hk <;>
      simp [parseLiteral, ASCIIPListParserIsDictionary]

/-- Witness of C19 on `{ YES`. -/
theorem literal_token_accepted_as_key_witness :
    Reaches [tDictStart] kASCIIParsePList (openContext [Frame.dictionary [] none] none) ∧
    ASCIIPListParserIsDictionary (openContext [Frame.dictionary [] none] none) = true ∧
    parseToken kASCIIParsePList (openContext [Frame.dictionary [] none] none)
        ⟨kASCIIPListLexerTokenBoolTrue, "YES"⟩ =
      Step.next kASCIIParseKeyValSeparator
        (openContext [Frame.dictionary [] (some "YES")] none) :=
  have hr : Reaches [tDictStart] kASCIIParsePList (openContext [Frame.dictionary [] none] none) :=
    Reaches.step [] _ _ _ _ tDictStart Reaches.init rfl rfl
  ⟨hr, rfl,
    (literal_token_accepted_as_key [tDictStart] _ ⟨kASCIIPListLexerTokenBoolTrue, "YES"⟩ hr rfl
      (Or.inr (Or.inr (Or.inl rfl)))).1.elim (fun _ _ => rfl)⟩

/-- C20: at the top of every pass of the driver loop the level counter equals
the number of frames on the stack, so it is never negative and the test
`level == 0` holds exactly when the stack is empty; the state is
EntrySeparator only with a non-empty stack and no pending key; the done flag
is set only with an empty stack; and a pass that does not fail changes the
depth of the stack and the level alike: by one up on an opening token, by
one down on a closing token, not at all otherwise. -/
theorem level_counts_frames (pre : List Token) (s : ASCIIParseState)
    (c : ASCIIPListParserContext) (h : Reaches pre s c) :
    c.level = (c.stack.length : Int) ∧ 0 ≤ c.level ∧
    ((ASCIIPListParserGetLevel c == 0) = true ↔ c.stack = []) ∧
    (s = kASCIIParseEntrySeparator →
      c.stack ≠ [] ∧ ∀ es k st, c.stack ≠ Frame.dictionary es (some k) :: st) ∧
    (c.done = true → c.stack = []) ∧
    (∀ tok s1 c1, parseToken s c tok = Step.next s1 c1 →
      (c1.stack.length : Int) = (c.stack.length : Int) + depthChange tok.kind ∧
      c1.level = c.level + depthChange tok.kind ∧ c1.level = (c1.stack.length : Int)) := by
  have hinv := reaches_invariant pre s c h
  obtain ⟨he, hl, hf⟩ := hinv
  refine ⟨hl, by rw [hl]; exact Int.ofNat_nonneg _, ?_, ?_, ?_, ?_⟩
  · simp only [ASCIIPListParserGetLevel, hl, beq_iff_eq]
    constructor
    · intro h0
      exact List.length_eq_zero.mp (by exact_mod_cast h0)
    · intro h0
      simp [h0]
  · intro hs
    subst hs
    rcases hst : c.stack with _ | ⟨(_ | ⟨_, _ | _⟩), st⟩ <;> cases hd : c.done <;>
      simp [stateFits, hst, hd] at hf <;> simp
  · intro hd
    cases s <;> rcases hst : c.stack with _ | ⟨(_ | ⟨_, _ | _⟩), st⟩ <;>
      simp [stateFits, hst, hd] at hf <;> rfl
  · intro tok s1 c1 hs
    have h1 := step_depth s s1 c c1 tok ⟨he, hl, hf⟩ hs
    have h2 := (loopInvariant_step s s1 c c1 tok ⟨he, hl, hf⟩ hs).2.1
    refine ⟨h1, ?_, h2⟩
    rw [h2, h1, hl]

/-- Witness of C20 on `{ a = (`: two frames, level 2. -/
theorem level_counts_frames_witness :
    Reaches [tDictStart, tUnquoted "a", tEq, tArrayStart] kASCIIParsePList
      (openContext [Frame.array [], Frame.dictionary [] (some "a")] none) ∧
    (openContext [Frame.array [], Frame.dictionary [] (some "a")] none).level = 2 :=
  have h1 : Reaches [tDictStart] kASCIIParsePList (openContext [Frame.dictionary [] none] none) :=
    Reaches.step [] _ _ _ _ tDictStart Reaches.init rfl rfl
  have h2 : Reaches [tDictStart, tUnquoted "a"] kASCIIParseKeyValSeparator
      (openContext [Frame.dictionary [] (some "a")] none) :=
    Reaches.step [tDictStart] _ _ _ _ (tUnquoted "a") h1 rfl rfl
  have h3 : Reaches [tDictStart, tUnquoted "a", tEq] kASCIIParsePList
      (openContext [Frame.dictionary [] (some "a")] none) :=
    Reaches.step [tDictStart, tUnquoted "a"] _ _ _ _ tEq h2 rfl rfl
  have h4 : Reaches [tDictStart, tUnquoted "a", tEq, tArrayStart] kASCIIParsePList
      (openContext [Frame.array [], Frame.dictionary [] (some "a")] none) :=
    Reaches.step [tDictStart, tUnquoted "a", tEq] _ _ _ _ tArrayStart h3 rfl rfl
  ⟨h4, (level_counts_frames _ _ _ h4).1⟩

theorem dataLoopIndices_odd (m : Nat) :
    dataLoopIndices (2 * m + 1) = (List.range m).map (fun k => 2 * k) ++ [2 * m] := by
  have h := dataLoopIndices_even m
  unfold dataLoopIndices at h ⊢
  rw [List.range_succ, List.filter_append, h]
  simp

theorem decodeData_odd (contents : String) (h : contents.toList.length % 2 = 1) :
    decodeData contents = none := by
  unfold decodeData
  obtain ⟨m, hm⟩ : ∃ m, contents.toList.length = 2 * m + 1 :=
    ⟨contents.toList.length / 2, by omega⟩
  have hdiv : (2 * m + 1) / 2 = m := by omega
  simp only [hm, hdiv]
  rw [dataLoopIndices_odd, List.foldl_append, dataLoop_fold _ _ _ (by simp)]
  have hs : (2 * m) >>> 1 = m := by
    rw [Nat.shiftRight_eq_div_pow]; omega
  simp [dataLoopBody, hs]

/-- C21, on the code: for a packed digit string of odd length the last pass of
the decoding loop, at n = alength - 1, writes at index n >> 1 = alength / 2,
which is the length of the allocated vector and not below it: the write falls
outside the vector. -/
theorem data_loop_writes_outside_vector (contents : String)
    (h : contents.toList.length % 2 = 1) :
    contents.toList.length - 1 ∈ dataLoopIndices contents.toList.length ∧
    (contents.toList.length - 1) >>> 1 = contents.toList.length / 2 ∧
    ¬ ((contents.toList.length - 1) >>> 1 < (List.replicate (contents.toList.length / 2) 0).length) ∧
    decodeData contents = none ∧
    ASCIIParserParse ASCIIPListParserContextInit [tData contents] = none := by
  have hd := decodeData_odd contents h
  have hs : (contents.toList.length - 1) >>> 1 = contents.toList.length / 2 := by
    rw [Nat.shiftRight_eq_div_pow]; omega
  refine ⟨?_, hs, ?_, hd, ?_⟩
  · simp only [dataLoopIndices, List.mem_filter, List.mem_range, decide_eq_true_eq]
    omega
  · rw [hs]; simp
  · simp [ASCIIParserParse, parseLoop, tData, ASCIIPListLexerToken.isNegative, parseToken,
      parsePList, parseLiteral, ASCIIPListParserContextInit, ASCIIPListParserIsDone,
      ASCIIPListParserIsDictionary, hd]

/-- Witness of C21 on the digits `abc` of the literal `<abc>`: the passes are
n = 0 and n = 2, and the second writes at index 1 of a vector of length 1. -/
theorem data_loop_writes_outside_vector_witness :
    "abc".toList.length % 2 = 1 ∧ dataLoopIndices 3 = [0, 2] ∧ 2 >>> 1 = 1 ∧ 3 / 2 = 1 ∧
    decodeData "abc" = none ∧
    ASCIIParserParse ASCIIPListParserContextInit [tData "abc"] = none :=
  have h := data_loop_writes_outside_vector "abc" (by decide)
  ⟨by decide, by decide, by decide, by decide, h.2.2.2.1, h.2.2.2.2⟩

theorem lexerStop_failure_text (c : ASCIIPListParserContext) (k : ASCIIPListLexerToken)
    (he : c.error = none) (b : Bool) (c1 : ASCIIPListParserContext)
    (h : lexerStop c k = (b, c1)) :
    (b = true ∧ k = kASCIIPListLexerEndOfFile ∧ c.done = true ∧ c1 = c) ∨
      (b = false ∧ ∃ msg, c1.error = some msg ∧ msg ≠ "" ∧ msg ≠ "Unexpected state") := by
  obtain ⟨stack, root, level, done, error⟩ := c
  simp only at he
  subst he
  cases done <;> cases k <;>
    simp [lexerStop, ASCIIPListParserIsDone, ASCIIPListParserAbort] at h <;>
    (obtain ⟨h1, h2⟩ := h; subst h1 h2; simp)

theorem step_failure_text (s : ASCIIParseState) (c c1 : ASCIIPListParserContext)
    (tok : Token) (b : Bool) (hinv : LoopInvariant s c)
    (hs : parseToken s c tok = Step.ret b c1) :
    b = false ∧ ∃ msg, c1.error = some msg ∧ msg ≠ "" ∧ msg ≠ "Unexpected state" := by
  obtain ⟨stack, root, level, done, error⟩ := c
  obtain ⟨kind, contents⟩ := tok
  obtain ⟨he, hl, hf⟩ := hinv
  simp only at he hl hf
  subst he hl
  cases s with
  | kASCIIInvalid => simp [stateFits] at hf
  | kASCIIParseKeyValSeparator =>
    cases kind <;> simp [parseToken, parseKeyValSeparator, ASCIIPListParserAbort] at hs <;>
      (obtain ⟨h1, h2⟩ := hs; subst h1 h2; simp)
  | kASCIIParseEntrySeparator =>
    rcases stack with _ | ⟨(_ | ⟨_, _ | _⟩), st⟩ <;> cases done <;> simp [stateFits] at hf
    · cases kind <;>
      simp [parseToken, parseEntrySeparator, ASCIIPListParserIsDictionary,
        ASCIIPListParserIsArray, ASCIIPListParserAbort] at hs <;>
      first
      | (obtain ⟨h1, h2⟩ := hs; subst h1 h2; simp)
      | (rcases st with _ | ⟨(_ | ⟨_, _ | _⟩), st2⟩ <;>
         simp [containerEnded, ASCIIPListParserArrayEnd, ASCIIPListParserStoreValue,
           ASCIIPListParserDecrementLevel, ASCIIPListParserGetLevel, ASCIIPListParserFinish,
           ASCIIPListParserAbort, level_succ_ne_zero, level_succ_sub_one_ne_zero] at hs <;>
         (obtain ⟨h1, h2⟩ := hs; subst h1 h2; simp))
    · cases kind <;>
      simp [parseToken, parseEntrySeparator, ASCIIPListParserIsDictionary,
        ASCIIPListParserIsArray, ASCIIPListParserAbort] at hs <;>
      (obtain ⟨h1, h2⟩ := hs; subst h1 h2; simp)
  | kASCIIParsePList =>
    cases done with
    | true =>
      cases kind <;>
        simp [parseToken, parsePList, ASCIIPListParserIsDone, ASCIIPListParserAbort] at hs <;>
      (obtain ⟨h1, h2⟩ := hs; subst h1 h2; simp)
    | false =>
      clear hf
      cases hd : decodeData contents <;> by_cases hr : strchr contents '.' = true <;>
      rcases stack with _ | ⟨(_ | ⟨_, _ | _⟩), st⟩ <;>
      cases kind <;>
      simp [parseToken, parsePList, parseLiteral, afterStore, literalStored, containerBegun,
        containerEnded, ASCIIPListParserIsDone, ASCIIPListParserGetLevel,
        ASCIIPListParserIsDictionary, ASCIIPListParserStoreValue, ASCIIPListParserStoreKey,
        ASCIIPListParserFinish, ASCIIPListParserAbort, ASCIIPListParserDictionaryBegin,
        ASCIIPListParserArrayBegin, ASCIIPListParserDictionaryEnd, ASCIIPListParserArrayEnd,
        ASCIIPListParserIncrementLevel, ASCIIPListParserDecrementLevel, hd, hr,
        level_succ_ne_zero] at hs <;>
      first
      | (obtain ⟨h1, h2⟩ := hs; subst h1 h2; simp)
      | (rcases st with _ | ⟨(_ | ⟨_, _ | _⟩), st2⟩ <;>
         simp [level_succ_ne_zero, level_succ_sub_one_ne_zero] at hs <;>
         (obtain ⟨h1, h2⟩ := hs; subst h1 h2; simp))

theorem driver_failure_text (rest : List Token) :
    ∀ (pre : List Token) (s : ASCIIParseState) (c : ASCIIPListParserContext),
      Reaches pre s c → ∀ (c1 : ASCIIPListParserContext),
      parseLoop s c rest = some (false, c1) →
      ∃ msg, c1.error = some msg ∧ msg ≠ "" ∧ msg ≠ "Unexpected state" := by
  induction rest with
  | nil =>
    intro pre s c hr c1 h
    simp only [parseLoop, Option.some.injEq] at h
    rcases lexerStop_failure_text c _ (reaches_invariant pre s c hr).1 false c1 h with
      ⟨hb, _⟩ | ⟨_, hm⟩
    · exact absurd hb (by decide)
    · exact hm
  | cons tok rest ih =>
    intro pre s c hr c1 h
    simp only [parseLoop] at h
    split at h
    · simp only [Option.some.injEq] at h
      rcases lexerStop_failure_text c _ (reaches_invariant pre s c hr).1 false c1 h with
        ⟨hb, _⟩ | ⟨_, hm⟩
      · exact absurd hb (by decide)
      · exact hm
    · rename_i hn
      split at h
      · rename_i s1 c2 hs
        exact ih (pre ++ [tok]) s1 c2
          (Reaches.step pre s s1 c c2 tok hr (by simpa using hn) hs) c1 h
      · rename_i b2 c2 hs
        simp only [Option.some.injEq, Prod.mk.injEq] at h
        obtain ⟨h1, h2⟩ := h
        subst h1 h2
        exact (step_failure_text s c c2 tok false (reaches_invariant pre s c hr) hs).2
      · simp at h

/-- C22: at the top of every pass the state is PList, KeyValSeparator or
EntrySeparator, so the 'Unexpected state' branch is never taken; a ')' in state
EntrySeparator with a Dictionary on top is stopped by the test for ';' before the
abort with the null message; and every failure of the driver, in one pass or at
the end of any token stream, leaves a non-empty message in the context, which
is not 'Unexpected state'. -/
theorem driver_failures_carry_message (pre : List Token) (s : ASCIIParseState)
    (c : ASCIIPListParserContext) (h : Reaches pre s c) :
    (s = kASCIIParsePList ∨ s = kASCIIParseKeyValSeparator ∨ s = kASCIIParseEntrySeparator) ∧
    (∀ tok b c1, parseToken s c tok = Step.ret b c1 →
      b = false ∧ ∃ msg, c1.error = some msg ∧ msg ≠ "" ∧ msg ≠ "Unexpected state") ∧
    (∀ tok, parseToken s c tok ≠ Step.ret false (ASCIIPListParserAbort c none) ∧
      parseToken s c tok ≠
        Step.ret false (ASCIIPListParserAbort c (some "Unexpected state"))) ∧
    (∀ tok, tok.kind = kASCIIPListLexerTokenArrayEnd →
      ASCIIPListParserIsDictionary c = true →
      parseEntrySeparator c tok = Step.ret false (ASCIIPListParserAbort c (some "Expected ';'"))) ∧
    (∀ rest c1, parseLoop s c rest = some (false, c1) →
      ∃ msg, c1.error = some msg ∧ msg ≠ "" ∧ msg ≠ "Unexpected state") := by
  have hinv := reaches_invariant pre s c h
  have hstep := fun tok b c1 => step_failure_text s c c1 tok b hinv
  refine ⟨?_, hstep, ?_, ?_, fun rest c1 => driver_failure_text rest pre s c h c1⟩
  · obtain ⟨_, _, hf⟩ := hinv
    cases s <;> simp [stateFits] at hf ⊢
  · intro tok
    have he : c.error = none := hinv.1
    constructor
    · intro hq
      obtain ⟨_, msg, hm, _, _⟩ := hstep tok false _ hq
      simp [ASCIIPListParserAbort, he] at hm
    · intro hq
      obtain ⟨_, msg, hm, _, hne⟩ := hstep tok false _ hq
      simp only [ASCIIPListParserAbort, he, Option.some.injEq] at hm
      exact hne hm.symm
  · intro tok hk hd
    simp [parseEntrySeparator, hk, hd]

/-- Witness of C22 on `{ a = 1 )`: the ')' after a dictionary entry fails with
'Expected ';'', not with the null message. -/
theorem driver_failures_carry_message_witness :
    Reaches [tDictStart, tUnquoted "a", tEq, tNumber "1"] kASCIIParseEntrySeparator
      (openContext [Frame.dictionary [("a", Object.integer 1)] none] none) ∧
    ASCIIParserParse ASCIIPListParserContextInit
      [tDictStart, tUnquoted "a", tEq, tNumber "1", tArrayEnd] =
      some (false, ASCIIPListParserAbort
        (openContext [Frame.dictionary [("a", Object.integer 1)] none] none)
        (some "Expected ';'")) ∧
    ∃ msg, (ASCIIPListParserAbort
        (openContext [Frame.dictionary [("a", Object.integer 1)] none] none)
        (some "Expected ';'")).error = some msg ∧ msg ≠ "" ∧ msg ≠ "Unexpected state" :=
  have h1 : Reaches [tDictStart] kASCIIParsePList (openContext [Frame.dictionary [] none] none) :=
    Reaches.step [] _ _ _ _ tDictStart Reaches.init rfl rfl
  have h2 : Reaches [tDictStart, tUnquoted "a"] kASCIIParseKeyValSeparator
      (openContext [Frame.dictionary [] (some "a")] none) :=
    Reaches.step [tDictStart] _ _ _ _ (tUnquoted "a") h1 rfl rfl
  have h3 : Reaches [tDictStart, tUnquoted "a", tEq] kASCIIParsePList
      (openContext [Frame.dictionary [] (some "a")] none) :=
    Reaches.step [tDictStart, tUnquoted "a"] _ _ _ _ tEq h2 rfl rfl
  have h4 : Reaches [tDictStart, tUnquoted "a", tEq, tNumber "1"] kASCIIParseEntrySeparator
      (openContext [Frame.dictionary [("a", Object.integer 1)] none] none) :=
    Reaches.step [tDictStart, tUnquoted "a", tEq] _ _ _ _ (tNumber "1") h3 rfl rfl
  ⟨h4, rfl, (driver_failures_carry_message _ _ _ h4).2.2.2.2 [tArrayEnd] _ rfl⟩

end plist

namespace pbxbuild

theorem recursive_test_iff (path : StdString) :
    (path.length ≥ "**".toList.length ∧
      substr path (path.length - "**".toList.length) = some "**".toList) ↔
      ∃ root, path = root ++ "**".toList := by
  constructor
  · rintro ⟨hlen, hsub⟩
    refine ⟨path.take (path.length - "**".toList.length), ?_⟩
    unfold substr at hsub
    split at hsub
    · simp only [Option.some.injEq] at hsub
      conv_lhs => rw [← List.take_append_drop (path.length - "**".toList.length) path]
      rw [hsub]
    · simp at hsub
  · rintro ⟨root, rfl⟩
    refine ⟨by simp, ?_⟩
    have hl : (root ++ "**".toList).length - "**".toList.length = root.length := by simp
    rw [hl]
    simp [substr]

theorem recursive_root (root : StdString) :
    substrFront (root ++ "**".toList) ((root ++ "**".toList).length - "**".toList.length) =
      root := by
  have hl : (root ++ "**".toList).length - "**".toList.length = root.length := by simp
  rw [hl]
  simp [substrFront]

theorem enumerate_none (fs : FSUtil) (root absoluteRoot : StdString) (qs : List StdString) :
    qs.foldl (enumerateCallback fs root absoluteRoot) none = none := by
  induction qs with
  | nil => rfl
  | cons q qs ih => simpa [enumerateCallback] using ih

theorem enumerate_extends (fs : FSUtil) (root absoluteRoot : StdString)
    (qs : List StdString) :
    ∀ (a r : List StdString),
      qs.foldl (enumerateCallback fs root absoluteRoot) (some a) = some r →
      ∃ found, r = a ++ found := by
  induction qs with
  | nil =>
    intro a r h
    simp only [List.foldl_nil, Option.some.injEq] at h
    exact ⟨[], by simp [h]⟩
  | cons q qs ih =>
    intro a r h
    rw [List.foldl_cons] at h
    cases hq : enumerateCallback fs root absoluteRoot (some a) q with
    | none =>
      rw [hq, enumerate_none] at h
      simp at h
    | some a1 =>
      rw [hq] at h
      obtain ⟨found, hf⟩ := ih a1 r h
      simp only [enumerateCallback] at hq
      split at hq
      · split at hq
        · simp at hq
        · simp only [Option.some.injEq] at hq
          subst hq
          rw [hf, List.append_assoc]
          exact ⟨_, rfl⟩
      · simp only [Option.some.injEq] at hq
        subst hq
        exact ⟨found, hf⟩

theorem enumerate_total (fs : FSUtil) (root absoluteRoot : StdString) (qs : List StdString)
    (hlen : ∀ q ∈ qs, fs.TestForDirectory q = true → absoluteRoot.length + 1 ≤ q.length) :
    ∀ a : List StdString,
      ∃ r, qs.foldl (enumerateCallback fs root absoluteRoot) (some a) = some r := by
  induction qs with
  | nil => intro a; exact ⟨a, rfl⟩
  | cons q qs ih =>
    intro a
    rw [List.foldl_cons]
    by_cases hd : fs.TestForDirectory q = true
    · have hq := hlen q (by simp) hd
      simp only [enumerateCallback, hd, if_true, substr, hq]
      exact ih (fun x hx => hlen x (by simp [hx])) _
    · simp only [enumerateCallback, hd]
      exact ih (fun x hx => hlen x (by simp [hx])) _

theorem appendPath_contributes (fs : FSUtil) (workingDirectory : StdString)
    (args r : List StdString) (path : StdString)
    (h : appendPath fs workingDirectory args path = some r) :
    ∃ contribution, Contributes path contribution ∧ r = args ++ contribution := by
  unfold appendPath at h
  simp only at h
  split at h
  · rename_i hrec
    obtain ⟨root, rfl⟩ := (recursive_test_iff path).mp hrec
    rw [recursive_root] at h
    obtain ⟨found, hf⟩ := enumerate_extends fs _ _ _ _ _ h
    exact ⟨root :: found, Or.inl ⟨root, rfl, found, rfl⟩, by simp [hf]⟩
  · rename_i hrec
    simp only [Option.some.injEq] at h
    exact ⟨[path], Or.inr ⟨fun hex => hrec ((recursive_test_iff path).mpr hex), rfl⟩, h.symm⟩

theorem appendPaths_none (fs : FSUtil) (workingDirectory : StdString)
    (paths : List StdString) :
    paths.foldl
      (fun acc path =>
        match acc with
        | none => none
        | some a => appendPath fs workingDirectory a path) none = none := by
  induction paths with
  | nil => rfl
  | cons p ps ih => simpa using ih

theorem appendPaths_contributions {Environment : Type} (fs : FSUtil)
    (environment : Environment) (workingDirectory : StdString) (paths : List StdString) :
    ∀ (args result : List StdString),
      AppendPaths fs args environment workingDirectory paths = some result →
      ∃ contributions, List.Forall₂ Contributes paths contributions ∧
        result = args ++ contributions.flatten := by
  induction paths with
  | nil =>
    intro args result h
    simp only [AppendPaths, List.foldl_nil, Option.some.injEq] at h
    exact ⟨[], List.Forall₂.nil, by simp [h]⟩
  | cons p ps ih =>
    intro args result h
    simp only [AppendPaths, List.foldl_cons] at h
    cases hp : appendPath fs workingDirectory args p with
    | none =>
      rw [hp, appendPaths_none fs] at h
      simp at h
    | some a1 =>
      rw [hp] at h
      obtain ⟨c, hc, ha1⟩ := appendPath_contributes fs workingDirectory args a1 p hp
      obtain ⟨cs, hcs, hr⟩ := ih a1 result h
      exact ⟨c :: cs, List.Forall₂.cons hc hcs, by simp [hr, ha1]⟩

theorem appendPaths_plain {Environment : Type} (fs : FSUtil) (environment : Environment)
    (workingDirectory : StdString) (paths : List StdString) :
    ∀ args : List StdString, (∀ p ∈ paths, ¬ ∃ root, p = root ++ "**".toList) →
      AppendPaths fs args environment workingDirectory paths = some (args ++ paths) := by
  induction paths with
  | nil => intro args _; simp [AppendPaths]
  | cons p ps ih =>
    intro args h
    have hp : appendPath fs workingDirectory args p = some (args ++ [p]) := by
      unfold appendPath
      simp only
      rw [if_neg (fun hrec => h p (by simp) ((recursive_test_iff p).mp hrec))]
    have := ih (args ++ [p]) (fun x hx => h x (by simp [hx]))
    simp only [AppendPaths, List.foldl_cons, hp] at this ⊢
    simpa using this

theorem appendPaths_total {Environment : Type} (fs : FSUtil) (environment : Environment)
    (workingDirectory : StdString) (paths : List StdString) :
    ∀ args : List StdString, EnumerationBelowRoot fs workingDirectory paths →
      ∃ result, AppendPaths fs args environment workingDirectory paths = some result := by
  induction paths with
  | nil => intro args _; exact ⟨args, rfl⟩
  | cons p ps ih =>
    intro args h
    have hp : ∃ a1, appendPath fs workingDirectory args p = some a1 := by
      unfold appendPath
      simp only
      split
      · rename_i hrec
        obtain ⟨root, rfl⟩ := (recursive_test_iff p).mp hrec
        rw [recursive_root]
        exact enumerate_total fs _ _ _ (h root (by simp)) _
      · exact ⟨_, rfl⟩
    obtain ⟨a1, ha1⟩ := hp
    obtain ⟨result, hr⟩ := ih a1 (fun root hroot => h root (List.mem_cons_of_mem _ hroot))
    refine ⟨result, ?_⟩
    simp only [AppendPaths, List.foldl_cons, ha1] at hr ⊢
    exact hr

/-- C23: when no path ends with `**`, `ExpandRecursive` returns exactly the
input list, whatever the environment, the working directory and the file
system; for every input, the result is the concatenation, in the order of the
input, of what each path contributes, a path ending with `**` contributing its
root first; and a result is returned whenever the enumeration hands out paths
below their root. -/
theorem expandRecursive_keeps_order {Environment : Type} (fs : FSUtil)
    (paths : List StdString) (environment : Environment) (workingDirectory : StdString) :
    ((∀ p ∈ paths, ¬ ∃ root, p = root ++ "**".toList) →
      Tool.SearchPaths.ExpandRecursive fs paths environment workingDirectory = some paths) ∧
    (∀ result, Tool.SearchPaths.ExpandRecursive fs paths environment workingDirectory =
        some result →
      ∃ contributions, List.Forall₂ Contributes paths contributions ∧
        result = contributions.flatten) ∧
    (EnumerationBelowRoot fs workingDirectory paths →
      ∃ result, Tool.SearchPaths.ExpandRecursive fs paths environment workingDirectory =
        some result) := by
  refine ⟨?_, ?_, ?_⟩
  · intro h
    have := appendPaths_plain fs environment workingDirectory paths [] h
    simpa [Tool.SearchPaths.ExpandRecursive] using this
  · intro result h
    obtain ⟨cs, hcs, hr⟩ := appendPaths_contributions fs environment workingDirectory paths []
      result h
    exact ⟨cs, hcs, by simpa using hr⟩
  · intro h
    exact appendPaths_total fs environment workingDirectory paths [] h

/-- The result for an input with a recursive path: `lib/**`, below which the
enumeration finds the directory `/work/lib/a` and the file `/work/lib/f`,
between two plain paths. -/
theorem expandRecursive_example :
    Tool.SearchPaths.ExpandRecursive
      { ResolveRelativePath := fun _ _ => "/work/lib".toList
        EnumerateRecursive := fun _ => ["/work/lib/a".toList, "/work/lib/f".toList]
        TestForDirectory := fun q => q == "/work/lib/a".toList }
      ["x".toList, "lib/**".toList, "y".toList] () "/work".toList =
      some ["x".toList, "lib/".toList, "lib//a".toList, "y".toList] := by
  decide

/-- Witness of C23 on the two plain paths `include` and `src/lib`, and on
`x`, `lib/**`, `y`. -/
theorem expandRecursive_keeps_order_witness :
    (∀ p ∈ ["include".toList, "src/lib".toList], ¬ ∃ root, p = root ++ "**".toList) ∧
    Tool.SearchPaths.ExpandRecursive
      { ResolveRelativePath := fun root wd => wd ++ "/".toList ++ root
        EnumerateRecursive := fun _ => []
        TestForDirectory := fun _ => true }
      ["include".toList, "src/lib".toList] () "/work".toList =
      some ["include".toList, "src/lib".toList] ∧
    ∃ contributions,
      List.Forall₂ Contributes ["x".toList, "lib/**".toList, "y".toList] contributions ∧
      ["x".toList, "lib/".toList, "lib//a".toList, "y".toList] = contributions.flatten :=
  have hplain : ∀ p ∈ ["include".toList, "src/lib".toList],
      ¬ ∃ root, p = root ++ "**".toList := by
    intro p hp hex
    obtain ⟨root, hroot⟩ := hex
    have hlast : p.getLast? = some '*' := by
      rw [hroot]
      simp
    simp only [List.mem_cons, List.mem_singleton, List.not_mem_nil, or_false] at hp
    rcases hp with hp | hp <;> subst hp <;> simp at hlast
  ⟨hplain, (expandRecursive_keeps_order _ _ () "/work".toList).1 hplain,
    (expandRecursive_keeps_order _ _ () "/work".toList).2.1 _ expandRecursive_example⟩

end pbxbuild

